import Mathlib

/-!
# A shallow embedding of the `skiplist` Go package

The Go program (`skiplist.go`) implements a layered doubly linked skip list
over string keys with `[]byte` values, an arena of heap-allocated nodes
linked by per-level forward/backward pointers, two sentinel nodes, and a
shared search-history scratch buffer.

The embedding below models:
* Go strings / byte slices as `List Nat` (byte sequences), with Go's
  lexicographic byte-wise `<` as `keyLt`;
* the pointer heap as an arena `List SkipListNode` indexed by `NodeId`,
  with Go pointers as `Option NodeId` (`none` = `nil`);
* fallible execution (slice index out of range, nil dereference, negative
  `make` length, or exhausted traversal fuel standing for divergence) as
  `Option`-valued steps, `none` meaning the Go code panics (or, for fuel,
  fails to terminate);
* the pseudo-random source as an explicit stream of draws `Nat → Nat`;
* `uint64` arithmetic on `size` as `Nat` arithmetic modulo `2 ^ 64`.

Mutex operations have no data effect inside a single thread; the lock
*placement* of `Set` (a locked search section, an unlock, then a separately
locked splice section sharing `list.history`) is modelled by exposing the
two sections (`findInternal`, `insertNode` / `setItemValue`) as separate
atomic steps that an interleaving may separate.
-/

namespace Skiplist

/-- Go `string` / `[]byte`: a byte sequence. -/
abbrev Key := List Nat

/-- Go `[]byte` value payload. -/
abbrev Value := List Nat

/-- Go string comparison `a < b`: lexicographic byte-wise order
(source: the comparison `current.next(i).item.key < key` in `findInternal`). -/
def keyLt : Key → Key → Bool
  | [], [] => false
  | [], _ :: _ => true
  | _ :: _, [] => false
  | a :: as, b :: bs => if a < b then true else if b < a then false else keyLt as bs

/-- Source `SkipListItem`: `key string; value []byte`. -/
structure SkipListItem where
  key : Key
  value : Value
  deriving DecidableEq, Repr, Inhabited

/-- Arena index of a node; Go pointers become `Option NodeId`. -/
abbrev NodeId := Nat

/-- A Go `*SkipListNode`: `none` is `nil`. -/
abbrev Ptr := Option NodeId

/-- Source `SkipListNode`: `levels int; prevNode, nextNode []*SkipListNode;
item SkipListItem; isEndNode bool`. -/
structure SkipListNode where
  levels : Nat
  prevNode : List Ptr
  nextNode : List Ptr
  item : SkipListItem
  isEndNode : Bool
  deriving DecidableEq, Repr, Inhabited

/-- The whole mutable world of one `SkipList` value: the node arena plus the
fields of the source `SkipList` struct (`maxLevel, length, size, head, tail,
history`; `rand` is externalized as a draw stream, `mutex` has no data
content). -/
structure State where
  heap : List SkipListNode
  maxLevel : Nat
  length : Int
  size : Nat
  head : NodeId
  tail : NodeId
  history : List Ptr
  deriving DecidableEq, Repr, Inhabited

/-- `uint64` modulus. -/
def u64 : Nat := 2 ^ 64

/-- Go `uint64` addition (`list.size += …`). -/
def u64add (a b : Nat) : Nat := (a + b) % u64

/-- Go `uint64` subtraction (`list.size -= …`), wrapping on underflow. -/
def u64sub (a b : Nat) : Nat := (a + (u64 - b % u64)) % u64

/-- Dereference a node id in the arena; `none` is a wild pointer (never
produced by the modelled code). -/
def getNode (s : State) (id : NodeId) : Option SkipListNode := s.heap[id]?

/-- Overwrite the node stored at `id`. -/
def setNode (s : State) (id : NodeId) (n : SkipListNode) : State :=
  { s with heap := s.heap.set id n }

/-- Go `node.nextNode[L] = p`: panics (`none`) when `L` is out of range. -/
def setNextPtr (s : State) (id : NodeId) (L : Nat) (p : Ptr) : Option State := do
  let n ← getNode s id
  if L < n.nextNode.length then
    pure (setNode s id { n with nextNode := n.nextNode.set L p })
  else none

/-- Go `node.prevNode[L] = p`: panics (`none`) when `L` is out of range. -/
def setPrevPtr (s : State) (id : NodeId) (L : Nat) (p : Ptr) : Option State := do
  let n ← getNode s id
  if L < n.prevNode.length then
    pure (setNode s id { n with prevNode := n.prevNode.set L p })
  else none

/-- Go `node.item.value = value` (the in-place update branch of `Set`). -/
def setItemValue (s : State) (id : NodeId) (v : Value) : Option State := do
  let n ← getNode s id
  pure (setNode s id { n with item := { n.item with value := v } })

/-- Read `node.nextNode[L]` (with its bounds check). -/
def nextPtrAt (s : State) (id : NodeId) (L : Nat) : Option Ptr := do
  let n ← getNode s id
  n.nextNode[L]?

/-- Read `node.prevNode[L]` (with its bounds check). -/
def prevPtrAt (s : State) (id : NodeId) (L : Nat) : Option Ptr := do
  let n ← getNode s id
  n.prevNode[L]?

/-- Source `func (node *SkipListNode) next(targetLevel int) *SkipListNode`:
returns `nil` when `node.levels < targetLevel`, otherwise indexes
`node.nextNode[targetLevel]` — which panics when `targetLevel = node.levels`. -/
def next (s : State) (id : NodeId) (targetLevel : Nat) : Option Ptr := do
  let n ← getNode s id
  if n.levels < targetLevel then pure none
  else n.nextNode[targetLevel]?

/-- Source `func (node *SkipListNode) Next() *SkipListNode`: reads
`node.nextNode[0]` and hides it when it is the end sentinel. -/
def Next (s : State) (id : NodeId) : Option Ptr := do
  let n ← getNode s id
  let p ← n.nextNode[0]?
  match p with
  | some nid => do
    let m ← getNode s nid
    if m.isEndNode then pure none else pure p
  | none => pure none

/-- Source `func (node *SkipListNode) Prev() *SkipListNode`. -/
def Prev (s : State) (id : NodeId) : Option Ptr := do
  let n ← getNode s id
  let p ← n.prevNode[0]?
  match p with
  | some nid => do
    let m ← getNode s nid
    if m.isEndNode then pure none else pure p
  | none => pure none

/-- Source `appendOnLevel`: splice `newId` immediately after `nodeId` at
level `targetLevel`, statement by statement with fresh heap reads, exactly as
the Go method body. -/
def appendOnLevel (s : State) (nodeId newId : NodeId) (targetLevel : Nat) :
    Option State := do
  -- if node.nextNode[targetLevel] != nil { node.nextNode[targetLevel].prevNode[targetLevel] = newNode }
  let n ← getNode s nodeId
  let succ ← n.nextNode[targetLevel]?
  let s1 ← match succ with
    | some succId => setPrevPtr s succId targetLevel (some newId)
    | none => pure s
  -- newNode.prevNode[targetLevel] = node
  let s2 ← setPrevPtr s1 newId targetLevel (some nodeId)
  -- newNode.nextNode[targetLevel] = node.nextNode[targetLevel]
  let n2 ← getNode s2 nodeId
  let succ2 ← n2.nextNode[targetLevel]?
  let s3 ← setNextPtr s2 newId targetLevel succ2
  -- node.nextNode[targetLevel] = newNode
  setNextPtr s3 nodeId targetLevel (some newId)

/-- Source `removeOnLevel`: unlink `nodeId` at level `targetLevel`. -/
def removeOnLevel (s : State) (nodeId : NodeId) (targetLevel : Nat) :
    Option State := do
  -- if node.nextNode[targetLevel] != nil { node.nextNode[targetLevel].prevNode[targetLevel] = node.prevNode[targetLevel] }
  let n ← getNode s nodeId
  let succ ← n.nextNode[targetLevel]?
  let s1 ← match succ with
    | some succId => do
      let prevVal ← n.prevNode[targetLevel]?
      setPrevPtr s succId targetLevel prevVal
    | none => pure s
  -- if node.prevNode[targetLevel] != nil { node.prevNode[targetLevel].nextNode[targetLevel] = node.nextNode[targetLevel] }
  let n2 ← getNode s1 nodeId
  let prev2 ← n2.prevNode[targetLevel]?
  match prev2 with
  | some prevId => do
    let succ2 ← n2.nextNode[targetLevel]?
    setNextPtr s1 prevId targetLevel succ2
  | none => pure s1

/-- The sentinel node `New` builds for `head` and `tail`. -/
def sentinelNode (maxLevel : Nat) : SkipListNode :=
  { levels := maxLevel
    prevNode := List.replicate maxLevel none
    nextNode := List.replicate maxLevel none
    item := { key := [], value := [] }
    isEndNode := true }

/-- The `SkipList` literal built in `New` before the linking loop:
head at arena slot 0, tail at slot 1. -/
def newStateAux (maxLevel : Nat) : State :=
  { heap := [sentinelNode maxLevel, sentinelNode maxLevel]
    maxLevel := maxLevel
    length := 0
    size := 0
    head := 0
    tail := 1
    history := List.replicate maxLevel none }

/-- The loop `for i := 0; i < maxLevel; i++ { list.head.appendOnLevel(list.tail, i) }`:
`linkLoop s i` has performed the iterations for levels `0 .. i-1`. -/
def linkLoop (s : State) : Nat → Option State
  | 0 => pure s
  | i + 1 => do
    let s' ← linkLoop s i
    appendOnLevel s' 0 1 i

/-- Source `func New(maxLevel int) *SkipList`. A negative `maxLevel` makes
`make([]*SkipListNode, maxLevel)` panic; otherwise the sentinels are built
and linked at every level. -/
def New (maxLevel : Int) : Option State :=
  if maxLevel < 0 then none
  else linkLoop (newStateAux maxLevel.toNat) maxLevel.toNat

/-- Source `MaxLevel()`. -/
def MaxLevel (s : State) : Nat := s.maxLevel

/-- Source `Length()`. -/
def Length (s : State) : Int := s.length

/-- Source `Size()`. -/
def Size (s : State) : Nat := s.size

/-- Source `Front()`: `return list.head.nextNode[0]` — the raw pointer, with
no sentinel check. -/
def Front (s : State) : Option Ptr := do
  let n ← getNode s s.head
  n.nextNode[0]?

/-- Source `Back()`: `return list.tail.prevNode[0]`. -/
def Back (s : State) : Option Ptr := do
  let n ← getNode s s.tail
  n.prevNode[0]?

/-- The inner `for list.tail != current.next(i) && current.next(i).item.key < key`
walk of `findInternal` at level `i`, with explicit fuel (the Go loop's
termination is a consequence of the structure's finiteness; `none` on fuel
exhaustion stands for divergence, and is never reached from an invariant
state with fuel `heap.length + 1`). -/
def findLoop (s : State) (key : Key) (i : Nat) : Nat → NodeId → Option NodeId
  | 0, _ => none
  | fuel + 1, current => do
    let nxt ← next s current i
    if nxt ≠ some s.tail then
      match nxt with
      | none => none   -- current.next(i).item dereferences nil: panic
      | some nid => do
        let nnode ← getNode s nid
        if keyLt nnode.item.key key then findLoop s key i fuel nid
        else pure current
    else pure current

/-- The outer `for i := list.maxLevel - 1; i >= 0; i--` of `findInternal`:
`findOuter s key i current` still has to process levels `i-1, …, 0`,
recording `history[level] = current` after each level's walk. -/
def findOuter (s : State) (key : Key) : Nat → NodeId → Option (State × NodeId)
  | 0, current => pure (s, current)
  | i + 1, current => do
    let c ← findLoop s key i (s.heap.length + 1) current
    if i < s.history.length then
      findOuter { s with history := s.history.set i (some c) } key i c
    else none   -- history[i] = current: index out of range

/-- Source `findInternal`: the level-descending search. Returns the updated
state (its `history` rewritten) and the exact-match node, `none` for
not-found. An overall `none` is a panic. -/
def findInternal (s : State) (key : Key) : Option (State × Option NodeId) := do
  let (s', c) ← findOuter s key s.maxLevel s.head
  -- current = current.next(0)
  let nxt ← next s' c 0
  match nxt with
  | none => none   -- current.isEndNode on a nil pointer: panic
  | some nid => do
    let n ← getNode s' nid
    -- if current.isEndNode || !current.match(key) { return nil }
    if n.isEndNode ∨ key ≠ n.item.key then pure (s', none)
    else pure (s', some nid)

/-- The splice loop of `insertNode`
(`for i := 1; i <= randomLevel; i++ { history[i-1].appendOnLevel(node, i-1) }`):
`spliceLoop newId i s` has performed the iterations for level indices
`0 .. i-1`. Reading `history[idx]` panics out of range; calling the method on
a `nil` entry panics at its first field access. -/
def spliceLoop (newId : NodeId) : Nat → State → Option State
  | 0, s => pure s
  | i + 1, s => do
    let s' ← spliceLoop newId i s
    let p ← s'.history[i]?
    match p with
    | some pid => appendOnLevel s' pid newId i
    | none => none

/-- Source `insertNode`, with the result of `list.randomLevel()` passed in as
`randomLevel` (the draw stream is externalized; see `randomLevel` below). -/
def insertNode (s : State) (key : Key) (value : Value) (randomLevel : Nat) :
    Option State := do
  let node : SkipListNode :=
    { levels := randomLevel
      prevNode := List.replicate randomLevel none
      nextNode := List.replicate randomLevel none
      item := { key := key, value := value }
      isEndNode := false }
  let newId := s.heap.length
  let s1 : State := { s with heap := s.heap ++ [node] }
  let s2 ← spliceLoop newId randomLevel s1
  pure { s2 with
    length := s2.length + 1
    size := u64add (u64add s2.size key.length) value.length }

/-- Source `deleteNode`: subtract the byte lengths from `size`, unlink at
levels `0 .. levels-1`, decrement `length`. -/
def deleteNode (s : State) (nodeId : NodeId) : Option State := do
  let n ← getNode s nodeId
  let s0 : State :=
    { s with size := u64sub (u64sub s.size n.item.key.length) n.item.value.length }
  let rec unlinkLoop : Nat → State → Option State
    | 0, t => pure t
    | i + 1, t => do
      let t' ← unlinkLoop i t
      removeOnLevel t' nodeId i
  let s1 ← unlinkLoop n.levels s0
  pure { s1 with length := s1.length - 1 }

/-- Source `Set`: search, then either update the found node's value in place
or insert a fresh node using the history left by the search. `randomLevel`
is the value `list.randomLevel()` would return inside `insertNode` (only
consumed on the insert path, as in the source). -/
def Set (s : State) (key : Key) (value : Value) (randomLevel : Nat) :
    Option State := do
  let (s', r) ← findInternal s key
  match r with
  | some nid => setItemValue s' nid value
  | none => insertNode s' key value randomLevel

/-- Source `Get`: search; `nil` or a pointer to the matched node's item. The
returned state records the search's `history` write. -/
def Get (s : State) (key : Key) : Option (State × Option SkipListItem) := do
  let (s', r) ← findInternal s key
  match r with
  | none => pure (s', none)
  | some nid => do
    let n ← getNode s' nid
    pure (s', some n.item)

/-- Source `Remove`: search; silently return when absent, else unlink. -/
def Remove (s : State) (key : Key) : Option State := do
  let (s', r) ← findInternal s key
  match r with
  | none => pure s'
  | some nid => deleteNode s' nid

/-- Source `const prob = 1 << 30`. -/
def prob : Nat := 2 ^ 30

/-- The loop of `randomLevel`: `level` starts at 1 and increments while
`level < maxLevel` and the next draw exceeds `prob` (Go `rand.Int31() > prob`,
draws consumed left to right from the stream). -/
def randomLevelAux (maxLevel : Nat) (draws : Nat → Nat) (idx level : Nat) : Nat :=
  if level < maxLevel then
    if prob < draws idx then randomLevelAux maxLevel draws (idx + 1) (level + 1)
    else level
  else level
termination_by maxLevel - level

/-- Source `randomLevel`, over an explicit stream of `rand.Int31()` draws. -/
def randomLevel (maxLevel : Nat) (draws : Nat → Nat) : Nat :=
  randomLevelAux maxLevel draws 0 1

/-- One externally chosen structural operation; `lvl` is the level the
pseudo-random source yields for an insert. -/
inductive Op where
  | set (key : Key) (value : Value) (lvl : Nat)
  | remove (key : Key)
  deriving DecidableEq, Repr

/-- Run one operation. -/
def runOp (s : State) : Op → Option State
  | .set k v l => Set s k v l
  | .remove k => Remove s k

/-- Run a sequence of operations left to right. -/
def runOps : State → List Op → Option State
  | s, [] => pure s
  | s, op :: ops => do
    let s' ← runOp s op
    runOps s' ops

/-- The level chosen for an insert is legal for a list of capacity `m`
(`randomLevel` guarantees this; see `randomLevel_mem_range`). -/
def OpOk (m : Nat) : Op → Prop
  | .set _ _ l => 1 ≤ l ∧ l ≤ m
  | .remove _ => True

instance (m : Nat) (op : Op) : Decidable (OpOk m op) := by
  cases op <;> simp only [OpOk] <;> infer_instance

/-- Every operation of the list has a legal insert level. -/
def OpsOk (m : Nat) (ops : List Op) : Prop := ∀ op ∈ ops, OpOk m op

instance (m : Nat) (ops : List Op) : Decidable (OpsOk m ops) :=
  List.decidableBAll (OpOk m) ops

/-- The node-visiting loop a caller writes with the public `Next`:
collect `id`, follow `Next` until it yields `nil`. Fuel bounds the walk. -/
def walkNext (s : State) : Nat → NodeId → Option (List NodeId)
  | 0, _ => none
  | fuel + 1, id => do
    let p ← Next s id
    match p with
    | none => pure [id]
    | some nid => do
      let rest ← walkNext s fuel nid
      pure (id :: rest)

/-- The mirrored loop with the public `Prev`. -/
def walkPrev (s : State) : Nat → NodeId → Option (List NodeId)
  | 0, _ => none
  | fuel + 1, id => do
    let p ← Prev s id
    match p with
    | none => pure [id]
    | some nid => do
      let rest ← walkPrev s fuel nid
      pure (id :: rest)

/-- The level-0 traversal `Front()` then repeated `Next()`: the list of node
ids visited (empty when `Front()` is `nil`). -/
def frontTraversal (s : State) : Option (List NodeId) := do
  let f ← Front s
  match f with
  | none => pure []
  | some nid => walkNext s (s.heap.length + 1) nid

/-- The level-0 traversal `Back()` then repeated `Prev()`. -/
def backTraversal (s : State) : Option (List NodeId) := do
  let b ← Back s
  match b with
  | none => pure []
  | some nid => walkPrev s (s.heap.length + 1) nid

/-- Walk the raw forward pointers at level `L` from `id` until the tail
sentinel, collecting the ids visited (tail included). -/
def walkLevel (s : State) (L : Nat) : Nat → NodeId → Option (List NodeId)
  | 0, _ => none
  | fuel + 1, id =>
    if id = s.tail then pure [id]
    else do
      let p ← nextPtrAt s id L
      match p with
      | none => none
      | some nid => do
        let rest ← walkLevel s L fuel nid
        pure (id :: rest)

/-- The chain of nodes reachable by forward pointers from `head` at level
`L`, head and tail sentinels included. -/
def levelChain (s : State) (L : Nat) : Option (List NodeId) :=
  walkLevel s L (s.heap.length + 1) s.head

/-- The item stored at an id (for reading entries off concrete states). -/
def entryOf (s : State) (id : NodeId) : SkipListItem :=
  ((getNode s id).getD default).item

/-- The (key, value) entries currently present, read off the level-0 chain
(sentinels stripped). -/
def level0Entries (s : State) : Option (List SkipListItem) := do
  let c ← levelChain s 0
  pure (((c.drop 1).dropLast).map (entryOf s))


/-! ## The byte-wise order: `keyLt` is a strict total order -/

theorem keyLt_cons (x y : Nat) (xs ys : Key) :
    keyLt (x :: xs) (y :: ys) = (decide (x < y) || (decide (x = y) && keyLt xs ys)) := by
  simp only [keyLt]
  by_cases h1 : x < y
  · simp [h1]
  · by_cases h2 : y < x
    · have hne : x ≠ y := by omega
      simp [h1, h2, hne]
    · have hxy : x = y := by omega
      simp [h1, h2, hxy]

theorem keyLt_irrefl : ∀ a : Key, keyLt a a = false
  | [] => rfl
  | x :: xs => by simp [keyLt_cons, keyLt_irrefl xs]

theorem keyLt_trans : ∀ a b c : Key,
    keyLt a b = true → keyLt b c = true → keyLt a c = true := by
  intro a
  induction a with
  | nil =>
    intro b c h1 h2
    cases b <;> cases c <;> simp_all [keyLt]
  | cons x xs ih =>
    intro b c h1 h2
    cases b with
    | nil => simp [keyLt] at h1
    | cons y ys =>
      cases c with
      | nil => simp [keyLt] at h2
      | cons z zs =>
        simp only [keyLt_cons, Bool.or_eq_true, Bool.and_eq_true, decide_eq_true_eq] at h1 h2 ⊢
        rcases h1 with h1 | ⟨h1e, h1r⟩ <;> rcases h2 with h2 | ⟨h2e, h2r⟩
        · exact Or.inl (h1.trans h2)
        · exact Or.inl (h2e ▸ h1)
        · exact Or.inl (h1e ▸ h2)
        · exact Or.inr ⟨h1e.trans h2e, ih ys zs h1r h2r⟩

theorem keyLt_asymm (a b : Key) (h : keyLt a b = true) : keyLt b a = false := by
  by_contra hc
  have hba : keyLt b a = true := by
    cases hab : keyLt b a
    · exact absurd hab hc
    · rfl
  have := keyLt_trans a b a h hba
  rw [keyLt_irrefl] at this
  exact absurd this (by simp)

theorem keyLt_eq_of_both_false : ∀ a b : Key,
    keyLt a b = false → keyLt b a = false → a = b := by
  intro a
  induction a with
  | nil =>
    intro b h1 _
    cases b with
    | nil => rfl
    | cons y ys => simp [keyLt] at h1
  | cons x xs ih =>
    intro b h1 h2
    cases b with
    | nil => simp [keyLt] at h2
    | cons y ys =>
      simp only [keyLt_cons, Bool.or_eq_false_iff, Bool.and_eq_false_iff,
        decide_eq_false_iff_not] at h1 h2
      have hxy : x = y := by omega
      subst hxy
      rcases h1.2 with h | h
      · exact absurd rfl h
      · rcases h2.2 with h' | h'
        · exact absurd rfl h'
        · rw [ih ys h h']

theorem keyLt_ne (a b : Key) (h : keyLt a b = true) : a ≠ b := by
  intro he
  subst he
  rw [keyLt_irrefl] at h
  exact absurd h (by simp)

theorem keyLt_of_ne_of_not_lt (a b : Key)
    (hne : a ≠ b) (h : keyLt a b = false) : keyLt b a = true := by
  cases hba : keyLt b a
  · exact absurd (keyLt_eq_of_both_false b a hba h) (Ne.symm hne)
  · rfl

theorem keyLt_not_lt_of_lt_of_not_lt (k a b : Key)
    (hab : keyLt a b = true) (ha : keyLt a k = false) : keyLt b k = false := by
  cases hbk : keyLt b k
  · rfl
  · have := keyLt_trans a b k hab hbk
    rw [ha] at this
    exact absurd this (by simp)


/-! ## Heap accessors -/

/-- Total read of the node at `id` (`default` off the end; every use is
guarded by a bound). -/
def nodeAt (s : State) (id : NodeId) : SkipListNode := (getNode s id).getD default

/-- The `levels` field of the node at `id`. -/
def nodeLevels (s : State) (id : NodeId) : Nat := (nodeAt s id).levels

/-- The key stored at `id`. -/
def nodeKey (s : State) (id : NodeId) : Key := (nodeAt s id).item.key

/-- The `isEndNode` flag at `id`. -/
def nodeIsEnd (s : State) (id : NodeId) : Bool := (nodeAt s id).isEndNode

theorem entryOf_eq_nodeAt (s : State) (id : NodeId) :
    entryOf s id = (nodeAt s id).item := rfl

theorem getNode_eq_some (s : State) (id : NodeId) (h : id < s.heap.length) :
    getNode s id = some (nodeAt s id) := by
  simp [getNode, nodeAt, List.getElem?_eq_getElem h]

theorem getNode_eq_none (s : State) (id : NodeId) (h : s.heap.length ≤ id) :
    getNode s id = none := by
  simp [getNode, List.getElem?_eq_none h]

theorem nextPtrAt_def (s : State) (id : NodeId) (L : Nat) (h : id < s.heap.length) :
    nextPtrAt s id L = (nodeAt s id).nextNode[L]? := by
  simp [nextPtrAt, getNode_eq_some s id h]

theorem prevPtrAt_def (s : State) (id : NodeId) (L : Nat) (h : id < s.heap.length) :
    prevPtrAt s id L = (nodeAt s id).prevNode[L]? := by
  simp [prevPtrAt, getNode_eq_some s id h]

/-! ## Small-footprint heap writes and their frame lemmas

Each successful `setNextPtr` / `setPrevPtr` / `setItemValue` is one of the
following total writes; every other read of the heap is unchanged. -/

/-- The effect of a successful `node.nextNode[L] = p`. -/
def writeNext (s : State) (id : NodeId) (L : Nat) (p : Ptr) : State :=
  setNode s id { nodeAt s id with nextNode := (nodeAt s id).nextNode.set L p }

/-- The effect of a successful `node.prevNode[L] = p`. -/
def writePrev (s : State) (id : NodeId) (L : Nat) (p : Ptr) : State :=
  setNode s id { nodeAt s id with prevNode := (nodeAt s id).prevNode.set L p }

/-- The effect of `node.item.value = v`. -/
def writeValue (s : State) (id : NodeId) (v : Value) : State :=
  setNode s id { nodeAt s id with item := { (nodeAt s id).item with value := v } }

theorem setNextPtr_eq (s : State) (id : NodeId) (L : Nat) (p : Ptr)
    (hid : id < s.heap.length) (hL : L < (nodeAt s id).nextNode.length) :
    setNextPtr s id L p = some (writeNext s id L p) := by
  simp [setNextPtr, getNode_eq_some s id hid, hL, writeNext]

theorem setPrevPtr_eq (s : State) (id : NodeId) (L : Nat) (p : Ptr)
    (hid : id < s.heap.length) (hL : L < (nodeAt s id).prevNode.length) :
    setPrevPtr s id L p = some (writePrev s id L p) := by
  simp [setPrevPtr, getNode_eq_some s id hid, hL, writePrev]

theorem setItemValue_eq (s : State) (id : NodeId) (v : Value)
    (hid : id < s.heap.length) :
    setItemValue s id v = some (writeValue s id v) := by
  simp [setItemValue, getNode_eq_some s id hid, writeValue]

@[simp] theorem setNode_maxLevel (s : State) (id : NodeId) (n : SkipListNode) :
    (setNode s id n).maxLevel = s.maxLevel := rfl
@[simp] theorem setNode_length (s : State) (id : NodeId) (n : SkipListNode) :
    (setNode s id n).length = s.length := rfl
@[simp] theorem setNode_size (s : State) (id : NodeId) (n : SkipListNode) :
    (setNode s id n).size = s.size := rfl
@[simp] theorem setNode_head (s : State) (id : NodeId) (n : SkipListNode) :
    (setNode s id n).head = s.head := rfl
@[simp] theorem setNode_tail (s : State) (id : NodeId) (n : SkipListNode) :
    (setNode s id n).tail = s.tail := rfl
@[simp] theorem setNode_history (s : State) (id : NodeId) (n : SkipListNode) :
    (setNode s id n).history = s.history := rfl
@[simp] theorem setNode_heap_length (s : State) (id : NodeId) (n : SkipListNode) :
    (setNode s id n).heap.length = s.heap.length := by simp [setNode]

theorem nodeAt_setNode_self (s : State) (id : NodeId) (n : SkipListNode)
    (h : id < s.heap.length) : nodeAt (setNode s id n) id = n := by
  simp [nodeAt, getNode, setNode, List.getElem?_set, h]

theorem nodeAt_setNode_ne (s : State) (id : NodeId) (n : SkipListNode)
    (a : NodeId) (h : a ≠ id) : nodeAt (setNode s id n) a = nodeAt s a := by
  simp [nodeAt, getNode, setNode, List.getElem?_set, Ne.symm h]

theorem setNode_out_of_range (s : State) (id : NodeId) (n : SkipListNode)
    (h : s.heap.length ≤ id) : setNode s id n = s := by
  simp [setNode, List.set_eq_of_length_le h]


/-! ### Reads across `writeNext` / `writePrev` / `writeValue` -/

/-- Any per-node observation that the written record agrees on is preserved
by `setNode`. -/
theorem nodeAt_map_setNode {α : Type} (s : State) (id : NodeId) (n : SkipListNode)
    (f : SkipListNode → α) (hf : f n = f (nodeAt s id)) (a : NodeId) :
    f (nodeAt (setNode s id n) a) = f (nodeAt s a) := by
  by_cases h : a = id
  · subst h
    by_cases hl : a < s.heap.length
    · rw [nodeAt_setNode_self s a n hl, hf]
    · rw [setNode_out_of_range s a n (Nat.le_of_not_lt hl)]
  · rw [nodeAt_setNode_ne s id n a h]

theorem nodeAt_writeNext_self (s : State) (id : NodeId) (L : Nat) (p : Ptr)
    (h : id < s.heap.length) :
    nodeAt (writeNext s id L p) id
      = { nodeAt s id with nextNode := (nodeAt s id).nextNode.set L p } :=
  nodeAt_setNode_self s id _ h

theorem nodeAt_writeNext_ne (s : State) (id : NodeId) (L : Nat) (p : Ptr)
    (a : NodeId) (h : a ≠ id) : nodeAt (writeNext s id L p) a = nodeAt s a :=
  nodeAt_setNode_ne s id _ a h

theorem nodeAt_writePrev_self (s : State) (id : NodeId) (L : Nat) (p : Ptr)
    (h : id < s.heap.length) :
    nodeAt (writePrev s id L p) id
      = { nodeAt s id with prevNode := (nodeAt s id).prevNode.set L p } :=
  nodeAt_setNode_self s id _ h

theorem nodeAt_writePrev_ne (s : State) (id : NodeId) (L : Nat) (p : Ptr)
    (a : NodeId) (h : a ≠ id) : nodeAt (writePrev s id L p) a = nodeAt s a :=
  nodeAt_setNode_ne s id _ a h

theorem nodeAt_writeValue_self (s : State) (id : NodeId) (v : Value)
    (h : id < s.heap.length) :
    nodeAt (writeValue s id v) id
      = { nodeAt s id with item := { (nodeAt s id).item with value := v } } :=
  nodeAt_setNode_self s id _ h

theorem nodeAt_writeValue_ne (s : State) (id : NodeId) (v : Value)
    (a : NodeId) (h : a ≠ id) : nodeAt (writeValue s id v) a = nodeAt s a :=
  nodeAt_setNode_ne s id _ a h

theorem nodeLevels_writeNext (s : State) (id : NodeId) (L : Nat) (p : Ptr)
    (a : NodeId) : nodeLevels (writeNext s id L p) a = nodeLevels s a :=
  by apply nodeAt_map_setNode; rfl

theorem nodeLevels_writePrev (s : State) (id : NodeId) (L : Nat) (p : Ptr)
    (a : NodeId) : nodeLevels (writePrev s id L p) a = nodeLevels s a :=
  by apply nodeAt_map_setNode; rfl

theorem nodeLevels_writeValue (s : State) (id : NodeId) (v : Value)
    (a : NodeId) : nodeLevels (writeValue s id v) a = nodeLevels s a :=
  by apply nodeAt_map_setNode; rfl

theorem nodeIsEnd_writeNext (s : State) (id : NodeId) (L : Nat) (p : Ptr)
    (a : NodeId) : nodeIsEnd (writeNext s id L p) a = nodeIsEnd s a :=
  by apply nodeAt_map_setNode; rfl

theorem nodeIsEnd_writePrev (s : State) (id : NodeId) (L : Nat) (p : Ptr)
    (a : NodeId) : nodeIsEnd (writePrev s id L p) a = nodeIsEnd s a :=
  by apply nodeAt_map_setNode; rfl

theorem nodeIsEnd_writeValue (s : State) (id : NodeId) (v : Value)
    (a : NodeId) : nodeIsEnd (writeValue s id v) a = nodeIsEnd s a :=
  by apply nodeAt_map_setNode; rfl

theorem nodeKey_writeNext (s : State) (id : NodeId) (L : Nat) (p : Ptr)
    (a : NodeId) : nodeKey (writeNext s id L p) a = nodeKey s a := by
  have h := nodeAt_map_setNode s id
    { nodeAt s id with nextNode := (nodeAt s id).nextNode.set L p } (fun x => x.item.key) rfl a
  exact h

theorem nodeKey_writePrev (s : State) (id : NodeId) (L : Nat) (p : Ptr)
    (a : NodeId) : nodeKey (writePrev s id L p) a = nodeKey s a := by
  have h := nodeAt_map_setNode s id
    { nodeAt s id with prevNode := (nodeAt s id).prevNode.set L p } (fun x => x.item.key) rfl a
  exact h

theorem nodeKey_writeValue (s : State) (id : NodeId) (v : Value)
    (a : NodeId) : nodeKey (writeValue s id v) a = nodeKey s a := by
  have h := nodeAt_map_setNode s id
    { nodeAt s id with item := { (nodeAt s id).item with value := v } } (fun x => x.item.key) rfl a
  exact h

theorem nextLen_writeNext (s : State) (id : NodeId) (L : Nat) (p : Ptr)
    (a : NodeId) :
    (nodeAt (writeNext s id L p) a).nextNode.length = (nodeAt s a).nextNode.length := by
  have h := nodeAt_map_setNode s id
    { nodeAt s id with nextNode := (nodeAt s id).nextNode.set L p } (fun x => x.nextNode.length) (by simp) a
  exact h

theorem nextLen_writePrev (s : State) (id : NodeId) (L : Nat) (p : Ptr)
    (a : NodeId) :
    (nodeAt (writePrev s id L p) a).nextNode.length = (nodeAt s a).nextNode.length := by
  have h := nodeAt_map_setNode s id
    { nodeAt s id with prevNode := (nodeAt s id).prevNode.set L p } (fun x => x.nextNode.length) rfl a
  exact h

theorem nextLen_writeValue (s : State) (id : NodeId) (v : Value)
    (a : NodeId) :
    (nodeAt (writeValue s id v) a).nextNode.length = (nodeAt s a).nextNode.length := by
  have h := nodeAt_map_setNode s id
    { nodeAt s id with item := { (nodeAt s id).item with value := v } } (fun x => x.nextNode.length) rfl a
  exact h

theorem prevLen_writeNext (s : State) (id : NodeId) (L : Nat) (p : Ptr)
    (a : NodeId) :
    (nodeAt (writeNext s id L p) a).prevNode.length = (nodeAt s a).prevNode.length := by
  have h := nodeAt_map_setNode s id
    { nodeAt s id with nextNode := (nodeAt s id).nextNode.set L p } (fun x => x.prevNode.length) rfl a
  exact h

theorem prevLen_writePrev (s : State) (id : NodeId) (L : Nat) (p : Ptr)
    (a : NodeId) :
    (nodeAt (writePrev s id L p) a).prevNode.length = (nodeAt s a).prevNode.length := by
  have h := nodeAt_map_setNode s id
    { nodeAt s id with prevNode := (nodeAt s id).prevNode.set L p } (fun x => x.prevNode.length) (by simp) a
  exact h

theorem prevLen_writeValue (s : State) (id : NodeId) (v : Value)
    (a : NodeId) :
    (nodeAt (writeValue s id v) a).prevNode.length = (nodeAt s a).prevNode.length := by
  have h := nodeAt_map_setNode s id
    { nodeAt s id with item := { (nodeAt s id).item with value := v } } (fun x => x.prevNode.length) rfl a
  exact h


@[simp] theorem writeNext_heap_length (s : State) (id : NodeId) (L : Nat) (p : Ptr) :
    (writeNext s id L p).heap.length = s.heap.length := by simp [writeNext]

@[simp] theorem writePrev_heap_length (s : State) (id : NodeId) (L : Nat) (p : Ptr) :
    (writePrev s id L p).heap.length = s.heap.length := by simp [writePrev]

@[simp] theorem writeValue_heap_length (s : State) (id : NodeId) (v : Value) :
    (writeValue s id v).heap.length = s.heap.length := by simp [writeValue]

theorem nextPtrAt_writeNext_self (s : State) (id : NodeId) (L : Nat) (p : Ptr)
    (hid : id < s.heap.length) (hL : L < (nodeAt s id).nextNode.length) :
    nextPtrAt (writeNext s id L p) id L = some p := by
  rw [nextPtrAt_def _ _ _ (by simpa using hid), nodeAt_writeNext_self s id L p hid]
  simp [List.getElem?_set, hL]

theorem nextPtrAt_writeNext_ne (s : State) (id : NodeId) (L : Nat) (p : Ptr)
    (a : NodeId) (M : Nat) (h : a ≠ id ∨ M ≠ L) :
    nextPtrAt (writeNext s id L p) a M = nextPtrAt s a M := by
  rcases h with h | h
  · by_cases ha : a < s.heap.length
    · rw [nextPtrAt_def _ _ _ (by simpa using ha), nextPtrAt_def _ _ _ ha,
        nodeAt_writeNext_ne s id L p a h]
    · have h1 : getNode (writeNext s id L p) a = none :=
        getNode_eq_none _ a (by simpa using Nat.le_of_not_lt ha)
      have h2 : getNode s a = none := getNode_eq_none s a (Nat.le_of_not_lt ha)
      simp [nextPtrAt, h1, h2]
  · by_cases ha : a < s.heap.length
    · rw [nextPtrAt_def _ _ _ (by simpa using ha), nextPtrAt_def _ _ _ ha]
      by_cases hai : a = id
      · subst hai
        rw [nodeAt_writeNext_self s a L p ha]
        simp [List.getElem?_set, Ne.symm h]
      · rw [nodeAt_writeNext_ne s id L p a hai]
    · have h1 : getNode (writeNext s id L p) a = none :=
        getNode_eq_none _ a (by simpa using Nat.le_of_not_lt ha)
      have h2 : getNode s a = none := getNode_eq_none s a (Nat.le_of_not_lt ha)
      simp [nextPtrAt, h1, h2]

theorem prevPtrAt_writePrev_self (s : State) (id : NodeId) (L : Nat) (p : Ptr)
    (hid : id < s.heap.length) (hL : L < (nodeAt s id).prevNode.length) :
    prevPtrAt (writePrev s id L p) id L = some p := by
  rw [prevPtrAt_def _ _ _ (by simpa using hid), nodeAt_writePrev_self s id L p hid]
  simp [List.getElem?_set, hL]

theorem prevPtrAt_writePrev_ne (s : State) (id : NodeId) (L : Nat) (p : Ptr)
    (a : NodeId) (M : Nat) (h : a ≠ id ∨ M ≠ L) :
    prevPtrAt (writePrev s id L p) a M = prevPtrAt s a M := by
  rcases h with h | h
  · by_cases ha : a < s.heap.length
    · rw [prevPtrAt_def _ _ _ (by simpa using ha), prevPtrAt_def _ _ _ ha,
        nodeAt_writePrev_ne s id L p a h]
    · have h1 : getNode (writePrev s id L p) a = none :=
        getNode_eq_none _ a (by simpa using Nat.le_of_not_lt ha)
      have h2 : getNode s a = none := getNode_eq_none s a (Nat.le_of_not_lt ha)
      simp [prevPtrAt, h1, h2]
  · by_cases ha : a < s.heap.length
    · rw [prevPtrAt_def _ _ _ (by simpa using ha), prevPtrAt_def _ _ _ ha]
      by_cases hai : a = id
      · subst hai
        rw [nodeAt_writePrev_self s a L p ha]
        simp [List.getElem?_set, Ne.symm h]
      · rw [nodeAt_writePrev_ne s id L p a hai]
    · have h1 : getNode (writePrev s id L p) a = none :=
        getNode_eq_none _ a (by simpa using Nat.le_of_not_lt ha)
      have h2 : getNode s a = none := getNode_eq_none s a (Nat.le_of_not_lt ha)
      simp [prevPtrAt, h1, h2]

/-- A prev-write never changes a forward-pointer read. -/
theorem nextPtrAt_writePrev (s : State) (id : NodeId) (L : Nat) (p : Ptr)
    (a : NodeId) (M : Nat) :
    nextPtrAt (writePrev s id L p) a M = nextPtrAt s a M := by
  by_cases ha : a < s.heap.length
  · rw [nextPtrAt_def _ _ _ (by simpa using ha), nextPtrAt_def _ _ _ ha]
    by_cases hai : a = id
    · subst hai
      rw [nodeAt_writePrev_self s a L p ha]
    · rw [nodeAt_writePrev_ne s id L p a hai]
  · have h1 : getNode (writePrev s id L p) a = none :=
      getNode_eq_none _ a (by simpa using Nat.le_of_not_lt ha)
    have h2 : getNode s a = none := getNode_eq_none s a (Nat.le_of_not_lt ha)
    simp [nextPtrAt, h1, h2]

/-- A next-write never changes a backward-pointer read. -/
theorem prevPtrAt_writeNext (s : State) (id : NodeId) (L : Nat) (p : Ptr)
    (a : NodeId) (M : Nat) :
    prevPtrAt (writeNext s id L p) a M = prevPtrAt s a M := by
  by_cases ha : a < s.heap.length
  · rw [prevPtrAt_def _ _ _ (by simpa using ha), prevPtrAt_def _ _ _ ha]
    by_cases hai : a = id
    · subst hai
      rw [nodeAt_writeNext_self s a L p ha]
    · rw [nodeAt_writeNext_ne s id L p a hai]
  · have h1 : getNode (writeNext s id L p) a = none :=
      getNode_eq_none _ a (by simpa using Nat.le_of_not_lt ha)
    have h2 : getNode s a = none := getNode_eq_none s a (Nat.le_of_not_lt ha)
    simp [prevPtrAt, h1, h2]

/-- A value-write never changes a forward-pointer read. -/
theorem nextPtrAt_writeValue (s : State) (id : NodeId) (v : Value)
    (a : NodeId) (M : Nat) :
    nextPtrAt (writeValue s id v) a M = nextPtrAt s a M := by
  by_cases ha : a < s.heap.length
  · rw [nextPtrAt_def _ _ _ (by simpa using ha), nextPtrAt_def _ _ _ ha]
    by_cases hai : a = id
    · subst hai
      rw [nodeAt_writeValue_self s a v ha]
    · rw [nodeAt_writeValue_ne s id v a hai]
  · have h1 : getNode (writeValue s id v) a = none :=
      getNode_eq_none _ a (by simpa using Nat.le_of_not_lt ha)
    have h2 : getNode s a = none := getNode_eq_none s a (Nat.le_of_not_lt ha)
    simp [nextPtrAt, h1, h2]

/-- A value-write never changes a backward-pointer read. -/
theorem prevPtrAt_writeValue (s : State) (id : NodeId) (v : Value)
    (a : NodeId) (M : Nat) :
    prevPtrAt (writeValue s id v) a M = prevPtrAt s a M := by
  by_cases ha : a < s.heap.length
  · rw [prevPtrAt_def _ _ _ (by simpa using ha), prevPtrAt_def _ _ _ ha]
    by_cases hai : a = id
    · subst hai
      rw [nodeAt_writeValue_self s a v ha]
    · rw [nodeAt_writeValue_ne s id v a hai]
  · have h1 : getNode (writeValue s id v) a = none :=
      getNode_eq_none _ a (by simpa using Nat.le_of_not_lt ha)
    have h2 : getNode s a = none := getNode_eq_none s a (Nat.le_of_not_lt ha)
    simp [prevPtrAt, h1, h2]


@[simp] theorem writeNext_scalars (s : State) (id : NodeId) (L : Nat) (p : Ptr) :
    (writeNext s id L p).maxLevel = s.maxLevel
      ∧ (writeNext s id L p).length = s.length
      ∧ (writeNext s id L p).size = s.size
      ∧ (writeNext s id L p).head = s.head
      ∧ (writeNext s id L p).tail = s.tail
      ∧ (writeNext s id L p).history = s.history :=
  ⟨rfl, rfl, rfl, rfl, rfl, rfl⟩

@[simp] theorem writePrev_scalars (s : State) (id : NodeId) (L : Nat) (p : Ptr) :
    (writePrev s id L p).maxLevel = s.maxLevel
      ∧ (writePrev s id L p).length = s.length
      ∧ (writePrev s id L p).size = s.size
      ∧ (writePrev s id L p).head = s.head
      ∧ (writePrev s id L p).tail = s.tail
      ∧ (writePrev s id L p).history = s.history :=
  ⟨rfl, rfl, rfl, rfl, rfl, rfl⟩

@[simp] theorem writeValue_scalars (s : State) (id : NodeId) (v : Value) :
    (writeValue s id v).maxLevel = s.maxLevel
      ∧ (writeValue s id v).length = s.length
      ∧ (writeValue s id v).size = s.size
      ∧ (writeValue s id v).head = s.head
      ∧ (writeValue s id v).tail = s.tail
      ∧ (writeValue s id v).history = s.history :=
  ⟨rfl, rfl, rfl, rfl, rfl, rfl⟩

/-! ### Reads across allocation and history writes -/

/-- Allocating at the end of the arena preserves every existing node. -/
theorem nodeAt_alloc_lt (s : State) (n : SkipListNode) (a : NodeId)
    (h : a < s.heap.length) :
    nodeAt { s with heap := s.heap ++ [n] } a = nodeAt s a := by
  simp [nodeAt, getNode, List.getElem?_append_left h]

theorem nodeAt_alloc_self (s : State) (n : SkipListNode) :
    nodeAt { s with heap := s.heap ++ [n] } s.heap.length = n := by
  simp [nodeAt, getNode]

theorem nextPtrAt_alloc_lt (s : State) (n : SkipListNode) (a : NodeId) (M : Nat)
    (h : a < s.heap.length) :
    nextPtrAt { s with heap := s.heap ++ [n] } a M = nextPtrAt s a M := by
  rw [nextPtrAt_def _ _ _ (by simpa using Nat.lt_of_lt_of_le h (by simp)),
    nextPtrAt_def _ _ _ h, nodeAt_alloc_lt s n a h]

theorem prevPtrAt_alloc_lt (s : State) (n : SkipListNode) (a : NodeId) (M : Nat)
    (h : a < s.heap.length) :
    prevPtrAt { s with heap := s.heap ++ [n] } a M = prevPtrAt s a M := by
  rw [prevPtrAt_def _ _ _ (by simpa using Nat.lt_of_lt_of_le h (by simp)),
    prevPtrAt_def _ _ _ h, nodeAt_alloc_lt s n a h]

/-- A history write changes no heap read. -/
theorem nodeAt_setHistory (s : State) (h : List Ptr) (a : NodeId) :
    nodeAt { s with history := h } a = nodeAt s a := rfl

theorem nextPtrAt_setHistory (s : State) (h : List Ptr) (a : NodeId) (M : Nat) :
    nextPtrAt { s with history := h } a M = nextPtrAt s a M := rfl

theorem prevPtrAt_setHistory (s : State) (h : List Ptr) (a : NodeId) (M : Nat) :
    prevPtrAt { s with history := h } a M = prevPtrAt s a M := rfl


/-! ## Doubly linked chains -/

/-- `LinkedAt s L c`: along `c`, each consecutive pair is mutually linked by
the level-`L` forward and backward pointers. -/
def LinkedAt (s : State) (L : Nat) : List NodeId → Prop
  | a :: b :: rest =>
    nextPtrAt s a L = some (some b) ∧ prevPtrAt s b L = some (some a)
      ∧ LinkedAt s L (b :: rest)
  | _ => True

theorem LinkedAt_nil (s : State) (L : Nat) : LinkedAt s L [] := trivial

theorem LinkedAt_single (s : State) (L : Nat) (a : NodeId) :
    LinkedAt s L [a] := trivial

theorem LinkedAt_cons_cons {s : State} {L : Nat} {a b : NodeId} {r : List NodeId} :
    LinkedAt s L (a :: b :: r)
      ↔ nextPtrAt s a L = some (some b) ∧ prevPtrAt s b L = some (some a)
          ∧ LinkedAt s L (b :: r) := Iff.rfl

theorem LinkedAt.tail_chain {s : State} {L : Nat} :
    ∀ {l : List NodeId}, LinkedAt s L l → LinkedAt s L l.tail
  | [], _ => trivial
  | [_], _ => trivial
  | _ :: _ :: _, h => h.2.2

theorem LinkedAt_append_right {s : State} {L : Nat} :
    ∀ {xs ys : List NodeId}, LinkedAt s L (xs ++ ys) → LinkedAt s L ys := by
  intro xs
  induction xs with
  | nil => intro ys h; exact h
  | cons x xs ih =>
    intro ys h
    exact ih (by simpa using h.tail_chain)

theorem LinkedAt_append_left {s : State} {L : Nat} :
    ∀ {xs ys : List NodeId}, LinkedAt s L (xs ++ ys) → LinkedAt s L xs := by
  intro xs
  induction xs with
  | nil => intro ys _; trivial
  | cons x xs ih =>
    intro ys h
    cases xs with
    | nil => trivial
    | cons y ys' =>
      exact ⟨h.1, h.2.1, ih h.2.2⟩

/-- Gluing two chains that share their junction node. -/
theorem LinkedAt_glue {s : State} {L : Nat} {a : NodeId} :
    ∀ {xs ys : List NodeId}, LinkedAt s L (xs ++ [a]) → LinkedAt s L (a :: ys) →
      LinkedAt s L (xs ++ a :: ys) := by
  intro xs
  induction xs with
  | nil => intro ys _ h2; exact h2
  | cons x xs ih =>
    intro ys h1 h2
    cases xs with
    | nil => exact ⟨h1.1, h1.2.1, h2⟩
    | cons y ys' => exact ⟨h1.1, h1.2.1, ih h1.2.2 h2⟩

/-- A chain stays linked in a state that preserves the forward reads of all
but its last node and the backward reads of all but its first node. -/
theorem LinkedAt_congr {s s' : State} {L : Nat} :
    ∀ {c : List NodeId},
      (∀ x ∈ c.dropLast, nextPtrAt s' x L = nextPtrAt s x L) →
      (∀ x ∈ c.tail, prevPtrAt s' x L = prevPtrAt s x L) →
      LinkedAt s L c → LinkedAt s' L c := by
  intro c
  induction c with
  | nil => intro _ _ _; trivial
  | cons a c ih =>
    intro hn hp h
    cases c with
    | nil => trivial
    | cons b r =>
      refine ⟨?_, ?_, ?_⟩
      · rw [hn a (by simp), h.1]
      · rw [hp b (by simp), h.2.1]
      · refine ih ?_ ?_ h.2.2
        · intro x hx
          refine hn x ?_
          rcases r.eq_nil_or_concat with hr | ⟨r', z, hr⟩
          · subst hr; simp at hx
          · subst hr; simp at hx ⊢; tauto
        · intro x hx
          exact hp x (by simp at hx ⊢; tauto)

/-- The forward pointer of an interior chain node. -/
theorem LinkedAt_next {s : State} {L : Nat} {xs ys : List NodeId} {a b : NodeId}
    (h : LinkedAt s L (xs ++ a :: b :: ys)) : nextPtrAt s a L = some (some b) :=
  (@LinkedAt_append_right s L xs (a :: b :: ys) h).1

/-- The backward pointer of an interior chain node. -/
theorem LinkedAt_prev {s : State} {L : Nat} {xs ys : List NodeId} {a b : NodeId}
    (h : LinkedAt s L (xs ++ a :: b :: ys)) : prevPtrAt s b L = some (some a) :=
  (@LinkedAt_append_right s L xs (a :: b :: ys) h).2.1


/-- Splicing `w` between the adjacent chain nodes `p` and `q`: the chain with
`w` inserted is linked in any state whose reads changed exactly at the four
spliced pointer slots. -/
theorem LinkedAt_splice {s s' : State} {L : Nat} {A B : List NodeId} {p q w : NodeId}
    (hold : LinkedAt s L (A ++ p :: q :: B))
    (hnodup : (A ++ p :: q :: B).Nodup)
    (hw : w ∉ A ++ p :: q :: B)
    (H1 : ∀ a, a ≠ p → a ≠ w → nextPtrAt s' a L = nextPtrAt s a L)
    (H2 : ∀ a, a ≠ q → a ≠ w → prevPtrAt s' a L = prevPtrAt s a L)
    (H3 : nextPtrAt s' p L = some (some w))
    (H4 : nextPtrAt s' w L = some (some q))
    (H5 : prevPtrAt s' w L = some (some p))
    (H6 : prevPtrAt s' q L = some (some w)) :
    LinkedAt s' L (A ++ p :: w :: q :: B) := by
  have hold' : LinkedAt s L ((A ++ [p]) ++ q :: B) := by
    simpa [List.append_assoc] using hold
  obtain ⟨-, ⟨⟨hpq, hpB⟩, hqB, -⟩, hpA, hqA, -⟩ :
      A.Nodup ∧ ((¬p = q ∧ p ∉ B) ∧ q ∉ B ∧ B.Nodup)
        ∧ p ∉ A ∧ q ∉ A ∧ A.Disjoint B := by
    simpa [List.nodup_append] using hnodup
  obtain ⟨hwA, hwp, hwq, hwB⟩ : w ∉ A ∧ ¬w = p ∧ ¬w = q ∧ w ∉ B := by
    simpa using hw
  have h1 : LinkedAt s' L (A ++ [p]) := by
    refine LinkedAt_congr ?_ ?_ (LinkedAt_append_left hold')
    · intro x hx
      rw [List.dropLast_concat] at hx
      exact H1 x (fun h => hpA (h ▸ hx)) (fun h => hwA (h ▸ hx))
    · intro x hx
      have hx' : x ∈ A ++ [p] := List.mem_of_mem_tail hx
      have hxq : x ≠ q := by
        intro he
        rw [he] at hx'
        rcases List.mem_append.mp hx' with h | h
        · exact hqA h
        · have : q = p := by simpa using h
          exact hpq this.symm
      have hxw : x ≠ w := by
        intro he
        rw [he] at hx'
        rcases List.mem_append.mp hx' with h | h
        · exact hwA h
        · exact hwp (by simpa using h)
      exact H2 x hxq hxw
  have h2 : LinkedAt s' L (q :: B) := by
    refine LinkedAt_congr ?_ ?_ (LinkedAt_append_right hold')
    · intro x hx
      have hx' : x ∈ q :: B := List.dropLast_subset _ hx
      have hxp : x ≠ p := by
        intro he
        rw [he] at hx'
        rcases List.mem_cons.mp hx' with h | h
        · exact hpq h
        · exact hpB h
      have hxw : x ≠ w := by
        intro he
        rw [he] at hx'
        rcases List.mem_cons.mp hx' with h | h
        · exact hwq h
        · exact hwB h
      exact H1 x hxp hxw
    · intro x hx
      simp only [List.tail_cons] at hx
      have hxq : x ≠ q := by
        intro he
        rw [he] at hx
        exact hqB hx
      have hxw : x ≠ w := by
        intro he
        rw [he] at hx
        exact hwB hx
      exact H2 x hxq hxw
  have h3 : LinkedAt s' L (p :: w :: q :: B) := ⟨H3, H5, H4, H6, h2⟩
  exact @LinkedAt_glue s' L p A (w :: q :: B) h1 h3

/-- Unlinking the chain node `x` between `p` and `q`: the chain without `x`
is linked in any state whose reads changed exactly at the two unlink slots. -/
theorem LinkedAt_unlink {s s' : State} {L : Nat} {A B : List NodeId} {p x q : NodeId}
    (hold : LinkedAt s L (A ++ p :: x :: q :: B))
    (hnodup : (A ++ p :: x :: q :: B).Nodup)
    (H1 : ∀ a, a ≠ p → nextPtrAt s' a L = nextPtrAt s a L)
    (H2 : ∀ a, a ≠ q → prevPtrAt s' a L = prevPtrAt s a L)
    (H3 : nextPtrAt s' p L = some (some q))
    (H4 : prevPtrAt s' q L = some (some p)) :
    LinkedAt s' L (A ++ p :: q :: B) := by
  have hold' : LinkedAt s L ((A ++ [p]) ++ x :: q :: B) := by
    simpa [List.append_assoc] using hold
  obtain ⟨-, ⟨⟨hpx, hpq, hpB⟩, ⟨-, -⟩, hqB, -⟩, hpA, -, hqA, -⟩ :
      A.Nodup ∧ ((¬p = x ∧ ¬p = q ∧ p ∉ B) ∧ (¬x = q ∧ x ∉ B) ∧ q ∉ B ∧ B.Nodup)
        ∧ p ∉ A ∧ x ∉ A ∧ q ∉ A ∧ A.Disjoint B := by
    simpa [List.nodup_append] using hnodup
  have h1 : LinkedAt s' L (A ++ [p]) := by
    refine LinkedAt_congr ?_ ?_ (LinkedAt_append_left hold')
    · intro y hy
      rw [List.dropLast_concat] at hy
      exact H1 y (fun h => hpA (h ▸ hy))
    · intro y hy
      have hy' : y ∈ A ++ [p] := List.mem_of_mem_tail hy
      have hyq : y ≠ q := by
        intro he
        rw [he] at hy'
        rcases List.mem_append.mp hy' with h | h
        · exact hqA h
        · have : q = p := by simpa using h
          exact hpq this.symm
      exact H2 y hyq
  have h2 : LinkedAt s' L (q :: B) := by
    have hsuffix : LinkedAt s L (q :: B) :=
      @LinkedAt_append_right s L ((A ++ [p]) ++ [x]) (q :: B)
        (by simpa [List.append_assoc] using hold')
    refine LinkedAt_congr ?_ ?_ hsuffix
    · intro y hy
      have hy' : y ∈ q :: B := List.dropLast_subset _ hy
      have hyp : y ≠ p := by
        intro he
        rw [he] at hy'
        rcases List.mem_cons.mp hy' with h | h
        · exact hpq h
        · exact hpB h
      exact H1 y hyp
    · intro y hy
      simp only [List.tail_cons] at hy
      have hyq : y ≠ q := by
        intro he
        rw [he] at hy
        exact hqB hy
      exact H2 y hyq
  have h3 : LinkedAt s' L (p :: q :: B) := ⟨H3, H4, h2⟩
  exact @LinkedAt_glue s' L p A (q :: B) h1 h3


/-! ## The structural invariant -/

/-- The real nodes participating in the level-`L` forward chain: exactly
those of `row0` whose height exceeds `L`. -/
def rowAt (s : State) (row0 : List NodeId) (L : Nat) : List NodeId :=
  row0.filter (fun id => decide (L < nodeLevels s id))

/-- The entries currently stored, in level-0 (key) order. -/
def entriesOf (s : State) (row0 : List NodeId) : List SkipListItem :=
  row0.map (fun id => (nodeAt s id).item)

/-- Well-formedness of one real (entry-bearing) node. -/
structure NodeOk (s : State) (id : NodeId) : Prop where
  lt : id < s.heap.length
  notEnd : nodeIsEnd s id = false
  lv1 : 1 ≤ nodeLevels s id
  lvM : nodeLevels s id ≤ s.maxLevel
  nlen : (nodeAt s id).nextNode.length = nodeLevels s id
  plen : (nodeAt s id).prevNode.length = nodeLevels s id
  neH : id ≠ s.head
  neT : id ≠ s.tail

/-- The structural invariant of a reachable list state, with `row0` the real
nodes in level-0 order. -/
structure Inv (s : State) (row0 : List NodeId) : Prop where
  hml : 1 ≤ s.maxLevel
  hhead : s.head < s.heap.length
  htail : s.tail < s.heap.length
  hht : s.head ≠ s.tail
  hheadE : nodeIsEnd s s.head = true
  htailE : nodeIsEnd s s.tail = true
  hheadLv : nodeLevels s s.head = s.maxLevel
  htailLv : nodeLevels s s.tail = s.maxLevel
  hheadNextLen : (nodeAt s s.head).nextNode.length = s.maxLevel
  hheadPrevLen : (nodeAt s s.head).prevNode.length = s.maxLevel
  htailNextLen : (nodeAt s s.tail).nextNode.length = s.maxLevel
  htailPrevLen : (nodeAt s s.tail).prevNode.length = s.maxLevel
  hhist : s.history.length = s.maxLevel
  hlen : s.length = (row0.length : Int)
  hnodes : ∀ id ∈ row0, NodeOk s id
  hnodup : row0.Nodup
  hsorted : row0.Pairwise (fun a b => keyLt (nodeKey s a) (nodeKey s b) = true)
  hlinked : ∀ L, L < s.maxLevel → LinkedAt s L (s.head :: rowAt s row0 L ++ [s.tail])
  hheadPrev : ∀ L, L < s.maxLevel → prevPtrAt s s.head L = some none
  htailNext : ∀ L, L < s.maxLevel → nextPtrAt s s.tail L = some none


/-! ## Symbolic execution of the two pointer-surgery methods -/

/-- `appendOnLevel` when the spliced-after node's forward slot is `nil`
(only during `New`'s linking loop). -/
theorem appendOnLevel_spec_nil (s : State) (a b : NodeId) (L : Nat)
    (ha : a < s.heap.length) (hb : b < s.heap.length)
    (hsucc : nextPtrAt s a L = some none)
    (hbp : L < (nodeAt s b).prevNode.length)
    (hbn : L < (nodeAt s b).nextNode.length)
    (han : L < (nodeAt s a).nextNode.length) :
    appendOnLevel s a b L
      = some (writeNext (writeNext (writePrev s b L (some a)) b L none) a L (some b)) := by
  rw [appendOnLevel, getNode_eq_some s a ha]
  simp only [Option.bind_eq_bind, Option.pure_def, Option.some_bind]
  rw [← nextPtrAt_def s a L ha, hsucc]
  simp only [Option.pure_def, Option.some_bind]
  rw [setPrevPtr_eq s b L (some a) hb hbp]
  simp only [Option.pure_def, Option.some_bind]
  rw [getNode_eq_some _ a (by simpa using ha)]
  simp only [Option.pure_def, Option.some_bind]
  rw [← nextPtrAt_def _ a L (by simpa using ha), nextPtrAt_writePrev, hsucc]
  simp only [Option.pure_def, Option.some_bind]
  rw [setNextPtr_eq _ b L none (by simpa using hb) (by rw [nextLen_writePrev]; exact hbn)]
  simp only [Option.pure_def, Option.some_bind]
  rw [setNextPtr_eq _ a L (some b) (by simpa using ha)
    (by rw [nextLen_writeNext, nextLen_writePrev]; exact han)]

/-- `appendOnLevel` when the spliced-after node `a` has successor `c`
(every splice of `insertNode`). -/
theorem appendOnLevel_spec_some (s : State) (a b c : NodeId) (L : Nat)
    (ha : a < s.heap.length) (hb : b < s.heap.length) (hc : c < s.heap.length)
    (hsucc : nextPtrAt s a L = some (some c))
    (hcp : L < (nodeAt s c).prevNode.length)
    (hbp : L < (nodeAt s b).prevNode.length)
    (hbn : L < (nodeAt s b).nextNode.length)
    (han : L < (nodeAt s a).nextNode.length) :
    appendOnLevel s a b L
      = some (writeNext (writeNext (writePrev (writePrev s c L (some b)) b L (some a))
          b L (some c)) a L (some b)) := by
  rw [appendOnLevel, getNode_eq_some s a ha]
  simp only [Option.bind_eq_bind, Option.pure_def, Option.some_bind]
  rw [← nextPtrAt_def s a L ha, hsucc]
  simp only [Option.pure_def, Option.some_bind]
  rw [setPrevPtr_eq s c L (some b) hc hcp]
  simp only [Option.pure_def, Option.some_bind]
  rw [setPrevPtr_eq _ b L (some a) (by simpa using hb)
    (by rw [prevLen_writePrev]; exact hbp)]
  simp only [Option.pure_def, Option.some_bind]
  rw [getNode_eq_some _ a (by simpa using ha)]
  simp only [Option.pure_def, Option.some_bind]
  rw [← nextPtrAt_def _ a L (by simpa using ha), nextPtrAt_writePrev, nextPtrAt_writePrev, hsucc]
  simp only [Option.pure_def, Option.some_bind]
  rw [setNextPtr_eq _ b L (some c) (by simpa using hb)
    (by rw [nextLen_writePrev, nextLen_writePrev]; exact hbn)]
  simp only [Option.pure_def, Option.some_bind]
  rw [setNextPtr_eq _ a L (some b) (by simpa using ha)
    (by rw [nextLen_writeNext, nextLen_writePrev, nextLen_writePrev]; exact han)]


/-- `removeOnLevel` at a node with both neighbors present (every unlink of
`deleteNode` under the invariant). -/
theorem removeOnLevel_spec (s : State) (x p q : NodeId) (L : Nat)
    (hx : x < s.heap.length) (hp : p < s.heap.length) (hq : q < s.heap.length)
    (hnext : nextPtrAt s x L = some (some q))
    (hprev : prevPtrAt s x L = some (some p))
    (hxq : x ≠ q)
    (hqp : L < (nodeAt s q).prevNode.length)
    (hpn : L < (nodeAt s p).nextNode.length) :
    removeOnLevel s x L = some (writeNext (writePrev s q L (some p)) p L (some q)) := by
  rw [removeOnLevel, getNode_eq_some s x hx]
  simp only [Option.bind_eq_bind, Option.pure_def, Option.some_bind]
  rw [← nextPtrAt_def s x L hx, hnext]
  simp only [Option.some_bind]
  rw [← prevPtrAt_def s x L hx, hprev]
  simp only [Option.some_bind]
  rw [setPrevPtr_eq s q L (some p) hq hqp]
  simp only [Option.some_bind]
  rw [getNode_eq_some _ x (by simpa using hx)]
  simp only [Option.some_bind]
  have hprev' : (nodeAt (writePrev s q L (some p)) x).prevNode[L]? = some (some p) := by
    rw [← prevPtrAt_def _ x L (by simpa using hx),
      prevPtrAt_writePrev_ne s q L (some p) x L (Or.inl hxq), hprev]
  have hnext' : (nodeAt (writePrev s q L (some p)) x).nextNode[L]? = some (some q) := by
    rw [← nextPtrAt_def _ x L (by simpa using hx), nextPtrAt_writePrev, hnext]
  rw [hprev']
  simp only [Option.some_bind]
  rw [hnext']
  simp only [Option.some_bind]
  rw [setNextPtr_eq _ p L (some q) (by simpa using hp)
    (by rw [nextLen_writePrev]; exact hpn)]


/-! ## `New` establishes the invariant on the empty list -/

theorem linkLoop_spec (m : Nat) : ∀ i, i ≤ m → ∃ s, linkLoop (newStateAux m) i = some s
    ∧ s.heap.length = 2 ∧ s.maxLevel = m ∧ s.length = 0 ∧ s.size = 0
    ∧ s.head = 0 ∧ s.tail = 1 ∧ s.history = List.replicate m none
    ∧ (∀ a, a < 2 → nodeLevels s a = m ∧ nodeIsEnd s a = true
        ∧ (nodeAt s a).item = { key := [], value := [] }
        ∧ (nodeAt s a).nextNode.length = m ∧ (nodeAt s a).prevNode.length = m)
    ∧ (∀ L, L < i → nextPtrAt s 0 L = some (some 1) ∧ prevPtrAt s 1 L = some (some 0))
    ∧ (∀ L, i ≤ L → L < m → nextPtrAt s 0 L = some none ∧ prevPtrAt s 1 L = some none)
    ∧ (∀ L, L < m → nextPtrAt s 1 L = some none ∧ prevPtrAt s 0 L = some none) := by
  intro i
  induction i with
  | zero =>
    intro _
    refine ⟨newStateAux m, rfl, rfl, rfl, rfl, rfl, rfl, rfl, rfl, ?_, ?_, ?_, ?_⟩
    · intro a ha
      interval_cases a <;>
        simp [nodeLevels, nodeIsEnd, nodeAt, getNode, newStateAux, sentinelNode]
    · intro L hL
      omega
    · intro L _ hL
      constructor <;>
        simp [nextPtrAt, prevPtrAt, getNode, newStateAux, sentinelNode,
          List.getElem?_replicate, hL]
    · intro L hL
      constructor <;>
        simp [nextPtrAt, prevPtrAt, getNode, newStateAux, sentinelNode,
          List.getElem?_replicate, hL]
  | succ i ih =>
    intro hi
    obtain ⟨s, hs, hlen2, hml, hl0, hsz, hh, ht, hhist, hrec, hlo, hhi, hconst⟩ :=
      ih (by omega)
    have h0 : (0 : Nat) < s.heap.length := by omega
    have h1 : (1 : Nat) < s.heap.length := by omega
    have hi' : i < m := by omega
    have hn0i : nextPtrAt s 0 i = some none := (hhi i (by omega) hi').1
    have hb1 : i < (nodeAt s 1).prevNode.length := by
      rw [(hrec 1 one_lt_two).2.2.2.2]; exact hi'
    have hb2 : i < (nodeAt s 1).nextNode.length := by
      rw [(hrec 1 one_lt_two).2.2.2.1]; exact hi'
    have hb3 : i < (nodeAt s 0).nextNode.length := by
      rw [(hrec 0 two_pos).2.2.2.1]; exact hi'
    have hne01 : (0 : NodeId) ≠ 1 := Nat.zero_ne_one
    have hne10 : (1 : NodeId) ≠ 0 := one_ne_zero
    have step := appendOnLevel_spec_nil s 0 1 i h0 h1 hn0i hb1 hb2 hb3
    set t1 : State := writePrev s 1 i (some 0) with ht1
    set t2 : State := writeNext t1 1 i none with ht2
    set t3 : State := writeNext t2 0 i (some 1) with ht3
    have hlen1 : t1.heap.length = s.heap.length := by simp [ht1]
    have hlen2' : t2.heap.length = s.heap.length := by simp [ht2, ht1]
    have hlen3 : t3.heap.length = s.heap.length := by simp [ht3, ht2, ht1]
    have hrec3 : ∀ a, a < 2 → nodeLevels t3 a = m ∧ nodeIsEnd t3 a = true
        ∧ (nodeAt t3 a).item = { key := [], value := [] }
        ∧ (nodeAt t3 a).nextNode.length = m ∧ (nodeAt t3 a).prevNode.length = m := by
      intro a ha
      have hfacts := hrec a ha
      refine ⟨?_, ?_, ?_, ?_, ?_⟩
      · rw [ht3, ht2, ht1, nodeLevels_writeNext, nodeLevels_writeNext, nodeLevels_writePrev]
        exact hfacts.1
      · rw [ht3, ht2, ht1, nodeIsEnd_writeNext, nodeIsEnd_writeNext, nodeIsEnd_writePrev]
        exact hfacts.2.1
      · have e1 := nodeAt_map_setNode t2 0
          { nodeAt t2 0 with nextNode := (nodeAt t2 0).nextNode.set i (some 1) }
          (fun x => x.item) rfl a
        have e2 := nodeAt_map_setNode t1 1
          { nodeAt t1 1 with nextNode := (nodeAt t1 1).nextNode.set i none }
          (fun x => x.item) rfl a
        have e3 := nodeAt_map_setNode s 1
          { nodeAt s 1 with prevNode := (nodeAt s 1).prevNode.set i (some 0) }
          (fun x => x.item) rfl a
        show (nodeAt t3 a).item = _
        rw [ht3, writeNext, e1, ht2, writeNext, e2, ht1, writePrev, e3]
        exact hfacts.2.2.1
      · rw [ht3, ht2, ht1, nextLen_writeNext, nextLen_writeNext, nextLen_writePrev]
        exact hfacts.2.2.2.1
      · rw [ht3, ht2, ht1, prevLen_writeNext, prevLen_writeNext, prevLen_writePrev]
        exact hfacts.2.2.2.2
    refine ⟨t3, ?_, ?_, ?_, ?_, ?_, ?_, ?_, ?_, hrec3, ?_, ?_, ?_⟩
    · show linkLoop (newStateAux m) (i + 1) = some t3
      rw [linkLoop, hs]
      simpa [ht3, ht2, ht1] using step
    · rw [hlen3]; exact hlen2
    · rw [ht3, ht2, ht1]; simpa using hml
    · rw [ht3, ht2, ht1]; simpa using hl0
    · rw [ht3, ht2, ht1]; simpa using hsz
    · rw [ht3, ht2, ht1]; simpa using hh
    · rw [ht3, ht2, ht1]; simpa using ht
    · rw [ht3, ht2, ht1]; simpa using hhist
    · -- linked below i+1
      intro L hL
      constructor
      · by_cases hLi : L = i
        · subst hLi
          have hb : L < (nodeAt t2 0).nextNode.length := by
            rw [ht2, ht1, nextLen_writeNext, nextLen_writePrev]
            exact hb3
          have h0' : (0 : Nat) < t2.heap.length := by rw [hlen2']; exact h0
          exact nextPtrAt_writeNext_self t2 0 L (some 1) h0' hb
        · have hLlt : L < i := by omega
          rw [ht3, nextPtrAt_writeNext_ne t2 0 i (some 1) 0 L (Or.inr hLi),
            ht2, nextPtrAt_writeNext_ne t1 1 i none 0 L (Or.inl hne01),
            ht1, nextPtrAt_writePrev]
          exact (hlo L hLlt).1
      · by_cases hLi : L = i
        · subst hLi
          have hb : L < (nodeAt s 1).prevNode.length := hb1
          rw [ht3, prevPtrAt_writeNext, ht2, prevPtrAt_writeNext, ht1]
          exact prevPtrAt_writePrev_self s 1 L (some 0) h1 hb
        · have hLlt : L < i := by omega
          rw [ht3, prevPtrAt_writeNext, ht2, prevPtrAt_writeNext, ht1,
            prevPtrAt_writePrev_ne s 1 i (some 0) 1 L (Or.inr hLi)]
          exact (hlo L hLlt).2
    · -- still nil in [i+1, m)
      intro L hL1 hL2
      have hLi : L ≠ i := by omega
      constructor
      · rw [ht3, nextPtrAt_writeNext_ne t2 0 i (some 1) 0 L (Or.inr hLi),
          ht2, nextPtrAt_writeNext_ne t1 1 i none 0 L (Or.inl hne01),
          ht1, nextPtrAt_writePrev]
        have hiL : i ≤ L := by omega
        exact (hhi L hiL hL2).1
      · rw [ht3, prevPtrAt_writeNext, ht2, prevPtrAt_writeNext, ht1,
          prevPtrAt_writePrev_ne s 1 i (some 0) 1 L (Or.inr hLi)]
        have hiL : i ≤ L := by omega
        exact (hhi L hiL hL2).2
    · -- tail.next and head.prev stay nil
      intro L hL
      constructor
      · by_cases hLi : L = i
        · subst hLi
          have hb : L < (nodeAt t1 1).nextNode.length := by
            rw [ht1, nextLen_writePrev]; exact hb2
          have h1' : (1 : Nat) < t1.heap.length := by rw [hlen1]; exact h1
          rw [ht3, nextPtrAt_writeNext_ne t2 0 L (some 1) 1 L (Or.inl hne10), ht2]
          exact nextPtrAt_writeNext_self t1 1 L none h1' hb
        · rw [ht3, nextPtrAt_writeNext_ne t2 0 i (some 1) 1 L (Or.inl hne10),
            ht2, nextPtrAt_writeNext_ne t1 1 i none 1 L (Or.inr hLi),
            ht1, nextPtrAt_writePrev]
          exact (hconst L hL).1
      · rw [ht3, prevPtrAt_writeNext, ht2, prevPtrAt_writeNext, ht1,
          prevPtrAt_writePrev_ne s 1 i (some 0) 0 L (Or.inl hne01)]
        exact (hconst L hL).2


/-- `New` succeeds on a nonnegative capacity and establishes the invariant
with no entries. -/
theorem New_spec (m : Nat) (hm : 1 ≤ m) : ∃ s, New (m : Int) = some s ∧ Inv s []
    ∧ s.maxLevel = m ∧ s.length = 0 ∧ s.size = 0
    ∧ s.history = List.replicate m none ∧ s.heap.length = 2 := by
  obtain ⟨s, hs, hlen2, hml, hl0, hsz, hh, ht, hhist, hrec, hlo, hhi, hconst⟩ :=
    linkLoop_spec m m le_rfl
  have hrec0 := hrec 0 two_pos
  have hrec1 := hrec 1 one_lt_two
  refine ⟨s, ?_, ?_, hml, hl0, hsz, hhist, hlen2⟩
  · rw [New, if_neg (by omega)]
    simpa using hs
  · refine ⟨?_, ?_, ?_, ?_, ?_, ?_, ?_, ?_, ?_, ?_, ?_, ?_, ?_, ?_, ?_, ?_, ?_, ?_, ?_, ?_⟩
    · rw [hml]; exact hm
    · rw [hh, hlen2]; exact two_pos
    · rw [ht, hlen2]; exact one_lt_two
    · rw [hh, ht]; exact Nat.zero_ne_one
    · rw [hh]; exact hrec0.2.1
    · rw [ht]; exact hrec1.2.1
    · rw [hh, hml]; exact hrec0.1
    · rw [ht, hml]; exact hrec1.1
    · rw [hh, hml]; exact hrec0.2.2.2.1
    · rw [hh, hml]; exact hrec0.2.2.2.2
    · rw [ht, hml]; exact hrec1.2.2.2.1
    · rw [ht, hml]; exact hrec1.2.2.2.2
    · rw [hhist, hml]; simp
    · rw [hl0]; rfl
    · intro id hid; simp at hid
    · exact List.nodup_nil
    · exact List.Pairwise.nil
    · intro L hL
      rw [hml] at hL
      show LinkedAt s L (s.head :: rowAt s [] L ++ [s.tail])
      have : rowAt s [] L = [] := rfl
      rw [this, hh, ht]
      exact ⟨(hlo L hL).1, (hlo L hL).2, trivial⟩
    · intro L hL
      rw [hml] at hL
      rw [hh]
      exact (hconst L hL).2
    · intro L hL
      rw [hml] at hL
      rw [ht]
      exact (hconst L hL).1


/-! ## The inner search walk -/

/-- What the level-`L` walk computes, as a recursion over the chain suffix:
keep advancing while the next node's key is below `key`. -/
def lastLow (s : State) (key : Key) : NodeId → List NodeId → NodeId
  | c, [] => c
  | c, b :: rest => if keyLt (nodeKey s b) key then lastLow s key b rest else c

theorem next_eq (s : State) (id : NodeId) (L : Nat) (hid : id < s.heap.length)
    (hlev : L < nodeLevels s id) :
    next s id L = (nodeAt s id).nextNode[L]? := by
  rw [next, getNode_eq_some s id hid]
  simp only [Option.bind_eq_bind, Option.some_bind]
  have hnot : ¬((nodeAt s id).levels < L) := Nat.not_lt.mpr (Nat.le_of_lt hlev)
  rw [if_neg hnot]

theorem findLoop_spec (s : State) (key : Key) (L : Nat) :
    ∀ (rest : List NodeId) (current : NodeId) (fuel : Nat),
      LinkedAt s L (current :: rest ++ [s.tail]) →
      (∀ a ∈ current :: rest, a < s.heap.length ∧ L < nodeLevels s a ∧ a ≠ s.tail) →
      rest.length + 1 ≤ fuel →
      findLoop s key L fuel current = some (lastLow s key current rest) := by
  intro rest
  induction rest with
  | nil =>
    intro current fuel hchain hfacts hfuel
    obtain ⟨hlt, hlev, hne⟩ := hfacts current (by simp)
    cases fuel with
    | zero => omega
    | succ f =>
      have hnext : next s current L = some (some s.tail) := by
        rw [next_eq s current L hlt hlev, ← nextPtrAt_def s current L hlt]
        exact hchain.1
      rw [findLoop, hnext]
      simp [lastLow]
  | cons b rest ih =>
    intro current fuel hchain hfacts hfuel
    obtain ⟨hlt, hlev, hne⟩ := hfacts current (by simp)
    obtain ⟨hblt, hblev, hbne⟩ := hfacts b (by simp)
    cases fuel with
    | zero => simp at hfuel
    | succ f =>
      have hnext : next s current L = some (some b) := by
        rw [next_eq s current L hlt hlev, ← nextPtrAt_def s current L hlt]
        exact hchain.1
      rw [findLoop, hnext]
      have hbtail : (some b : Ptr) ≠ some s.tail := by
        simpa using hbne
      simp only [Option.bind_eq_bind, Option.some_bind]
      rw [if_pos hbtail]
      rw [getNode_eq_some s b hblt]
      simp only [Option.some_bind]
      by_cases hkey : keyLt (nodeAt s b).item.key key
      · rw [if_pos hkey]
        have hrec := ih b f hchain.2.2
          (fun a ha => hfacts a (by simp at ha ⊢; tauto))
          (by simp at hfuel; omega)
        rw [hrec]
        show _ = some (lastLow s key current (b :: rest))
        rw [lastLow, if_pos (by simpa [nodeKey] using hkey)]
      · rw [if_neg hkey]
        show _ = some (lastLow s key current (b :: rest))
        rw [lastLow, if_neg (by simpa [nodeKey] using hkey)]
        rfl


/-! ## Pure list facts about the sorted split -/


theorem getLastD_append_cons {α : Type} : ∀ (l : List α) (c : α) (m : List α) (a : α),
    (l ++ c :: m).getLastD a = (c :: m).getLastD a := by
  intro l
  induction l with
  | nil => intro c m a; rfl
  | cons x xs ih =>
    intro c m a
    rw [List.cons_append, List.getLastD_cons, ih c m x,
      List.getLastD_cons, List.getLastD_cons]

theorem takeWhile_append_all {α : Type} (P : α → Bool) :
    ∀ (A B : List α), (∀ x ∈ A, P x = true) → (∀ x ∈ B, P x = false) →
      (A ++ B).takeWhile P = A ∧ (A ++ B).dropWhile P = B := by
  intro A
  induction A with
  | nil =>
    intro B _ hB
    cases B with
    | nil => exact ⟨rfl, rfl⟩
    | cons b B' =>
      have hb := hB b (List.mem_cons_self b B')
      constructor
      · simp [List.takeWhile_cons, hb]
      · simp [List.dropWhile_cons, hb]
  | cons a A' ih =>
    intro B hA hB
    have ha := hA a (List.mem_cons_self a A')
    obtain ⟨ht, hd⟩ := ih B (fun x hx => hA x (List.mem_cons_of_mem a hx)) hB
    constructor
    · simp [List.takeWhile_cons, ha, ht]
    · simp [List.dropWhile_cons, ha, hd]


theorem getLastD_mem_of_ne_nil {α : Type} : ∀ (l : List α) (a : α), l ≠ [] → l.getLastD a ∈ l
  | [], _, h => absurd rfl h
  | c :: m, a, _ => by
    rw [List.getLastD_cons]
    cases m with
    | nil => simp [List.getLastD]
    | cons y ys =>
      exact List.mem_cons_of_mem c (getLastD_mem_of_ne_nil (y :: ys) c (by simp))

theorem length_le_of_nodup_lt (l : List Nat) (n : Nat)
    (hn : l.Nodup) (hlt : ∀ x ∈ l, x < n) : l.length ≤ n := by
  classical
  have hcard : l.toFinset.card = l.length := List.toFinset_card_of_nodup hn
  have hsub : l.toFinset ⊆ Finset.range n := by
    intro x hx
    rw [List.mem_toFinset] at hx
    rw [Finset.mem_range]
    exact hlt x hx
  have := Finset.card_le_card hsub
  rw [hcard, Finset.card_range] at this
  exact this

/-! ## The sorted split of the row at the search key -/

/-- Does `id` carry a key strictly below the search key? -/
def isLow (s : State) (key : Key) (id : NodeId) : Bool := keyLt (nodeKey s id) key

/-- The entries strictly below the search key (a prefix, by sortedness). -/
def lowIds (s : State) (key : Key) (row0 : List NodeId) : List NodeId :=
  row0.takeWhile (isLow s key)

/-- The entries at or above the search key. -/
def highIds (s : State) (key : Key) (row0 : List NodeId) : List NodeId :=
  row0.dropWhile (isLow s key)

theorem lowIds_append_highIds (s : State) (key : Key) (row0 : List NodeId) :
    lowIds s key row0 ++ highIds s key row0 = row0 := by
  simp [lowIds, highIds]

theorem lowIds_all (s : State) (key : Key) (row0 : List NodeId) :
    ∀ x ∈ lowIds s key row0, isLow s key x = true :=
  fun _ hx => List.mem_takeWhile_imp hx

theorem highIds_all (s : State) (key : Key) :
    ∀ row0 : List NodeId,
      row0.Pairwise (fun a b => keyLt (nodeKey s a) (nodeKey s b) = true) →
      ∀ x ∈ highIds s key row0, isLow s key x = false := by
  intro row0
  induction row0 with
  | nil => intro _ x hx; simp [highIds] at hx
  | cons a r ih =>
    intro hp x hx
    obtain ⟨ha, hr⟩ := List.pairwise_cons.mp hp
    by_cases hal : isLow s key a = true
    · rw [highIds, List.dropWhile_cons, hal] at hx
      exact ih hr x hx
    · have hal' : isLow s key a = false := by simpa using hal
      rw [highIds, List.dropWhile_cons, hal'] at hx
      simp only [Bool.false_eq_true, if_false, List.mem_cons] at hx
      rcases hx with hx | hx
      · subst hx
        simpa using hal
      · rw [isLow]
        exact keyLt_not_lt_of_lt_of_not_lt key (nodeKey s a) (nodeKey s x)
          (ha x hx) (by simpa [isLow] using hal)


theorem rowAt_append (s : State) (l1 l2 : List NodeId) (L : Nat) :
    rowAt s (l1 ++ l2) L = rowAt s l1 L ++ rowAt s l2 L := by
  simp [rowAt]

theorem rowAt_split (s : State) (key : Key) (row0 : List NodeId)
    (hsorted : row0.Pairwise (fun a b => keyLt (nodeKey s a) (nodeKey s b) = true))
    (L : Nat) :
    (rowAt s row0 L).takeWhile (isLow s key) = rowAt s (lowIds s key row0) L
      ∧ (rowAt s row0 L).dropWhile (isLow s key) = rowAt s (highIds s key row0) L := by
  have hsplit : rowAt s row0 L
      = rowAt s (lowIds s key row0) L ++ rowAt s (highIds s key row0) L := by
    rw [← rowAt_append, lowIds_append_highIds]
  rw [hsplit]
  refine takeWhile_append_all (isLow s key) _ _ ?_ ?_
  · intro x hx
    exact lowIds_all s key row0 x (List.mem_of_mem_filter hx)
  · intro x hx
    exact highIds_all s key row0 hsorted x (List.mem_of_mem_filter hx)

/-- The predecessor the search records for level `L`: the last entry below
the key that still participates in level `L`, or `head`. -/
def predAt (s : State) (key : Key) (row0 : List NodeId) (L : Nat) : NodeId :=
  (rowAt s (lowIds s key row0) L).getLastD s.head

theorem rowAt_succ (s : State) (l : List NodeId) (L : Nat) :
    rowAt s l (L + 1)
      = (rowAt s l L).filter (fun id => decide (L + 1 < nodeLevels s id)) := by
  rw [rowAt, rowAt, List.filter_filter]
  apply List.filter_congr
  intro x _
  by_cases h : L + 1 < nodeLevels s x
  · simp [h, Nat.lt_of_succ_lt h]
  · simp [h]

theorem rowAt_top (s : State) (l : List NodeId) (m : Nat)
    (hlev : ∀ x ∈ l, nodeLevels s x ≤ m) : rowAt s l m = [] := by
  rw [rowAt, List.filter_eq_nil_iff]
  intro x hx
  simp only [decide_eq_true_eq]
  exact Nat.not_lt.mpr (hlev x hx)

theorem lastLow_append (s : State) (key : Key) :
    ∀ (T D : List NodeId) (c : NodeId),
      (∀ x ∈ T, keyLt (nodeKey s x) key = true) →
      (∀ x ∈ D, keyLt (nodeKey s x) key = false) →
      lastLow s key c (T ++ D) = T.getLastD c := by
  intro T
  induction T with
  | nil =>
    intro D c _ hD
    cases D with
    | nil => rfl
    | cons d D' =>
      rw [List.nil_append, lastLow, if_neg]
      · rfl
      · rw [hD d (List.mem_cons_self d D')]
        simp
  | cons t T' ih =>
    intro D c hT hD
    rw [List.cons_append, lastLow,
      if_pos (hT t (List.mem_cons_self t T')),
      ih D t (fun x hx => hT x (List.mem_cons_of_mem t hx)) hD,
      List.getLastD_cons]


/-! ## Per-level descent of `findInternal` -/

theorem rowAt_sub_facts (s : State) (row0 : List NodeId) (hInv : Inv s row0)
    (L : Nat) : ∀ a ∈ rowAt s row0 L,
      a < s.heap.length ∧ L < nodeLevels s a ∧ a ≠ s.tail ∧ a ≠ s.head := by
  intro a ha
  have hmem : a ∈ row0 := List.mem_of_mem_filter ha
  have hok := hInv.hnodes a hmem
  have hlev : L < nodeLevels s a := by
    have := List.of_mem_filter ha
    simpa using this
  exact ⟨hok.lt, hlev, hok.neT, hok.neH⟩

theorem rowAt_length_le (s : State) (row0 : List NodeId) (hInv : Inv s row0)
    (L : Nat) : (rowAt s row0 L).length ≤ s.heap.length := by
  refine length_le_of_nodup_lt _ _ (hInv.hnodup.filter _) ?_
  intro x hx
  exact (rowAt_sub_facts s row0 hInv L x hx).1

/-- One level of the descent: starting from the level-`L+1` predecessor, the
level-`L` walk stops exactly at the level-`L` predecessor. -/
theorem findLoop_predAt (s : State) (key : Key) (row0 : List NodeId)
    (hInv : Inv s row0) (L : Nat) (hL : L < s.maxLevel) :
    findLoop s key L (s.heap.length + 1) (predAt s key row0 (L + 1))
      = some (predAt s key row0 L) := by
  set TL := rowAt s (lowIds s key row0) L with hTL
  set DL := rowAt s (highIds s key row0) L with hDL
  have hrow : rowAt s row0 L = TL ++ DL := by
    rw [hTL, hDL, ← rowAt_append, lowIds_append_highIds]
  have hTLlow : ∀ x ∈ TL, keyLt (nodeKey s x) key = true := by
    intro x hx
    exact lowIds_all s key row0 x (List.mem_of_mem_filter hx)
  have hDLhigh : ∀ x ∈ DL, keyLt (nodeKey s x) key = false := by
    intro x hx
    exact highIds_all s key row0 hInv.hsorted x (List.mem_of_mem_filter hx)
  have hfacts : ∀ a ∈ rowAt s row0 L,
      a < s.heap.length ∧ L < nodeLevels s a ∧ a ≠ s.tail ∧ a ≠ s.head :=
    rowAt_sub_facts s row0 hInv L
  have hheadfacts : s.head < s.heap.length ∧ L < nodeLevels s s.head ∧ s.head ≠ s.tail := by
    refine ⟨hInv.hhead, ?_, hInv.hht⟩
    rw [hInv.hheadLv]
    exact hL
  have hchain : LinkedAt s L (s.head :: (TL ++ DL) ++ [s.tail]) := by
    rw [← hrow]
    exact hInv.hlinked L hL
  have hlenrow : (TL ++ DL).length ≤ s.heap.length := by
    rw [← hrow]
    exact rowAt_length_le s row0 hInv L
  -- the level-(L+1) predecessor lives in head :: TL
  have hsub : rowAt s (lowIds s key row0) (L + 1)
      = TL.filter (fun id => decide (L + 1 < nodeLevels s id)) := by
    rw [hTL, ← rowAt_succ]
  cases hT' : rowAt s (lowIds s key row0) (L + 1) with
  | nil =>
    have hpred : predAt s key row0 (L + 1) = s.head := by
      rw [predAt, hT']
      rfl
    rw [hpred]
    have hspec := findLoop_spec s key L (TL ++ DL) s.head (s.heap.length + 1)
      hchain
      (by
        intro a ha
        simp only [List.mem_cons] at ha
        rcases ha with ha | ha
        · subst ha
          exact ⟨hheadfacts.1, hheadfacts.2.1, hheadfacts.2.2⟩
        · rw [hrow] at hfacts
          obtain ⟨h1, h2, h3, _⟩ := hfacts a ha
          exact ⟨h1, h2, h3⟩)
      (by omega)
    rw [hspec, lastLow_append s key TL DL s.head hTLlow hDLhigh]
    rw [predAt]
  | cons t ts =>
    have hcm : predAt s key row0 (L + 1) ∈ TL := by
      have hmem : predAt s key row0 (L + 1) ∈ rowAt s (lowIds s key row0) (L + 1) := by
        rw [predAt, hT']
        exact getLastD_mem_of_ne_nil (t :: ts) s.head (by simp)
      rw [hsub] at hmem
      exact List.mem_of_mem_filter hmem
    obtain ⟨X, Y, hXY⟩ := List.append_of_mem hcm
    set c := predAt s key row0 (L + 1) with hc
    have hchain' : LinkedAt s L (c :: (Y ++ DL) ++ [s.tail]) := by
      have : s.head :: (TL ++ DL) ++ [s.tail]
          = (s.head :: X) ++ (c :: (Y ++ DL) ++ [s.tail]) := by
        rw [hXY]
        simp
      rw [this] at hchain
      exact LinkedAt_append_right hchain
    have hYsub : ∀ x ∈ Y, x ∈ TL := by
      intro x hx
      rw [hXY]
      simp [hx]
    have hspec := findLoop_spec s key L (Y ++ DL) c (s.heap.length + 1)
      hchain'
      (by
        intro a ha
        simp only [List.mem_cons, List.mem_append] at ha
        have hmemrow : a ∈ rowAt s row0 L := by
          rw [hrow, List.mem_append]
          rcases ha with ha | ha | ha
          · exact Or.inl (ha ▸ hcm)
          · exact Or.inl (hYsub a ha)
          · exact Or.inr ha
        obtain ⟨h1, h2, h3, _⟩ := hfacts a hmemrow
        exact ⟨h1, h2, h3⟩)
      (by
        have : Y.length ≤ TL.length := by
          rw [hXY]
          simp
          omega
        have := hlenrow
        simp only [List.length_append] at *
        omega)
    rw [hspec]
    have hYlow : ∀ x ∈ Y, keyLt (nodeKey s x) key = true :=
      fun x hx => hTLlow x (hYsub x hx)
    rw [lastLow_append s key Y DL c hYlow hDLhigh]
    show some (Y.getLastD c) = some (predAt s key row0 L)
    rw [predAt, ← hTL, hXY, getLastD_append_cons X c Y s.head, List.getLastD_cons]


/-- `findLoop` reads only the heap and the tail pointer. -/
theorem findLoop_congr (s t : State) (hheap : t.heap = s.heap) (htail : t.tail = s.tail)
    (key : Key) (i : Nat) :
    ∀ fuel c, findLoop t key i fuel c = findLoop s key i fuel c := by
  intro fuel
  induction fuel with
  | zero => intro c; rfl
  | succ f ih =>
    intro c
    rw [findLoop, findLoop]
    have h1 : next t c i = next s c i := by
      rw [next, next, getNode, getNode, hheap]
    rw [h1, htail]
    cases hn : next s c i with
    | none => rfl
    | some nxt =>
      simp only [Option.bind_eq_bind, Option.some_bind]
      by_cases hne : nxt ≠ some s.tail
      · rw [if_pos hne, if_pos hne]
        cases nxt with
        | none => rfl
        | some nid =>
          have h2 : getNode t nid = getNode s nid := by
            rw [getNode, getNode, hheap]
          dsimp only
          rw [h2]
          cases hg : getNode s nid with
          | none => rfl
          | some n =>
            simp only [Option.some_bind]
            by_cases hk : keyLt n.item.key key
            · rw [if_pos hk, if_pos hk, ih]
            · rw [if_neg hk, if_neg hk]
      · rw [if_neg hne, if_neg hne]

/-- The outer descent: level by level, `findOuter` walks to each level's
predecessor and records it in the history. -/
theorem findOuter_spec (s : State) (key : Key) (row0 : List NodeId)
    (hInv : Inv s row0) :
    ∀ i, i ≤ s.maxLevel → ∀ hist : List Ptr, hist.length = s.maxLevel →
      ∃ h', findOuter { s with history := hist } key i (predAt s key row0 i)
          = some ({ s with history := h' }, predAt s key row0 0)
        ∧ h'.length = s.maxLevel
        ∧ (∀ L, L < i → h'[L]? = some (some (predAt s key row0 L)))
        ∧ (∀ L, i ≤ L → h'[L]? = hist[L]?) := by
  intro i
  induction i with
  | zero =>
    intro _ hist hlen
    refine ⟨hist, rfl, hlen, ?_, ?_⟩
    · intro L hL
      omega
    · intro L _
      rfl
  | succ i ih =>
    intro hi hist hlen
    have hi' : i < s.maxLevel := by omega
    have hloop : findLoop { s with history := hist } key i
        ({ s with history := hist } : State).heap.length.succ (predAt s key row0 (i + 1))
        = some (predAt s key row0 i) := by
      rw [findLoop_congr s { s with history := hist } rfl rfl]
      exact findLoop_predAt s key row0 hInv i hi'
    rw [findOuter]
    rw [hloop]
    simp only [Option.bind_eq_bind, Option.some_bind]
    rw [if_pos (show i < ({ s with history := hist } : State).history.length by
      simpa [hlen] using hi')]
    have hstep := ih (by omega) (hist.set i (some (predAt s key row0 i)))
      (by simpa using hlen)
    obtain ⟨h', hrun, hlen', hlo, hhi⟩ := hstep
    refine ⟨h', ?_, hlen', ?_, ?_⟩
    · simpa using hrun
    · intro L hL
      by_cases hLi : L < i
      · exact hlo L hLi
      · have hLe : L = i := by omega
        subst hLe
        rw [hhi L le_rfl]
        rw [List.getElem?_set]
        simp [hlen, hi']
    · intro L hL
      rw [hhi L (by omega)]
      rw [List.getElem?_set]
      simp [show ¬(i = L) by omega]


/-- The forward pointer out of the last node of the chain prefix `h :: l`. -/
theorem LinkedAt_getLastD_next {s : State} {L : Nat} :
    ∀ (l : List NodeId) (h d : NodeId) (rest : List NodeId),
      LinkedAt s L ((h :: l) ++ d :: rest) →
      nextPtrAt s (l.getLastD h) L = some (some d) := by
  intro l
  induction l with
  | nil =>
    intro h d rest hchain
    exact hchain.1
  | cons x xs ih =>
    intro h d rest hchain
    rw [List.getLastD_cons]
    exact ih x d rest hchain.2.2

theorem rowAt_zero (s : State) (l : List NodeId)
    (h : ∀ x ∈ l, 1 ≤ nodeLevels s x) : rowAt s l 0 = l := by
  rw [rowAt]
  apply List.filter_eq_self.mpr
  intro x hx
  simpa using h x hx

/-- What `findInternal` returns, computed on the abstract row: the head of
the not-below part when it bears exactly the searched key. -/
def findRes (s : State) (key : Key) (row0 : List NodeId) : Option NodeId :=
  match highIds s key row0 with
  | [] => none
  | d :: _ => if nodeKey s d = key then some d else none

theorem findInternal_spec (s : State) (key : Key) (row0 : List NodeId)
    (hInv : Inv s row0) :
    ∃ h', findInternal s key = some ({ s with history := h' }, findRes s key row0)
      ∧ h'.length = s.maxLevel
      ∧ (∀ L, L < s.maxLevel → h'[L]? = some (some (predAt s key row0 L))) := by
  have hlowsub : ∀ x ∈ lowIds s key row0, x ∈ row0 := by
    intro x hx
    have := lowIds_append_highIds s key row0
    rw [← this]
    exact List.mem_append_left _ hx
  have hhighsub : ∀ x ∈ highIds s key row0, x ∈ row0 := by
    intro x hx
    have := lowIds_append_highIds s key row0
    rw [← this]
    exact List.mem_append_right _ hx
  have hpredtop : predAt s key row0 s.maxLevel = s.head := by
    rw [predAt, rowAt_top]
    · rfl
    · intro x hx
      exact (hInv.hnodes x (hlowsub x hx)).lvM
  have hrow0 : rowAt s row0 0 = row0 :=
    rowAt_zero s row0 (fun x hx => (hInv.hnodes x hx).lv1)
  have hlow0 : rowAt s (lowIds s key row0) 0 = lowIds s key row0 :=
    rowAt_zero s _ (fun x hx => (hInv.hnodes x (hlowsub x hx)).lv1)
  obtain ⟨h', hrun, hlen', hlo, _⟩ :=
    findOuter_spec s key row0 hInv s.maxLevel le_rfl s.history hInv.hhist
  set c := predAt s key row0 0 with hc
  have hcfacts : c < s.heap.length ∧ 0 < nodeLevels s c := by
    rw [hc, predAt, hlow0]
    rcases List.eq_nil_or_concat (lowIds s key row0) with hnil | ⟨l', x, hcons⟩
    · rw [hnil]
      refine ⟨hInv.hhead, ?_⟩
      rw [List.getLastD]
      rw [hInv.hheadLv]
      exact hInv.hml
    · have hmem : (lowIds s key row0).getLastD s.head ∈ lowIds s key row0 :=
        getLastD_mem_of_ne_nil _ s.head (by rw [hcons]; simp)
      have hok := hInv.hnodes _ (hlowsub _ hmem)
      exact ⟨hok.lt, hok.lv1⟩
  have hchain0 : LinkedAt s 0 (s.head :: (lowIds s key row0 ++ highIds s key row0) ++ [s.tail]) := by
    rw [lowIds_append_highIds, ← hrow0]
    exact hInv.hlinked 0 hInv.hml
  -- the forward pointer out of the search's final position
  have hnextc : ∀ d rest, highIds s key row0 ++ [s.tail] = d :: rest →
      nextPtrAt s c 0 = some (some d) := by
    intro d rest hdr
    rw [hc, predAt, hlow0]
    have : s.head :: (lowIds s key row0 ++ highIds s key row0) ++ [s.tail]
        = (s.head :: lowIds s key row0) ++ (highIds s key row0 ++ [s.tail]) := by
      simp
    rw [this, hdr] at hchain0
    exact LinkedAt_getLastD_next (lowIds s key row0) s.head d rest hchain0
  rw [findInternal]
  have hfo : findOuter s key s.maxLevel s.head
      = some ({ s with history := h' }, c) := by
    have hargs : findOuter s key s.maxLevel s.head
        = findOuter s key s.maxLevel (predAt s key row0 s.maxLevel) := by
      rw [hpredtop]
    rw [hargs]
    exact hrun
  rw [hfo]
  simp only [Option.bind_eq_bind, Option.some_bind]
  have hnext_eq : next { s with history := h' } c 0 = next s c 0 := by
    rw [next, next, getNode, getNode]
  rw [hnext_eq, next_eq s c 0 hcfacts.1 hcfacts.2, ← nextPtrAt_def s c 0 hcfacts.1]
  cases hhigh : highIds s key row0 with
  | nil =>
    have hct : nextPtrAt s c 0 = some (some s.tail) := by
      apply hnextc s.tail []
      rw [hhigh]
      rfl
    rw [hct]
    simp only [Option.some_bind]
    have hgt : getNode { s with history := h' } s.tail = some (nodeAt s s.tail) :=
      getNode_eq_some s s.tail hInv.htail
    rw [hgt]
    simp only [Option.some_bind]
    rw [if_pos (Or.inl (by exact hInv.htailE))]
    refine ⟨h', ?_, hlen', hlo⟩
    simp [findRes, hhigh]
  | cons d high' =>
    have hcd : nextPtrAt s c 0 = some (some d) := by
      apply hnextc d (high' ++ [s.tail])
      rw [hhigh]
      rfl
    rw [hcd]
    simp only [Option.some_bind]
    have hdmem : d ∈ row0 := hhighsub d (by rw [hhigh]; simp)
    have hdok := hInv.hnodes d hdmem
    have hgd : getNode { s with history := h' } d = some (nodeAt s d) :=
      getNode_eq_some s d hdok.lt
    rw [hgd]
    simp only [Option.some_bind]
    by_cases hk : nodeKey s d = key
    · rw [if_neg]
      · refine ⟨h', ?_, hlen', hlo⟩
        simp [findRes, hhigh, hk]
      · push_neg
        refine ⟨?_, ?_⟩
        · rw [show (nodeAt s d).isEndNode = nodeIsEnd s d from rfl, hdok.notEnd]
          simp
        · rw [show (nodeAt s d).item.key = nodeKey s d from rfl, hk]
    · rw [if_pos]
      · refine ⟨h', ?_, hlen', hlo⟩
        simp [findRes, hhigh, hk]
      · right
        rw [show (nodeAt s d).item.key = nodeKey s d from rfl]
        exact fun h => hk h.symm


/-! ## The abstract (entry-list) view of the operations -/

/-- First entry with the given key (the reference semantics of `Get`). -/
def specLookup (key : Key) : List SkipListItem → Option SkipListItem
  | [] => none
  | e :: es => if e.key = key then some e else specLookup key es

/-- Sorted insert-or-replace (the reference semantics of `Set`). -/
def specSet (key : Key) (value : Value) : List SkipListItem → List SkipListItem
  | [] => [{ key := key, value := value }]
  | e :: es =>
    if keyLt key e.key then { key := key, value := value } :: e :: es
    else if key = e.key then { key := key, value := value } :: es
    else e :: specSet key value es

/-- Drop the entries with the given key (the reference semantics of `Remove`). -/
def specRemove (key : Key) (es : List SkipListItem) : List SkipListItem :=
  es.filter (fun e => decide (e.key ≠ key))

theorem specLookup_append_skip (key : Key) :
    ∀ (A B : List SkipListItem), (∀ e ∈ A, e.key ≠ key) →
      specLookup key (A ++ B) = specLookup key B := by
  intro A
  induction A with
  | nil => intro B _; rfl
  | cons a A' ih =>
    intro B hA
    rw [List.cons_append, specLookup, if_neg (hA a (List.mem_cons_self a A'))]
    exact ih B (fun e he => hA e (List.mem_cons_of_mem a he))

theorem specLookup_none_of_all_ne (key : Key) :
    ∀ (A : List SkipListItem), (∀ e ∈ A, e.key ≠ key) → specLookup key A = none := by
  intro A hA
  have := specLookup_append_skip key A [] hA
  simpa using this

/-- Keys strictly after a non-low head of the sorted remainder never equal
the search key. -/
theorem high_rest_ne (s : State) (key : Key) (d : NodeId) (rest : List NodeId)
    (hd : keyLt (nodeKey s d) key = false)
    (hdk : nodeKey s d ≠ key)
    (hp : ∀ x ∈ rest, keyLt (nodeKey s d) (nodeKey s x) = true) :
    ∀ x ∈ rest, nodeKey s x ≠ key := by
  intro x hx he
  have hkd : keyLt key (nodeKey s d) = true :=
    keyLt_of_ne_of_not_lt (nodeKey s d) key (fun h => hdk h) hd
  have : keyLt key (nodeKey s x) = true := keyLt_trans _ _ _ hkd (hp x hx)
  rw [he] at this
  rw [keyLt_irrefl] at this
  exact absurd this (by simp)

/-- The searched node's item is exactly the reference lookup. -/
theorem findRes_entries (s : State) (key : Key) (row0 : List NodeId)
    (hsorted : row0.Pairwise (fun a b => keyLt (nodeKey s a) (nodeKey s b) = true)) :
    (findRes s key row0).map (fun id => (nodeAt s id).item)
      = specLookup key (entriesOf s row0) := by
  have hlow_ne : ∀ e ∈ (lowIds s key row0).map (fun id => (nodeAt s id).item),
      e.key ≠ key := by
    intro e he
    obtain ⟨id, hid, hide⟩ := List.mem_map.mp he
    have hl := lowIds_all s key row0 id hid
    rw [isLow] at hl
    have := keyLt_ne (nodeKey s id) key hl
    rw [← hide]
    exact this
  have hsplit : entriesOf s row0
      = (lowIds s key row0).map (fun id => (nodeAt s id).item)
        ++ (highIds s key row0).map (fun id => (nodeAt s id).item) := by
    rw [entriesOf]
    conv_lhs => rw [← lowIds_append_highIds s key row0]
    rw [List.map_append]
  rw [hsplit, specLookup_append_skip key _ _ hlow_ne]
  cases hhigh : highIds s key row0 with
  | nil =>
    rw [findRes, hhigh]
    rfl
  | cons d rest =>
    rw [findRes, hhigh, List.map_cons, specLookup]
    dsimp only
    by_cases hk : nodeKey s d = key
    · rw [if_pos hk]
      rw [if_pos (show (nodeAt s d).item.key = key from hk)]
      rfl
    · rw [if_neg hk]
      rw [if_neg (show ¬(nodeAt s d).item.key = key from hk)]
      have hp : (highIds s key row0).Pairwise
          (fun a b => keyLt (nodeKey s a) (nodeKey s b) = true) := by
        refine List.Pairwise.sublist ?_ hsorted
        exact List.dropWhile_sublist _
      rw [hhigh] at hp
      obtain ⟨hpd, _⟩ := List.pairwise_cons.mp hp
      have hdl : keyLt (nodeKey s d) key = false :=
        highIds_all s key row0 hsorted d (by rw [hhigh]; simp)
      have hne := high_rest_ne s key d rest hdl hk hpd
      rw [specLookup_none_of_all_ne]
      · rfl
      · intro e he
        obtain ⟨id, hid, hide⟩ := List.mem_map.mp he
        rw [← hide]
        exact hne id hid


/-- Rewriting the (scratch) history buffer preserves the invariant. -/
theorem Inv_setHistory (s : State) (row0 : List NodeId) (hInv : Inv s row0)
    (h : List Ptr) (hlen : h.length = s.maxLevel) :
    Inv { s with history := h } row0 := by
  refine ⟨hInv.hml, hInv.hhead, hInv.htail, hInv.hht, hInv.hheadE, hInv.htailE,
    hInv.hheadLv, hInv.htailLv, hInv.hheadNextLen, hInv.hheadPrevLen,
    hInv.htailNextLen, hInv.htailPrevLen, hlen, hInv.hlen, ?_, hInv.hnodup,
    hInv.hsorted, ?_, hInv.hheadPrev, hInv.htailNext⟩
  · intro id hid
    have hok := hInv.hnodes id hid
    exact ⟨hok.lt, hok.notEnd, hok.lv1, hok.lvM, hok.nlen, hok.plen, hok.neH, hok.neT⟩
  · intro L hL
    show LinkedAt { s with history := h } L (s.head :: rowAt s row0 L ++ [s.tail])
    refine LinkedAt_congr ?_ ?_ (hInv.hlinked L hL)
    · intro x _
      exact nextPtrAt_setHistory s h x L
    · intro x _
      exact prevPtrAt_setHistory s h x L

/-- `Get` returns exactly the reference lookup value, mutating only the
scratch history. -/
theorem Get_spec (s : State) (key : Key) (row0 : List NodeId) (hInv : Inv s row0) :
    ∃ h', Get s key = some ({ s with history := h' }, specLookup key (entriesOf s row0))
      ∧ h'.length = s.maxLevel ∧ Inv { s with history := h' } row0 := by
  obtain ⟨h', hrun, hlen', _⟩ := findInternal_spec s key row0 hInv
  refine ⟨h', ?_, hlen', Inv_setHistory s row0 hInv h' hlen'⟩
  rw [Get, hrun]
  simp only [Option.bind_eq_bind, Option.some_bind]
  rw [← findRes_entries s key row0 hInv.hsorted]
  cases hres : findRes s key row0 with
  | none => rfl
  | some d =>
    have hdok : d < s.heap.length := by
      have hdmem : d ∈ row0 := by
        rw [findRes] at hres
        cases hhigh : highIds s key row0 with
        | nil => rw [hhigh] at hres; simp at hres
        | cons d' rest =>
          rw [hhigh] at hres
          dsimp only at hres
          by_cases hk : nodeKey s d' = key
          · rw [if_pos hk] at hres
            have hdd : d = d' := by
              injection hres with hh
              exact hh.symm
            subst hdd
            have : d ∈ highIds s key row0 := by rw [hhigh]; simp
            have happ := lowIds_append_highIds s key row0
            rw [← happ]
            exact List.mem_append_right _ this
          · rw [if_neg hk] at hres
            simp at hres
      exact (hInv.hnodes d hdmem).lt
    have hg : getNode { s with history := h' } d = some (nodeAt s d) :=
      getNode_eq_some s d hdok
    dsimp only
    rw [hg]
    rfl


/-! ## Shape-preserving steps -/

/-- `s'` exposes exactly the same topology as `s`: same capacity, sentinels,
arena size, entry count, pointer reads, heights, flags and keys. -/
structure EqShape (s s' : State) : Prop where
  hml : s'.maxLevel = s.maxLevel
  hhd : s'.head = s.head
  htl : s'.tail = s.tail
  hhl : s'.heap.length = s.heap.length
  hln : s'.length = s.length
  hnx : ∀ a M, nextPtrAt s' a M = nextPtrAt s a M
  hpv : ∀ a M, prevPtrAt s' a M = prevPtrAt s a M
  hlv : ∀ a, nodeLevels s' a = nodeLevels s a
  hed : ∀ a, nodeIsEnd s' a = nodeIsEnd s a
  hky : ∀ a, nodeKey s' a = nodeKey s a
  hnl : ∀ a, (nodeAt s' a).nextNode.length = (nodeAt s a).nextNode.length
  hpl : ∀ a, (nodeAt s' a).prevNode.length = (nodeAt s a).prevNode.length

theorem rowAt_congr_of {s s' : State} (h : ∀ a, nodeLevels s' a = nodeLevels s a)
    (l : List NodeId) (L : Nat) : rowAt s' l L = rowAt s l L := by
  rw [rowAt, rowAt]
  apply List.filter_congr
  intro x _
  rw [h x]

/-- The invariant transfers across any shape-preserving step (the history
may be rewritten to any buffer of the right length). -/
theorem Inv_of_eqShape {s s' : State} {row0 : List NodeId} (hInv : Inv s row0)
    (hsh : EqShape s s') (hh : s'.history.length = s'.maxLevel) : Inv s' row0 := by
  have hrow : ∀ L, rowAt s' row0 L = rowAt s row0 L := rowAt_congr_of hsh.hlv row0
  refine ⟨?_, ?_, ?_, ?_, ?_, ?_, ?_, ?_, ?_, ?_, ?_, ?_, hh, ?_, ?_, hInv.hnodup,
    ?_, ?_, ?_, ?_⟩
  · rw [hsh.hml]; exact hInv.hml
  · rw [hsh.hhd, hsh.hhl]; exact hInv.hhead
  · rw [hsh.htl, hsh.hhl]; exact hInv.htail
  · rw [hsh.hhd, hsh.htl]; exact hInv.hht
  · rw [hsh.hhd, hsh.hed]; exact hInv.hheadE
  · rw [hsh.htl, hsh.hed]; exact hInv.htailE
  · rw [hsh.hhd, hsh.hlv, hsh.hml]; exact hInv.hheadLv
  · rw [hsh.htl, hsh.hlv, hsh.hml]; exact hInv.htailLv
  · rw [hsh.hhd, hsh.hnl, hsh.hml]; exact hInv.hheadNextLen
  · rw [hsh.hhd, hsh.hpl, hsh.hml]; exact hInv.hheadPrevLen
  · rw [hsh.htl, hsh.hnl, hsh.hml]; exact hInv.htailNextLen
  · rw [hsh.htl, hsh.hpl, hsh.hml]; exact hInv.htailPrevLen
  · rw [hsh.hln]; exact hInv.hlen
  · intro id hid
    have hok := hInv.hnodes id hid
    refine ⟨?_, ?_, ?_, ?_, ?_, ?_, ?_, ?_⟩
    · rw [hsh.hhl]; exact hok.lt
    · rw [hsh.hed]; exact hok.notEnd
    · rw [hsh.hlv]; exact hok.lv1
    · rw [hsh.hlv, hsh.hml]; exact hok.lvM
    · rw [hsh.hnl, hsh.hlv]; exact hok.nlen
    · rw [hsh.hpl, hsh.hlv]; exact hok.plen
    · rw [hsh.hhd]; exact hok.neH
    · rw [hsh.htl]; exact hok.neT
  · refine List.Pairwise.imp ?_ hInv.hsorted
    intro a b hab
    rw [hsh.hky, hsh.hky]
    exact hab
  · intro L hL
    rw [hsh.hml] at hL
    rw [hsh.hhd, hsh.htl, hrow L]
    refine LinkedAt_congr ?_ ?_ (hInv.hlinked L hL)
    · intro x _; exact hsh.hnx x L
    · intro x _; exact hsh.hpv x L
  · intro L hL
    rw [hsh.hml] at hL
    rw [hsh.hhd, hsh.hpv]
    exact hInv.hheadPrev L hL
  · intro L hL
    rw [hsh.hml] at hL
    rw [hsh.htl, hsh.hnx]
    exact hInv.htailNext L hL


theorem findRes_some_facts (s : State) (key : Key) (row0 : List NodeId)
    (d : NodeId) (hres : findRes s key row0 = some d) :
    ∃ rest, highIds s key row0 = d :: rest ∧ nodeKey s d = key := by
  rw [findRes] at hres
  cases hhigh : highIds s key row0 with
  | nil => rw [hhigh] at hres; simp at hres
  | cons d' rest =>
    rw [hhigh] at hres
    dsimp only at hres
    by_cases hk : nodeKey s d' = key
    · rw [if_pos hk] at hres
      have hdd : d' = d := by injection hres
      subst hdd
      exact ⟨rest, rfl, hk⟩
    · rw [if_neg hk] at hres
      simp at hres

theorem EqShape_writeValue_setHistory (s : State) (h : List Ptr) (d : NodeId)
    (v : Value) : EqShape s (writeValue { s with history := h } d v) := by
  refine ⟨rfl, rfl, rfl, by simp, rfl, ?_, ?_, ?_, ?_, ?_, ?_, ?_⟩
  · intro a M
    exact (nextPtrAt_writeValue _ d v a M).trans (nextPtrAt_setHistory s h a M)
  · intro a M
    exact (prevPtrAt_writeValue _ d v a M).trans (prevPtrAt_setHistory s h a M)
  · intro a
    exact nodeLevels_writeValue _ d v a
  · intro a
    exact nodeIsEnd_writeValue _ d v a
  · intro a
    exact nodeKey_writeValue _ d v a
  · intro a
    exact nextLen_writeValue _ d v a
  · intro a
    exact prevLen_writeValue _ d v a

theorem specSet_present (key : Key) (v : Value) :
    ∀ (A : List SkipListItem) (e : SkipListItem) (B : List SkipListItem),
      (∀ x ∈ A, keyLt x.key key = true) → e.key = key →
      specSet key v (A ++ e :: B) = A ++ { key := key, value := v } :: B := by
  intro A
  induction A with
  | nil =>
    intro e B _ he
    rw [List.nil_append, specSet]
    rw [if_neg (by rw [he, keyLt_irrefl]; simp)]
    rw [if_pos he.symm]
    rfl
  | cons a A' ih =>
    intro e B hA he
    have ha := hA a (List.mem_cons_self a A')
    rw [List.cons_append, specSet]
    rw [if_neg (by rw [keyLt_asymm _ _ ha]; simp)]
    rw [if_neg (fun hk => by rw [← hk, keyLt_irrefl] at ha; exact absurd ha (by simp))]
    rw [ih e B (fun x hx => hA x (List.mem_cons_of_mem a hx)) he]
    rfl


/-- `Set` on a present key: the matched node's value is replaced in place;
nothing else (but the scratch history) changes. -/
theorem Set_found_spec (s : State) (key : Key) (v : Value) (lvl : Nat)
    (row0 : List NodeId) (hInv : Inv s row0) (d : NodeId)
    (hres : findRes s key row0 = some d) :
    ∃ h', Set s key v lvl = some (writeValue { s with history := h' } d v)
      ∧ h'.length = s.maxLevel
      ∧ Inv (writeValue { s with history := h' } d v) row0
      ∧ EqShape s (writeValue { s with history := h' } d v)
      ∧ (writeValue { s with history := h' } d v).size = s.size
      ∧ entriesOf (writeValue { s with history := h' } d v) row0
          = specSet key v (entriesOf s row0) := by
  obtain ⟨h', hrun, hlen', _⟩ := findInternal_spec s key row0 hInv
  obtain ⟨rest, hhigh, hdk⟩ := findRes_some_facts s key row0 d hres
  have hrow : row0 = lowIds s key row0 ++ d :: rest := by
    conv_lhs => rw [← lowIds_append_highIds s key row0]
    rw [hhigh]
  have hdmem : d ∈ row0 := by
    rw [hrow]
    simp
  have hdlt : d < s.heap.length := (hInv.hnodes d hdmem).lt
  have hsh := EqShape_writeValue_setHistory s h' d v
  have hInv' : Inv (writeValue { s with history := h' } d v) row0 :=
    Inv_of_eqShape hInv hsh (by simpa using hlen')
  have hd_not_low : d ∉ lowIds s key row0 := by
    intro hd
    have := hInv.hnodup
    rw [hrow] at this
    rw [List.nodup_append] at this
    exact this.2.2 hd (by simp)
  have hd_not_rest : d ∉ rest := by
    have := hInv.hnodup
    rw [hrow] at this
    rw [List.nodup_append] at this
    have hcons := this.2.1
    rw [List.nodup_cons] at hcons
    exact hcons.1
  refine ⟨h', ?_, hlen', hInv', hsh, rfl, ?_⟩
  · rw [Set, hrun]
    simp only [Option.bind_eq_bind, Option.some_bind]
    rw [hres]
    dsimp only
    exact setItemValue_eq { s with history := h' } d v (by simpa using hdlt)
  · -- the entry list is the reference insert-or-replace
    have hitem_ne : ∀ a, a ≠ d →
        (nodeAt (writeValue { s with history := h' } d v) a).item
          = (nodeAt s a).item := by
      intro a ha
      rw [nodeAt_writeValue_ne _ d v a ha]
      exact rfl
    have hitem_d : (nodeAt (writeValue { s with history := h' } d v) d).item
        = { key := key, value := v } := by
      rw [nodeAt_writeValue_self _ d v (by simpa using hdlt)]
      show { (nodeAt { s with history := h' } d).item with value := v } = _
      have : (nodeAt { s with history := h' } d).item.key = key := hdk
      rw [SkipListItem.mk.injEq]
      exact ⟨this, rfl⟩
    have hlow_keys : ∀ x ∈ (lowIds s key row0).map (fun id => (nodeAt s id).item),
        keyLt x.key key = true := by
      intro x hx
      obtain ⟨id, hid, hide⟩ := List.mem_map.mp hx
      have := lowIds_all s key row0 id hid
      rw [isLow] at this
      rw [← hide]
      exact this
    conv_rhs => rw [entriesOf, hrow]
    rw [List.map_append, List.map_cons]
    rw [specSet_present key v _ _ _ hlow_keys hdk]
    conv_lhs => rw [entriesOf, hrow]
    rw [List.map_append, List.map_cons]
    congr 1
    · apply List.map_congr_left
      intro a ha
      exact hitem_ne a (fun he => hd_not_low (he ▸ ha))
    · rw [hitem_d]
      congr 1
      apply List.map_congr_left
      intro a ha
      exact hitem_ne a (fun he => hd_not_rest (he ▸ ha))


/-! ## The splice positions of an insert -/

/-- The node that follows the level-`L` predecessor: the first not-below
node present at level `L`, or the tail sentinel. -/
def succAt (s : State) (key : Key) (row0 : List NodeId) (L : Nat) : NodeId :=
  match rowAt s (highIds s key row0) L with
  | [] => s.tail
  | d :: _ => d

theorem getLast_cons_eq_getLastD {α : Type} (h : α) (l : List α) (hne : h :: l ≠ []) :
    (h :: l).getLast hne = l.getLastD h := by
  induction l generalizing h with
  | nil => rfl
  | cons x xs ih =>
    rw [List.getLast_cons (by simp), List.getLastD_cons]
    exact ih x (by simp)

/-- The head-to-tail chain at level `L`, cut at the insert position. -/
theorem chain_decomp (s : State) (key : Key) (row0 : List NodeId) (L : Nat) :
    s.head :: rowAt s row0 L ++ [s.tail]
      = (s.head :: rowAt s (lowIds s key row0) L).dropLast
        ++ predAt s key row0 L :: succAt s key row0 L
        :: ((rowAt s (highIds s key row0) L) ++ [s.tail]).tail := by
  have hrow : rowAt s row0 L
      = rowAt s (lowIds s key row0) L ++ rowAt s (highIds s key row0) L := by
    conv_lhs => rw [← lowIds_append_highIds s key row0]
    rw [rowAt_append]
  rw [hrow]
  have hfront : s.head :: rowAt s (lowIds s key row0) L
      = (s.head :: rowAt s (lowIds s key row0) L).dropLast
        ++ [predAt s key row0 L] := by
    rw [predAt, ← getLast_cons_eq_getLastD s.head _ (by simp)]
    rw [List.dropLast_append_getLast]
  cases hDL : rowAt s (highIds s key row0) L with
  | nil =>
    show s.head :: (rowAt s (lowIds s key row0) L ++ []) ++ [s.tail] = _
    rw [List.append_nil]
    rw [show s.head :: rowAt s (lowIds s key row0) L ++ [s.tail]
        = (s.head :: rowAt s (lowIds s key row0) L) ++ [s.tail] from rfl, hfront]
    rw [succAt, hDL]
    simp
  | cons d D' =>
    rw [show s.head :: (rowAt s (lowIds s key row0) L ++ d :: D') ++ [s.tail]
        = (s.head :: rowAt s (lowIds s key row0) L) ++ (d :: D' ++ [s.tail]) by simp, hfront]
    rw [succAt, hDL]
    simp

/-- The level-`L` predecessor is directly linked to the level-`L` successor. -/
theorem pred_next_succ (s : State) (key : Key) (row0 : List NodeId)
    (hInv : Inv s row0) (L : Nat) (hL : L < s.maxLevel) :
    nextPtrAt s (predAt s key row0 L) L = some (some (succAt s key row0 L)) := by
  have hchain := hInv.hlinked L hL
  rw [chain_decomp s key row0 L] at hchain
  exact (@LinkedAt_append_right s L
    (s.head :: rowAt s (lowIds s key row0) L).dropLast _ hchain).1


theorem predAt_facts (s : State) (key : Key) (row0 : List NodeId)
    (hInv : Inv s row0) (L : Nat) (hL : L < s.maxLevel) :
    predAt s key row0 L < s.heap.length ∧ L < nodeLevels s (predAt s key row0 L)
      ∧ L < (nodeAt s (predAt s key row0 L)).nextNode.length
      ∧ predAt s key row0 L ≠ s.tail := by
  have hlowsub : ∀ x ∈ lowIds s key row0, x ∈ row0 := by
    intro x hx
    have happ := lowIds_append_highIds s key row0
    rw [← happ]
    exact List.mem_append_left _ hx
  rw [predAt]
  cases hDL : rowAt s (lowIds s key row0) L with
  | nil =>
    refine ⟨hInv.hhead, ?_, ?_, hInv.hht⟩
    · rw [List.getLastD, hInv.hheadLv]
      exact hL
    · rw [List.getLastD, hInv.hheadNextLen]
      exact hL
  | cons x xs =>
    have hmem : (x :: xs).getLastD s.head ∈ rowAt s (lowIds s key row0) L := by
      rw [hDL]
      exact getLastD_mem_of_ne_nil _ s.head (by simp)
    have hmemlow : (x :: xs).getLastD s.head ∈ lowIds s key row0 :=
      List.mem_of_mem_filter hmem
    have hok := hInv.hnodes _ (hlowsub _ hmemlow)
    have hlev : L < nodeLevels s ((x :: xs).getLastD s.head) := by
      have := List.of_mem_filter hmem
      simpa using this
    refine ⟨hok.lt, hlev, ?_, hok.neT⟩
    rw [hok.nlen]
    exact hlev

theorem succAt_facts (s : State) (key : Key) (row0 : List NodeId)
    (hInv : Inv s row0) (L : Nat) (hL : L < s.maxLevel) :
    succAt s key row0 L < s.heap.length ∧ L < (nodeAt s (succAt s key row0 L)).prevNode.length
      ∧ succAt s key row0 L ≠ s.head := by
  have hhighsub : ∀ x ∈ highIds s key row0, x ∈ row0 := by
    intro x hx
    have happ := lowIds_append_highIds s key row0
    rw [← happ]
    exact List.mem_append_right _ hx
  rw [succAt]
  cases hDL : rowAt s (highIds s key row0) L with
  | nil =>
    refine ⟨hInv.htail, ?_, Ne.symm hInv.hht⟩
    rw [hInv.htailPrevLen]
    exact hL
  | cons d D' =>
    have hmem : d ∈ rowAt s (highIds s key row0) L := by
      rw [hDL]
      simp
    have hok := hInv.hnodes d (hhighsub d (List.mem_of_mem_filter hmem))
    have hlev : L < nodeLevels s d := by
      have := List.of_mem_filter hmem
      simpa using this
    refine ⟨hok.lt, ?_, hok.neH⟩
    rw [hok.plen]
    exact hlev

theorem chain_nodup (s : State) (row0 : List NodeId) (hInv : Inv s row0) (L : Nat) :
    (s.head :: rowAt s row0 L ++ [s.tail]).Nodup := by
  have hsub : ∀ x ∈ rowAt s row0 L, x ∈ row0 := fun x hx => List.mem_of_mem_filter hx
  rw [List.nodup_append]
  refine ⟨?_, List.nodup_singleton _, ?_⟩
  · rw [List.nodup_cons]
    constructor
    · intro h
      exact (hInv.hnodes _ (hsub _ h)).neH rfl
    · exact hInv.hnodup.filter _
  · intro x hx hmem
    rw [List.mem_singleton] at hmem
    rcases List.mem_cons.mp hx with h | h
    · rw [h] at hmem
      exact hInv.hht hmem
    · exact (hInv.hnodes _ (hsub _ h)).neT hmem

theorem findRes_none_high_ne (s : State) (key : Key) (row0 : List NodeId)
    (hsorted : row0.Pairwise (fun a b => keyLt (nodeKey s a) (nodeKey s b) = true))
    (hres : findRes s key row0 = none) :
    ∀ x ∈ highIds s key row0, nodeKey s x ≠ key := by
  cases hhigh : highIds s key row0 with
  | nil => intro x hx; simp at hx
  | cons d rest =>
    rw [findRes, hhigh] at hres
    dsimp only at hres
    have hdk : nodeKey s d ≠ key := by
      intro hk
      rw [if_pos hk] at hres
      exact absurd hres (by simp)
    intro x hx
    rcases List.mem_cons.mp hx with hx | hx
    · subst hx; exact hdk
    · have hdl : keyLt (nodeKey s d) key = false :=
        highIds_all s key row0 hsorted d (by rw [hhigh]; simp)
      have hp : (highIds s key row0).Pairwise
          (fun a b => keyLt (nodeKey s a) (nodeKey s b) = true) :=
        List.Pairwise.sublist (List.dropWhile_sublist _) hsorted
      rw [hhigh] at hp
      obtain ⟨hpd, _⟩ := List.pairwise_cons.mp hp
      exact high_rest_ne s key d rest hdl hdk hpd x hx

theorem specSet_absent (key : Key) (v : Value) :
    ∀ (A B : List SkipListItem), (∀ x ∈ A, keyLt x.key key = true) →
      (∀ x ∈ B, keyLt key x.key = true) →
      specSet key v (A ++ B) = A ++ { key := key, value := v } :: B := by
  intro A
  induction A with
  | nil =>
    intro B _ hB
    rw [List.nil_append]
    cases B with
    | nil => rfl
    | cons b B' =>
      rw [specSet, if_pos (hB b (List.mem_cons_self b B'))]
      rfl
  | cons a A' ih =>
    intro B hA hB
    have ha := hA a (List.mem_cons_self a A')
    rw [List.cons_append, specSet]
    rw [if_neg (by rw [keyLt_asymm _ _ ha]; simp)]
    rw [if_neg (fun hk => by rw [← hk, keyLt_irrefl] at ha; exact absurd ha (by simp))]
    rw [ih B (fun x hx => hA x (List.mem_cons_of_mem a hx)) hB]
    rfl


theorem nodeAt_out (s : State) (a : NodeId) (h : s.heap.length ≤ a) :
    nodeAt s a = default := by
  rw [nodeAt, getNode_eq_none s a h]
  rfl

theorem nextPtrAt_out (s : State) (a : NodeId) (M : Nat) (h : s.heap.length ≤ a) :
    nextPtrAt s a M = none := by
  rw [nextPtrAt, getNode_eq_none s a h]
  rfl

theorem prevPtrAt_out (s : State) (a : NodeId) (M : Nat) (h : s.heap.length ≤ a) :
    prevPtrAt s a M = none := by
  rw [prevPtrAt, getNode_eq_none s a h]
  rfl

theorem pred_ne_succ (s : State) (key : Key) (row0 : List NodeId)
    (hInv : Inv s row0) (L : Nat) (hL : L < s.maxLevel) :
    predAt s key row0 L ≠ succAt s key row0 L := by
  have hlowsub : ∀ x ∈ lowIds s key row0, x ∈ row0 := by
    intro x hx
    have happ := lowIds_append_highIds s key row0
    rw [← happ]
    exact List.mem_append_left _ hx
  have hhighsub : ∀ x ∈ highIds s key row0, x ∈ row0 := by
    intro x hx
    have happ := lowIds_append_highIds s key row0
    rw [← happ]
    exact List.mem_append_right _ hx
  have hdisj : ∀ x ∈ lowIds s key row0, x ∉ highIds s key row0 := by
    intro x hx hx'
    have hnd := hInv.hnodup
    conv at hnd => rw [← lowIds_append_highIds s key row0]
    rw [List.nodup_append] at hnd
    exact hnd.2.2 hx hx'
  rw [predAt, succAt]
  cases hTL : rowAt s (lowIds s key row0) L with
  | nil =>
    cases hDL : rowAt s (highIds s key row0) L with
    | nil =>
      exact hInv.hht
    | cons d D' =>
      have hd : d ∈ highIds s key row0 := by
        have hmem : d ∈ rowAt s (highIds s key row0) L := by
          rw [hDL]
          exact List.mem_cons_self d D'
        exact List.mem_of_mem_filter hmem
      exact Ne.symm ((hInv.hnodes d (hhighsub d hd)).neH)
  | cons x xs =>
    have hp : (x :: xs).getLastD s.head ∈ lowIds s key row0 := by
      have hmem : (x :: xs).getLastD s.head ∈ rowAt s (lowIds s key row0) L := by
        rw [hTL]
        exact getLastD_mem_of_ne_nil _ s.head (by simp)
      exact List.mem_of_mem_filter hmem
    cases hDL : rowAt s (highIds s key row0) L with
    | nil =>
      exact (hInv.hnodes _ (hlowsub _ hp)).neT
    | cons d D' =>
      have hd : d ∈ highIds s key row0 := by
        have hmem : d ∈ rowAt s (highIds s key row0) L := by
          rw [hDL]
          exact List.mem_cons_self d D'
        exact List.mem_of_mem_filter hmem
      intro he
      exact hdisj _ hp (he ▸ hd)


theorem getNode_alloc_self (s : State) (n : SkipListNode) (h : List Ptr) :
    getNode { s with heap := s.heap ++ [n], history := h } s.heap.length = some n := by
  simp [getNode]

theorem spliceLoop_spec (s : State) (key : Key) (v : Value) (row0 : List NodeId)
    (hInv : Inv s row0) (lvl : Nat) (hlvlM : lvl ≤ s.maxLevel)
    (h' : List Ptr)
    (hh' : ∀ L, L < s.maxLevel → h'[L]? = some (some (predAt s key row0 L))) :
    ∀ j, j ≤ lvl →
    ∃ t, spliceLoop s.heap.length j
        { s with
          heap := s.heap ++
            [{ levels := lvl,
               prevNode := List.replicate lvl none,
               nextNode := List.replicate lvl none,
               item := SkipListItem.mk key v,
               isEndNode := false }],
          history := h' } = some t
      ∧ t.maxLevel = s.maxLevel ∧ t.head = s.head ∧ t.tail = s.tail
      ∧ t.length = s.length ∧ t.size = s.size ∧ t.history = h'
      ∧ t.heap.length = s.heap.length + 1
      ∧ (∀ a, a ≠ s.heap.length → nodeLevels t a = nodeLevels s a
          ∧ nodeIsEnd t a = nodeIsEnd s a ∧ (nodeAt t a).item = (nodeAt s a).item
          ∧ (nodeAt t a).nextNode.length = (nodeAt s a).nextNode.length
          ∧ (nodeAt t a).prevNode.length = (nodeAt s a).prevNode.length)
      ∧ nodeLevels t s.heap.length = lvl ∧ nodeIsEnd t s.heap.length = false
      ∧ (nodeAt t s.heap.length).item = { key := key, value := v }
      ∧ (nodeAt t s.heap.length).nextNode.length = lvl
      ∧ (nodeAt t s.heap.length).prevNode.length = lvl
      ∧ (∀ a M, a ≠ s.heap.length → ¬(M < j ∧ a = predAt s key row0 M) →
          nextPtrAt t a M = nextPtrAt s a M)
      ∧ (∀ M, M < j → nextPtrAt t (predAt s key row0 M) M = some (some s.heap.length))
      ∧ (∀ a M, a ≠ s.heap.length → ¬(M < j ∧ a = succAt s key row0 M) →
          prevPtrAt t a M = prevPtrAt s a M)
      ∧ (∀ M, M < j → prevPtrAt t (succAt s key row0 M) M = some (some s.heap.length))
      ∧ (∀ M, M < j → nextPtrAt t s.heap.length M = some (some (succAt s key row0 M))
          ∧ prevPtrAt t s.heap.length M = some (some (predAt s key row0 M)))
      ∧ (∀ M, j ≤ M → M < lvl → nextPtrAt t s.heap.length M = some none
          ∧ prevPtrAt t s.heap.length M = some none) := by
  set newId := s.heap.length with hnewId
  set newNode : SkipListNode :=
    { levels := lvl,
      prevNode := List.replicate lvl none,
      nextNode := List.replicate lvl none,
      item := SkipListItem.mk key v,
      isEndNode := false } with hnewNode
  set s2 : State := { s with heap := s.heap ++ [newNode], history := h' } with hs2
  have hg2 : getNode s2 newId = some newNode := getNode_alloc_self s newNode h'
  intro j
  induction j with
  | zero =>
    intro _
    refine ⟨s2, rfl, rfl, rfl, rfl, rfl, rfl, rfl, by simp [hs2], ?_, ?_, ?_, ?_, ?_, ?_,
      ?_, ?_, ?_, ?_, ?_, ?_⟩
    · intro a ha
      by_cases hlt : a < s.heap.length
      · have he : nodeAt s2 a = nodeAt s a :=
          nodeAt_alloc_lt { s with history := h' } newNode a hlt
        refine ⟨?_, ?_, ?_, ?_, ?_⟩ <;> simp only [nodeLevels, nodeIsEnd, he]
      · have ha2 : s2.heap.length ≤ a := by
          simp only [hs2, List.length_append, List.length_singleton]
          omega
        have he : nodeAt s2 a = default := nodeAt_out s2 a ha2
        have he' : nodeAt s a = default := nodeAt_out s a (by omega)
        refine ⟨?_, ?_, ?_, ?_, ?_⟩ <;> simp only [nodeLevels, nodeIsEnd, he, he']
    · rw [nodeLevels, nodeAt, hg2, hnewNode]
      rfl
    · rw [nodeIsEnd, nodeAt, hg2, hnewNode]
      rfl
    · rw [nodeAt, hg2, hnewNode]
      rfl
    · rw [nodeAt, hg2]
      simp [hnewNode]
    · rw [nodeAt, hg2]
      simp [hnewNode]
    · intro a M ha _
      by_cases hlt : a < s.heap.length
      · exact nextPtrAt_alloc_lt { s with history := h' } newNode a M hlt
      · have hb : s2.heap.length ≤ a := by
          simp only [hs2, List.length_append, List.length_singleton]
          omega
        have hb' : s.heap.length ≤ a := by omega
        rw [nextPtrAt_out s2 a M hb, nextPtrAt_out s a M hb']
    · intro M hM
      omega
    · intro a M ha _
      by_cases hlt : a < s.heap.length
      · exact prevPtrAt_alloc_lt { s with history := h' } newNode a M hlt
      · have hb : s2.heap.length ≤ a := by
          simp only [hs2, List.length_append, List.length_singleton]
          omega
        have hb' : s.heap.length ≤ a := by omega
        rw [prevPtrAt_out s2 a M hb, prevPtrAt_out s a M hb']
    · intro M hM
      omega
    · intro M hM
      omega
    · intro M _ hM
      constructor
      · rw [nextPtrAt, hg2]
        simp [hnewNode, List.getElem?_replicate, hM]
      · rw [prevPtrAt, hg2]
        simp [hnewNode, List.getElem?_replicate, hM]
  | succ j ih =>
    intro hj
    have hjlvl : j < lvl := by omega
    have hjM : j < s.maxLevel := by omega
    obtain ⟨t, hrun, c1, c2, c3, c4, c5, c6, c7, crec, cnl, cne, cni, cnn, cnp,
      p14, p15, p16, p17, p18, p19⟩ := ih (by omega)
    set pj := predAt s key row0 j with hpj
    set qj := succAt s key row0 j with hqj
    have hpf : pj < s.heap.length ∧ j < nodeLevels s pj
        ∧ j < (nodeAt s pj).nextNode.length ∧ pj ≠ s.tail := by
      rw [hpj]
      exact predAt_facts s key row0 hInv j hjM
    have hsf : qj < s.heap.length ∧ j < (nodeAt s qj).prevNode.length ∧ qj ≠ s.head := by
      rw [hqj]
      exact succAt_facts s key row0 hInv j hjM
    have hpns : pj ≠ qj := by
      rw [hpj, hqj]
      exact pred_ne_succ s key row0 hInv j hjM
    have hpne : pj ≠ newId := by
      rw [hnewId]
      exact Nat.ne_of_lt hpf.1
    have hqne : qj ≠ newId := by
      rw [hnewId]
      exact Nat.ne_of_lt hsf.1
    have hplt : pj < t.heap.length := by
      rw [c7, hnewId]
      exact Nat.lt_succ_of_lt hpf.1
    have hqlt : qj < t.heap.length := by
      rw [c7, hnewId]
      exact Nat.lt_succ_of_lt hsf.1
    have hnlt : newId < t.heap.length := by
      rw [c7]
      exact Nat.lt_succ_self newId
    -- the step's append
    have hc1 : ¬(j < j ∧ pj = predAt s key row0 j) := fun hc => absurd hc.1 (lt_irrefl j)
    have hnextp : nextPtrAt t pj j = some (some qj) := by
      rw [p14 pj j hpne hc1, hpj, hqj]
      exact pred_next_succ s key row0 hInv j hjM
    have hqplen : j < (nodeAt t qj).prevNode.length := by
      rw [(crec qj hqne).2.2.2.2]
      exact hsf.2.1
    have hnplen : j < (nodeAt t newId).prevNode.length := by
      rw [cnp]
      exact hjlvl
    have hnnlen : j < (nodeAt t newId).nextNode.length := by
      rw [cnn]
      exact hjlvl
    have hpnlen : j < (nodeAt t pj).nextNode.length := by
      rw [(crec pj hpne).2.2.2.1]
      exact hpf.2.2.1
    have happ := appendOnLevel_spec_some t pj newId qj j hplt hnlt hqlt hnextp
      hqplen hnplen hnnlen hpnlen
    set w1 := writePrev t qj j (some newId) with hw1
    set w2 := writePrev w1 newId j (some pj) with hw2
    set w3 := writeNext w2 newId j (some qj) with hw3
    set w4 := writeNext w3 pj j (some newId) with hw4
    have hrun' : spliceLoop newId (j + 1) s2 = some w4 := by
      rw [spliceLoop, hrun]
      simp only [Option.bind_eq_bind, Option.some_bind]
      rw [c6]
      rw [hh' j hjM]
      simp only [Option.some_bind]
      exact happ
    -- length bookkeeping through the four writes
    have hw4len : w4.heap.length = t.heap.length := by
      simp [hw4, hw3, hw2, hw1]
    -- pointer-read transfer helpers
    have hnext_ne : ∀ a M, (a ≠ pj ∨ M ≠ j) → (a ≠ newId ∨ M ≠ j) →
        nextPtrAt w4 a M = nextPtrAt t a M := by
      intro a M h4 h3
      rw [hw4, nextPtrAt_writeNext_ne w3 pj j _ a M h4,
        hw3, nextPtrAt_writeNext_ne w2 newId j _ a M h3,
        hw2, nextPtrAt_writePrev, hw1, nextPtrAt_writePrev]
    have hprev_ne : ∀ a M, (a ≠ newId ∨ M ≠ j) → (a ≠ qj ∨ M ≠ j) →
        prevPtrAt w4 a M = prevPtrAt t a M := by
      intro a M h2 h1
      rw [hw4, prevPtrAt_writeNext, hw3, prevPtrAt_writeNext,
        hw2, prevPtrAt_writePrev_ne w1 newId j _ a M h2,
        hw1, prevPtrAt_writePrev_ne t qj j _ a M h1]
    have hnext_pj : nextPtrAt w4 pj j = some (some newId) := by
      rw [hw4]
      refine nextPtrAt_writeNext_self w3 pj j (some newId) ?_ ?_
      · simp only [hw3, hw2, hw1, writeNext_heap_length, writePrev_heap_length]
        exact hplt
      · rw [hw3, nextLen_writeNext, hw2, nextLen_writePrev, hw1, nextLen_writePrev,
          (crec pj hpne).2.2.2.1]
        exact hpf.2.2.1
    have hnext_new : nextPtrAt w4 newId j = some (some qj) := by
      rw [hw4, nextPtrAt_writeNext_ne w3 pj j _ newId j (Or.inl (Ne.symm hpne)), hw3]
      refine nextPtrAt_writeNext_self w2 newId j (some qj) ?_ ?_
      · simp only [hw2, hw1, writePrev_heap_length]
        exact hnlt
      · rw [hw2, nextLen_writePrev, hw1, nextLen_writePrev, cnn]
        exact hjlvl
    have hprev_new : prevPtrAt w4 newId j = some (some pj) := by
      rw [hw4, prevPtrAt_writeNext, hw3, prevPtrAt_writeNext, hw2]
      refine prevPtrAt_writePrev_self w1 newId j (some pj) ?_ ?_
      · simp only [hw1, writePrev_heap_length]
        exact hnlt
      · rw [hw1, prevLen_writePrev, cnp]
        exact hjlvl
    have hprev_qj : prevPtrAt w4 qj j = some (some newId) := by
      rw [hw4, prevPtrAt_writeNext, hw3, prevPtrAt_writeNext, hw2,
        prevPtrAt_writePrev_ne w1 newId j _ qj j (Or.inl hqne), hw1]
      refine prevPtrAt_writePrev_self t qj j (some newId) hqlt ?_
      rw [(crec qj hqne).2.2.2.2]
      exact hsf.2.1
    have hrecw : ∀ a, nodeLevels w4 a = nodeLevels t a ∧ nodeIsEnd w4 a = nodeIsEnd t a
        ∧ (nodeAt w4 a).item = (nodeAt t a).item
        ∧ (nodeAt w4 a).nextNode.length = (nodeAt t a).nextNode.length
        ∧ (nodeAt w4 a).prevNode.length = (nodeAt t a).prevNode.length := by
      intro a
      refine ⟨?_, ?_, ?_, ?_, ?_⟩
      · rw [hw4, nodeLevels_writeNext, hw3, nodeLevels_writeNext, hw2,
          nodeLevels_writePrev, hw1, nodeLevels_writePrev]
      · rw [hw4, nodeIsEnd_writeNext, hw3, nodeIsEnd_writeNext, hw2,
          nodeIsEnd_writePrev, hw1, nodeIsEnd_writePrev]
      · have e4 := nodeAt_map_setNode w3 pj
          { nodeAt w3 pj with nextNode := (nodeAt w3 pj).nextNode.set j (some newId) }
          (fun x => x.item) rfl a
        have e3 := nodeAt_map_setNode w2 newId
          { nodeAt w2 newId with nextNode := (nodeAt w2 newId).nextNode.set j (some qj) }
          (fun x => x.item) rfl a
        have e2 := nodeAt_map_setNode w1 newId
          { nodeAt w1 newId with prevNode := (nodeAt w1 newId).prevNode.set j (some pj) }
          (fun x => x.item) rfl a
        have e1 := nodeAt_map_setNode t qj
          { nodeAt t qj with prevNode := (nodeAt t qj).prevNode.set j (some newId) }
          (fun x => x.item) rfl a
        rw [hw4, writeNext, e4, hw3, writeNext, e3, hw2, writePrev, e2, hw1, writePrev, e1]
      · rw [hw4, nextLen_writeNext, hw3, nextLen_writeNext, hw2,
          nextLen_writePrev, hw1, nextLen_writePrev]
      · rw [hw4, prevLen_writeNext, hw3, prevLen_writeNext, hw2,
          prevLen_writePrev, hw1, prevLen_writePrev]
    refine ⟨w4, hrun', ?_, ?_, ?_, ?_, ?_, ?_, ?_, ?_, ?_, ?_, ?_, ?_, ?_, ?_, ?_, ?_,
      ?_, ?_, ?_⟩
    · rw [show w4.maxLevel = t.maxLevel from rfl, c1]
    · rw [show w4.head = t.head from rfl, c2]
    · rw [show w4.tail = t.tail from rfl, c3]
    · rw [show w4.length = t.length from rfl, c4]
    · rw [show w4.size = t.size from rfl, c5]
    · rw [show w4.history = t.history from rfl, c6]
    · rw [hw4len, c7]
    · intro a ha
      have hw := hrecw a
      have hold := crec a ha
      exact ⟨hw.1.trans hold.1, hw.2.1.trans hold.2.1, hw.2.2.1.trans hold.2.2.1,
        hw.2.2.2.1.trans hold.2.2.2.1, hw.2.2.2.2.trans hold.2.2.2.2⟩
    · exact (hrecw newId).1.trans cnl
    · exact (hrecw newId).2.1.trans cne
    · exact (hrecw newId).2.2.1.trans cni
    · exact (hrecw newId).2.2.2.1.trans cnn
    · exact (hrecw newId).2.2.2.2.trans cnp
    · intro a M ha hcond
      have h4 : a ≠ pj ∨ M ≠ j := by
        by_cases hMj : M = j
        · subst hMj
          left
          intro he
          exact hcond ⟨by omega, he⟩
        · exact Or.inr hMj
      have := hnext_ne a M h4 (Or.inl ha)
      rw [this]
      refine p14 a M ha ?_
      intro ⟨hM, he⟩
      exact hcond ⟨by omega, he⟩
    · intro M hM
      by_cases hMj : M = j
      · subst hMj
        exact hnext_pj
      · have hne4 : predAt s key row0 M ≠ pj ∨ M ≠ j := Or.inr hMj
        have hnen : predAt s key row0 M ≠ newId ∨ M ≠ j := Or.inr hMj
        rw [hnext_ne _ M hne4 hnen]
        exact p15 M (by omega)
    · intro a M ha hcond
      have h1 : a ≠ qj ∨ M ≠ j := by
        by_cases hMj : M = j
        · subst hMj
          left
          intro he
          exact hcond ⟨by omega, he⟩
        · exact Or.inr hMj
      rw [hprev_ne a M (Or.inl ha) h1]
      refine p16 a M ha ?_
      intro ⟨hM, he⟩
      exact hcond ⟨by omega, he⟩
    · intro M hM
      by_cases hMj : M = j
      · subst hMj
        exact hprev_qj
      · rw [hprev_ne _ M (Or.inr hMj) (Or.inr hMj)]
        exact p17 M (by omega)
    · intro M hM
      by_cases hMj : M = j
      · subst hMj
        exact ⟨hnext_new, hprev_new⟩
      · constructor
        · rw [hnext_ne newId M (Or.inr hMj) (Or.inr hMj)]
          exact (p18 M (by omega)).1
        · rw [hprev_ne newId M (Or.inr hMj) (Or.inr hMj)]
          exact (p18 M (by omega)).2
    · intro M hM1 hM2
      have hMj : M ≠ j := by omega
      constructor
      · rw [hnext_ne newId M (Or.inr hMj) (Or.inr hMj)]
        exact (p19 M (by omega) hM2).1
      · rw [hprev_ne newId M (Or.inr hMj) (Or.inr hMj)]
        exact (p19 M (by omega) hM2).2


/-! ## Assembling a fresh-key insert -/

theorem rowAt_congr_mem {s s' : State} {l : List NodeId}
    (h : ∀ a ∈ l, nodeLevels s' a = nodeLevels s a) (L : Nat) :
    rowAt s' l L = rowAt s l L := by
  rw [rowAt, rowAt]
  apply List.filter_congr
  intro x hx
  rw [h x hx]

/-- Re-attaching the level-`L` predecessor to the dropped front of the chain. -/
theorem pred_chain_eq (s : State) (key : Key) (row0 : List NodeId) (L : Nat) :
    (s.head :: rowAt s (lowIds s key row0) L).dropLast ++ [predAt s key row0 L]
      = s.head :: rowAt s (lowIds s key row0) L := by
  rw [predAt, ← getLast_cons_eq_getLastD s.head _ (by simp)]
  rw [List.dropLast_append_getLast]

/-- Re-attaching the level-`L` successor to the tail of the high chain. -/
theorem succ_chain_eq (s : State) (key : Key) (row0 : List NodeId) (L : Nat) :
    succAt s key row0 L :: (rowAt s (highIds s key row0) L ++ [s.tail]).tail
      = rowAt s (highIds s key row0) L ++ [s.tail] := by
  rw [succAt]
  cases hrow : rowAt s (highIds s key row0) L with
  | nil => rfl
  | cons d r => rfl

/-- When the search failed, every not-below entry is strictly above the key. -/
theorem high_keys_gt (s : State) (key : Key) (row0 : List NodeId)
    (hsorted : row0.Pairwise (fun a b => keyLt (nodeKey s a) (nodeKey s b) = true))
    (hres : findRes s key row0 = none) :
    ∀ x ∈ highIds s key row0, keyLt key (nodeKey s x) = true := by
  intro x hx
  have hne : nodeKey s x ≠ key := findRes_none_high_ne s key row0 hsorted hres x hx
  have hlow : isLow s key x = false := highIds_all s key row0 hsorted x hx
  rw [isLow] at hlow
  exact keyLt_of_ne_of_not_lt (nodeKey s x) key hne hlow

/-- Every member of a level chain is a live heap index. -/
theorem chain_mem_lt (s : State) (row0 : List NodeId) (hInv : Inv s row0) (L : Nat) :
    ∀ x ∈ s.head :: rowAt s row0 L ++ [s.tail], x < s.heap.length := by
  intro x hx
  rcases List.mem_cons.mp hx with hx | hx
  · subst hx
    exact hInv.hhead
  · rcases List.mem_append.mp hx with hx | hx
    · exact (rowAt_sub_facts s row0 hInv L x hx).1
    · rw [List.mem_singleton] at hx
      subst hx
      exact hInv.htail


theorem rowAt_cons_pos (s : State) (a : NodeId) (l : List NodeId) (L : Nat)
    (h : L < nodeLevels s a) : rowAt s (a :: l) L = a :: rowAt s l L := by
  rw [rowAt, rowAt, List.filter_cons, decide_eq_true h, if_pos rfl]

theorem rowAt_cons_neg (s : State) (a : NodeId) (l : List NodeId) (L : Nat)
    (h : ¬ L < nodeLevels s a) : rowAt s (a :: l) L = rowAt s l L := by
  rw [rowAt, rowAt, List.filter_cons, decide_eq_false h, if_neg Bool.false_ne_true]


/-- `Set` on an absent key: the new node is spliced between the per-level
predecessors and successors recorded by the search; the row gains the new id
between the low and high entries, `length` increments, `size` grows by the
byte lengths, and the entry list is the reference sorted insert. -/
theorem Set_fresh_spec (s : State) (key : Key) (v : Value) (lvl : Nat)
    (row0 : List NodeId) (hInv : Inv s row0)
    (hres : findRes s key row0 = none)
    (hlvl1 : 1 ≤ lvl) (hlvlM : lvl ≤ s.maxLevel) :
    ∃ s4, Set s key v lvl = some s4
      ∧ Inv s4 (lowIds s key row0 ++ s.heap.length :: highIds s key row0)
      ∧ s4.maxLevel = s.maxLevel ∧ s4.head = s.head ∧ s4.tail = s.tail
      ∧ s4.heap.length = s.heap.length + 1
      ∧ s4.length = s.length + 1
      ∧ s4.size = u64add (u64add s.size key.length) v.length
      ∧ (∀ a, a < s.heap.length → nodeLevels s4 a = nodeLevels s a)
      ∧ entriesOf s4 (lowIds s key row0 ++ s.heap.length :: highIds s key row0)
          = specSet key v (entriesOf s row0) := by
  obtain ⟨h', hrun, hlen', hh'⟩ := findInternal_spec s key row0 hInv
  obtain ⟨t, hspl, c1, c2, c3, c4, c5, c6, c7, crec, cnl, cne, cni, cnn, cnp,
    p14, p15, p16, p17, p18, p19⟩ :=
    spliceLoop_spec s key v row0 hInv lvl hlvlM h' hh' lvl (le_refl lvl)
  -- run `Set` into the insert branch
  have hset : Set s key v lvl = insertNode { s with history := h' } key v lvl := by
    rw [Set, hrun]
    simp only [Option.bind_eq_bind, Option.some_bind]
    rw [hres]
  have hcanon : insertNode { s with history := h' } key v lvl
      = Option.bind (spliceLoop s.heap.length lvl
          { s with
            heap := s.heap ++
              [{ levels := lvl,
                 prevNode := List.replicate lvl none,
                 nextNode := List.replicate lvl none,
                 item := SkipListItem.mk key v,
                 isEndNode := false }],
            history := h' })
        (fun s2 => some { s2 with length := s2.length + 1, size := u64add (u64add s2.size key.length) v.length }) := rfl
  have hins : insertNode { s with history := h' } key v lvl
      = some { t with length := t.length + 1, size := u64add (u64add t.size key.length) v.length } := by
    rw [hcanon, hspl]
    rfl
  -- memberships and bounds
  have hlowsub : ∀ x ∈ lowIds s key row0, x ∈ row0 := by
    intro x hx
    have happ := lowIds_append_highIds s key row0
    rw [← happ]
    exact List.mem_append_left _ hx
  have hhighsub : ∀ x ∈ highIds s key row0, x ∈ row0 := by
    intro x hx
    have happ := lowIds_append_highIds s key row0
    rw [← happ]
    exact List.mem_append_right _ hx
  have hrowlt : ∀ x ∈ row0, x < s.heap.length := fun x hx => (hInv.hnodes x hx).lt
  have hnewrow : s.heap.length ∉ row0 := fun h => absurd (hrowlt _ h) (lt_irrefl _)
  have hheadne : s.head ≠ s.heap.length := Nat.ne_of_lt hInv.hhead
  have htailne : s.tail ≠ s.heap.length := Nat.ne_of_lt hInv.htail
  -- keys
  have hkeq : ∀ a, a ≠ s.heap.length → nodeKey t a = nodeKey s a := by
    intro a ha
    rw [nodeKey, nodeKey, (crec a ha).2.2.1]
  have hknew : nodeKey t s.heap.length = key := by
    rw [nodeKey, cni]
  have hlowkeys : ∀ x ∈ lowIds s key row0, keyLt (nodeKey s x) key = true := by
    intro x hx
    have hl := lowIds_all s key row0 x hx
    rw [isLow] at hl
    exact hl
  have hhighkeys : ∀ x ∈ highIds s key row0, keyLt key (nodeKey s x) = true :=
    high_keys_gt s key row0 hInv.hsorted hres
  -- sortedness over the new row, stated for `t`
  have hQ : (lowIds s key row0 ++ s.heap.length :: highIds s key row0).Pairwise
      (fun a b => keyLt (nodeKey t a) (nodeKey t b) = true) := by
    rw [List.pairwise_append]
    refine ⟨?_, ?_, ?_⟩
    · have hsub := hInv.hsorted.sublist (List.takeWhile_sublist (isLow s key))
      refine hsub.imp_of_mem ?_
      intro a b ha hb hab
      rw [hkeq a (Nat.ne_of_lt (hrowlt a (hlowsub a ha))),
        hkeq b (Nat.ne_of_lt (hrowlt b (hlowsub b hb)))]
      exact hab
    · rw [List.pairwise_cons]
      constructor
      · intro b hb
        rw [hknew, hkeq b (Nat.ne_of_lt (hrowlt b (hhighsub b hb)))]
        exact hhighkeys b hb
      · have hsub := hInv.hsorted.sublist (List.dropWhile_sublist (isLow s key))
        refine hsub.imp_of_mem ?_
        intro a b ha hb hab
        rw [hkeq a (Nat.ne_of_lt (hrowlt a (hhighsub a ha))),
          hkeq b (Nat.ne_of_lt (hrowlt b (hhighsub b hb)))]
        exact hab
    · intro a ha b hb
      have hka : keyLt (nodeKey t a) key = true := by
        rw [hkeq a (Nat.ne_of_lt (hrowlt a (hlowsub a ha)))]
        exact hlowkeys a ha
      rcases List.mem_cons.mp hb with hb | hb
      · subst hb
        rw [hknew]
        exact hka
      · rw [hkeq b (Nat.ne_of_lt (hrowlt b (hhighsub b hb)))]
        exact keyLt_trans _ _ _ hka (hhighkeys b hb)
  -- nodup of the new row
  have hnodup4 : (lowIds s key row0 ++ s.heap.length :: highIds s key row0).Nodup := by
    rw [List.nodup_middle, List.nodup_cons, lowIds_append_highIds]
    exact ⟨hnewrow, hInv.hnodup⟩
  -- per-level chains of the new row, stated for `t`
  have hchain4 : ∀ L, L < s.maxLevel →
      LinkedAt t L (s.head
        :: rowAt t (lowIds s key row0 ++ s.heap.length :: highIds s key row0) L
        ++ [s.tail]) := by
    intro L hL
    have hch := hInv.hlinked L hL
    have hdecomp := chain_decomp s key row0 L
    have hmemlt := chain_mem_lt s row0 hInv L
    have hlowlev : ∀ a ∈ lowIds s key row0, nodeLevels t a = nodeLevels s a := by
      intro a ha
      exact (crec a (Nat.ne_of_lt (hrowlt a (hlowsub a ha)))).1
    have hhighlev : ∀ a ∈ highIds s key row0, nodeLevels t a = nodeLevels s a := by
      intro a ha
      exact (crec a (Nat.ne_of_lt (hrowlt a (hhighsub a ha)))).1
    by_cases hLlt : L < lvl
    · have hlvnew : L < nodeLevels t s.heap.length := by
        rw [cnl]
        exact hLlt
      have hrow4 : rowAt t (lowIds s key row0 ++ s.heap.length :: highIds s key row0) L
          = rowAt s (lowIds s key row0) L
            ++ s.heap.length :: rowAt s (highIds s key row0) L := by
        rw [rowAt_append, rowAt_congr_mem hlowlev L,
          rowAt_cons_pos t _ _ L hlvnew, rowAt_congr_mem hhighlev L]
      rw [hrow4]
      have hshape : s.head :: (rowAt s (lowIds s key row0) L
            ++ s.heap.length :: rowAt s (highIds s key row0) L) ++ [s.tail]
          = (s.head :: rowAt s (lowIds s key row0) L).dropLast
            ++ predAt s key row0 L :: s.heap.length :: succAt s key row0 L
            :: (rowAt s (highIds s key row0) L ++ [s.tail]).tail := by
        conv_rhs => rw [List.append_cons]
        rw [pred_chain_eq s key row0 L, succ_chain_eq s key row0 L]
        simp [List.cons_append, List.append_assoc]
      rw [hshape]
      have hold : LinkedAt s L ((s.head :: rowAt s (lowIds s key row0) L).dropLast
          ++ predAt s key row0 L :: succAt s key row0 L
          :: (rowAt s (highIds s key row0) L ++ [s.tail]).tail) := by
        rw [← hdecomp]
        exact hch
      have hnd : ((s.head :: rowAt s (lowIds s key row0) L).dropLast
          ++ predAt s key row0 L :: succAt s key row0 L
          :: (rowAt s (highIds s key row0) L ++ [s.tail]).tail).Nodup := by
        rw [← hdecomp]
        exact chain_nodup s row0 hInv L
      have hw : s.heap.length ∉ (s.head :: rowAt s (lowIds s key row0) L).dropLast
          ++ predAt s key row0 L :: succAt s key row0 L
          :: (rowAt s (highIds s key row0) L ++ [s.tail]).tail := by
        rw [← hdecomp]
        intro hmem
        exact absurd (hmemlt _ hmem) (lt_irrefl _)
      refine LinkedAt_splice hold hnd hw ?_ ?_ ?_ ?_ ?_ ?_
      · intro a hap haw
        exact p14 a L haw (fun hc => hap hc.2)
      · intro a haq haw
        exact p16 a L haw (fun hc => haq hc.2)
      · exact p15 L hLlt
      · exact (p18 L hLlt).1
      · exact (p18 L hLlt).2
      · exact p17 L hLlt
    · have hlvnew : ¬ L < nodeLevels t s.heap.length := by
        rw [cnl]
        exact hLlt
      have hrow4 : rowAt t (lowIds s key row0 ++ s.heap.length :: highIds s key row0) L
          = rowAt s row0 L := by
        rw [rowAt_append, rowAt_congr_mem hlowlev L,
          rowAt_cons_neg t _ _ L hlvnew, rowAt_congr_mem hhighlev L,
          ← rowAt_append, lowIds_append_highIds]
      rw [hrow4]
      refine LinkedAt_congr ?_ ?_ hch
      · intro x hx
        have hxmem : x ∈ s.head :: rowAt s row0 L ++ [s.tail] :=
          (List.dropLast_sublist _).subset hx
        exact p14 x L (Nat.ne_of_lt (hmemlt x hxmem)) (fun hc => absurd hc.1 hLlt)
      · intro x hx
        have hxmem : x ∈ s.head :: rowAt s row0 L ++ [s.tail] :=
          List.mem_of_mem_tail hx
        exact p16 x L (Nat.ne_of_lt (hmemlt x hxmem)) (fun hc => absurd hc.1 hLlt)
  -- entries, stated for `t`
  have hentries : entriesOf t (lowIds s key row0 ++ s.heap.length :: highIds s key row0)
      = specSet key v (entriesOf s row0) := by
    have hlowmap : (lowIds s key row0).map (fun id => (nodeAt t id).item)
        = (lowIds s key row0).map (fun id => (nodeAt s id).item) := by
      apply List.map_congr_left
      intro a ha
      exact (crec a (Nat.ne_of_lt (hrowlt a (hlowsub a ha)))).2.2.1
    have hhighmap : (highIds s key row0).map (fun id => (nodeAt t id).item)
        = (highIds s key row0).map (fun id => (nodeAt s id).item) := by
      apply List.map_congr_left
      intro a ha
      exact (crec a (Nat.ne_of_lt (hrowlt a (hhighsub a ha)))).2.2.1
    have hlowkeys' : ∀ x ∈ (lowIds s key row0).map (fun id => (nodeAt s id).item),
        keyLt x.key key = true := by
      intro x hx
      obtain ⟨id, hid, hide⟩ := List.mem_map.mp hx
      rw [← hide]
      exact hlowkeys id hid
    have hhighkeys' : ∀ x ∈ (highIds s key row0).map (fun id => (nodeAt s id).item),
        keyLt key x.key = true := by
      intro x hx
      obtain ⟨id, hid, hide⟩ := List.mem_map.mp hx
      rw [← hide]
      exact hhighkeys id hid
    rw [entriesOf, List.map_append, List.map_cons, hlowmap, hhighmap, cni]
    conv_rhs => rw [entriesOf, ← lowIds_append_highIds s key row0, List.map_append]
    rw [specSet_absent key v _ _ hlowkeys' hhighkeys']
  -- shape-blind facts about the updated state
  have hlvS : ∀ a, nodeLevels { t with length := t.length + 1, size := u64add (u64add t.size key.length) v.length } a = nodeLevels t a :=
    fun _ => rfl
  have hokOld : ∀ id ∈ row0, NodeOk { t with length := t.length + 1, size := u64add (u64add t.size key.length) v.length } id := by
    intro id hidr
    have hidlt : id < s.heap.length := hrowlt id hidr
    have hidne : id ≠ s.heap.length := Nat.ne_of_lt hidlt
    have hok := hInv.hnodes id hidr
    obtain ⟨h1o, h2o, h3o, h4o, h5o⟩ := crec id hidne
    refine ⟨?_, ?_, ?_, ?_, ?_, ?_, ?_, ?_⟩
    · show id < t.heap.length
      rw [c7]
      exact Nat.lt_succ_of_lt hidlt
    · show nodeIsEnd t id = false
      rw [h2o]
      exact hok.notEnd
    · show 1 ≤ nodeLevels t id
      rw [h1o]
      exact hok.lv1
    · show nodeLevels t id ≤ t.maxLevel
      rw [h1o, c1]
      exact hok.lvM
    · show (nodeAt t id).nextNode.length = nodeLevels t id
      rw [h4o, h1o]
      exact hok.nlen
    · show (nodeAt t id).prevNode.length = nodeLevels t id
      rw [h5o, h1o]
      exact hok.plen
    · show id ≠ t.head
      rw [c2]
      exact hok.neH
    · show id ≠ t.tail
      rw [c3]
      exact hok.neT
  have hInv4 : Inv { t with length := t.length + 1, size := u64add (u64add t.size key.length) v.length }
      (lowIds s key row0 ++ s.heap.length :: highIds s key row0) := by
    refine ⟨?_, ?_, ?_, ?_, ?_, ?_, ?_, ?_, ?_, ?_, ?_, ?_, ?_, ?_, ?_, ?_, ?_,
      ?_, ?_, ?_⟩
    · show 1 ≤ t.maxLevel
      rw [c1]
      exact hInv.hml
    · show t.head < t.heap.length
      rw [c2, c7]
      exact Nat.lt_succ_of_lt hInv.hhead
    · show t.tail < t.heap.length
      rw [c3, c7]
      exact Nat.lt_succ_of_lt hInv.htail
    · show t.head ≠ t.tail
      rw [c2, c3]
      exact hInv.hht
    · show nodeIsEnd t t.head = true
      rw [c2, (crec s.head hheadne).2.1]
      exact hInv.hheadE
    · show nodeIsEnd t t.tail = true
      rw [c3, (crec s.tail htailne).2.1]
      exact hInv.htailE
    · show nodeLevels t t.head = t.maxLevel
      rw [c1, c2, (crec s.head hheadne).1]
      exact hInv.hheadLv
    · show nodeLevels t t.tail = t.maxLevel
      rw [c1, c3, (crec s.tail htailne).1]
      exact hInv.htailLv
    · show (nodeAt t t.head).nextNode.length = t.maxLevel
      rw [c1, c2, (crec s.head hheadne).2.2.2.1]
      exact hInv.hheadNextLen
    · show (nodeAt t t.head).prevNode.length = t.maxLevel
      rw [c1, c2, (crec s.head hheadne).2.2.2.2]
      exact hInv.hheadPrevLen
    · show (nodeAt t t.tail).nextNode.length = t.maxLevel
      rw [c1, c3, (crec s.tail htailne).2.2.2.1]
      exact hInv.htailNextLen
    · show (nodeAt t t.tail).prevNode.length = t.maxLevel
      rw [c1, c3, (crec s.tail htailne).2.2.2.2]
      exact hInv.htailPrevLen
    · show t.history.length = t.maxLevel
      rw [c6, c1]
      exact hlen'
    · show t.length + 1 = _
      rw [c4, hInv.hlen]
      have hlensum := congrArg List.length (lowIds_append_highIds s key row0)
      rw [List.length_append] at hlensum
      rw [List.length_append, List.length_cons]
      push_cast
      omega
    · intro id hid
      rcases List.mem_append.mp hid with hid | hid
      · exact hokOld id (hlowsub id hid)
      · rcases List.mem_cons.mp hid with hid | hid
        · subst hid
          refine ⟨?_, ?_, ?_, ?_, ?_, ?_, ?_, ?_⟩
          · show s.heap.length < t.heap.length
            rw [c7]
            exact Nat.lt_succ_self _
          · show nodeIsEnd t s.heap.length = false
            exact cne
          · show 1 ≤ nodeLevels t s.heap.length
            rw [cnl]
            exact hlvl1
          · show nodeLevels t s.heap.length ≤ t.maxLevel
            rw [cnl, c1]
            exact hlvlM
          · show (nodeAt t s.heap.length).nextNode.length = nodeLevels t s.heap.length
            rw [cnn, cnl]
          · show (nodeAt t s.heap.length).prevNode.length = nodeLevels t s.heap.length
            rw [cnp, cnl]
          · show s.heap.length ≠ t.head
            rw [c2]
            exact Ne.symm hheadne
          · show s.heap.length ≠ t.tail
            rw [c3]
            exact Ne.symm htailne
        · exact hokOld id (hhighsub id hid)
    · exact hnodup4
    · exact hQ
    · intro L hL
      have h0 : L < t.maxLevel := hL
      rw [c1] at h0
      refine LinkedAt_congr (s := t) (fun x _ => rfl) (fun x _ => rfl) ?_
      show LinkedAt t L (t.head :: rowAt { t with length := t.length + 1, size := u64add (u64add t.size key.length) v.length }
        (lowIds s key row0 ++ s.heap.length :: highIds s key row0) L ++ [t.tail])
      rw [rowAt_congr_of hlvS _ L, c2, c3]
      exact hchain4 L h0
    · intro L hL
      have h0 : L < t.maxLevel := hL
      rw [c1] at h0
      show prevPtrAt t t.head L = some none
      rw [c2]
      have hnq : s.head ≠ succAt s key row0 L :=
        Ne.symm ((succAt_facts s key row0 hInv L h0).2.2)
      rw [p16 s.head L hheadne (fun hc => hnq hc.2)]
      exact hInv.hheadPrev L h0
    · intro L hL
      have h0 : L < t.maxLevel := hL
      rw [c1] at h0
      show nextPtrAt t t.tail L = some none
      rw [c3]
      have hnp : s.tail ≠ predAt s key row0 L :=
        Ne.symm ((predAt_facts s key row0 hInv L h0).2.2.2)
      rw [p14 s.tail L htailne (fun hc => hnp hc.2)]
      exact hInv.htailNext L h0
  refine ⟨{ t with length := t.length + 1, size := u64add (u64add t.size key.length) v.length },
    ?_, hInv4, c1, c2, c3, c7, ?_, ?_, ?_, ?_⟩
  · rw [hset, hins]
  · show t.length + 1 = s.length + 1
    rw [c4]
  · show u64add (u64add t.size key.length) v.length = _
    rw [c5]
  · intro a ha
    show nodeLevels t a = nodeLevels s a
    exact (crec a (Nat.ne_of_lt ha)).1
  · show entriesOf t (lowIds s key row0 ++ s.heap.length :: highIds s key row0) = _
    exact hentries


/-! ## Unlinking a found key -/

/-- Entries after the found node are strictly above the key. -/
theorem rest_keys_gt (s : State) (key : Key) (row0 : List NodeId)
    (hsorted : row0.Pairwise (fun a b => keyLt (nodeKey s a) (nodeKey s b) = true))
    (d : NodeId) (rest : List NodeId) (hhigh : highIds s key row0 = d :: rest)
    (hdk : nodeKey s d = key) :
    ∀ x ∈ rest, keyLt key (nodeKey s x) = true := by
  have hsub0 := hsorted.sublist (List.dropWhile_sublist (isLow s key))
  have hsub : (highIds s key row0).Pairwise
      (fun a b => keyLt (nodeKey s a) (nodeKey s b) = true) := hsub0
  rw [hhigh] at hsub
  rw [List.pairwise_cons] at hsub
  intro x hx
  have hd := hsub.1 x hx
  rw [hdk] at hd
  exact hd

/-- Removing the found node leaves the same below/above split. -/
theorem split_delete (s : State) (key : Key) (row0 : List NodeId)
    (hsorted : row0.Pairwise (fun a b => keyLt (nodeKey s a) (nodeKey s b) = true))
    (d : NodeId) (rest : List NodeId) (hhigh : highIds s key row0 = d :: rest)
    (hdk : nodeKey s d = key) :
    lowIds s key (lowIds s key row0 ++ rest) = lowIds s key row0
      ∧ highIds s key (lowIds s key row0 ++ rest) = rest := by
  have hgt := rest_keys_gt s key row0 hsorted d rest hhigh hdk
  have hrest : ∀ x ∈ rest, isLow s key x = false := by
    intro x hx
    rw [isLow]
    exact keyLt_asymm key (nodeKey s x) (hgt x hx)
  have h := takeWhile_append_all (isLow s key) (lowIds s key row0) rest
    (lowIds_all s key row0) hrest
  exact ⟨h.1, h.2⟩

theorem specRemove_found (key : Key) (e : SkipListItem) (A B : List SkipListItem)
    (hA : ∀ x ∈ A, x.key ≠ key) (he : e.key = key) (hB : ∀ x ∈ B, x.key ≠ key) :
    specRemove key (A ++ e :: B) = A ++ B := by
  rw [specRemove, List.filter_append, List.filter_cons]
  have hcond : decide (e.key ≠ key) = false := by
    simp [he]
  rw [hcond, if_neg Bool.false_ne_true]
  congr 1
  · rw [List.filter_eq_self]
    intro a ha
    simp [hA a ha]
  · rw [List.filter_eq_self]
    intro a ha
    simp [hB a ha]

theorem findRes_none_all_ne (s : State) (key : Key) (row0 : List NodeId)
    (hsorted : row0.Pairwise (fun a b => keyLt (nodeKey s a) (nodeKey s b) = true))
    (hres : findRes s key row0 = none) :
    ∀ x ∈ row0, nodeKey s x ≠ key := by
  intro x hx
  rw [← lowIds_append_highIds s key row0] at hx
  rcases List.mem_append.mp hx with hx | hx
  · have hl := lowIds_all s key row0 x hx
    rw [isLow] at hl
    intro he
    rw [he, keyLt_irrefl] at hl
    exact absurd hl Bool.false_ne_true
  · exact findRes_none_high_ne s key row0 hsorted hres x hx

theorem specRemove_absent (key : Key) (es : List SkipListItem)
    (h : ∀ x ∈ es, x.key ≠ key) : specRemove key es = es := by
  rw [specRemove, List.filter_eq_self]
  intro a ha
  simp [h a ha]


/-- Facts about the node that follows the found node at a level (its level-`L`
successor in the post-delete row): bounds, distinctness from the sentinels,
from the found node, and from the level-`L` predecessor. -/
theorem sd_facts (s : State) (key : Key) (row0 : List NodeId) (hInv : Inv s row0)
    (d : NodeId) (rest : List NodeId) (hhigh : highIds s key row0 = d :: rest)
    (hhigh2 : highIds s key (lowIds s key row0 ++ rest) = rest)
    (L : Nat) (hL : L < s.maxLevel) :
    succAt s key (lowIds s key row0 ++ rest) L < s.heap.length
      ∧ L < (nodeAt s (succAt s key (lowIds s key row0 ++ rest) L)).prevNode.length
      ∧ succAt s key (lowIds s key row0 ++ rest) L ≠ s.head
      ∧ d ≠ succAt s key (lowIds s key row0 ++ rest) L
      ∧ predAt s key row0 L ≠ succAt s key (lowIds s key row0 ++ rest) L := by
  have hrow : row0 = lowIds s key row0 ++ d :: rest := by
    conv_lhs => rw [← lowIds_append_highIds s key row0]
    rw [hhigh]
  have hdmem : d ∈ row0 := by
    rw [hrow]
    simp
  have hrestmem : ∀ x ∈ rest, x ∈ row0 := by
    intro x hx
    rw [hrow]
    exact List.mem_append_right _ (List.mem_cons_of_mem d hx)
  have hnd := hInv.hnodup
  rw [hrow, List.nodup_append] at hnd
  have hd_rest : d ∉ rest := by
    have := hnd.2.1
    rw [List.nodup_cons] at this
    exact this.1
  have hlow_disj : ∀ x ∈ lowIds s key row0, x ∉ rest := by
    intro x hx hxr
    exact hnd.2.2 hx (List.mem_cons_of_mem d hxr)
  have hpd : predAt s key row0 L = s.head ∨ predAt s key row0 L ∈ lowIds s key row0 := by
    rw [predAt]
    cases hrl : rowAt s (lowIds s key row0) L with
    | nil => exact Or.inl rfl
    | cons e r =>
      right
      have hmem : (e :: r).getLastD s.head ∈ rowAt s (lowIds s key row0) L := by
        rw [hrl]
        exact getLastD_mem_of_ne_nil (e :: r) s.head (by simp)
      exact List.mem_of_mem_filter hmem
  rw [succAt, hhigh2]
  cases hr : rowAt s rest L with
  | nil =>
    refine ⟨hInv.htail, ?_, Ne.symm hInv.hht, (hInv.hnodes d hdmem).neT, ?_⟩
    · rw [hInv.htailPrevLen]
      exact hL
    · rcases hpd with hpd | hpd
      · rw [hpd]
        exact hInv.hht
      · have hpmem : predAt s key row0 L ∈ lowIds s key row0 ++ d :: rest :=
          List.mem_append_left _ hpd
        rw [← hrow] at hpmem
        exact (hInv.hnodes _ hpmem).neT
  | cons e r =>
    have hemem : e ∈ rowAt s rest L := by
      rw [hr]
      exact List.mem_cons_self e r
    have herest : e ∈ rest := List.mem_of_mem_filter hemem
    have helev : L < nodeLevels s e := by
      have := List.of_mem_filter hemem
      exact of_decide_eq_true this
    have hok := hInv.hnodes e (hrestmem e herest)
    refine ⟨hok.lt, ?_, hok.neH, ?_, ?_⟩
    · rw [hok.plen]
      exact helev
    · intro he
      exact hd_rest (he ▸ herest)
    · rcases hpd with hpd | hpd
      · rw [hpd]
        exact Ne.symm hok.neH
      · intro he
        exact hlow_disj _ hpd (he ▸ herest)


/-- The found node's own level-`L` pointers name its predecessor and its
post-delete successor. -/
theorem del_adj (s : State) (key : Key) (row0 : List NodeId) (hInv : Inv s row0)
    (d : NodeId) (rest : List NodeId) (hhigh : highIds s key row0 = d :: rest)
    (hhigh2 : highIds s key (lowIds s key row0 ++ rest) = rest)
    (L : Nat) (hL : L < s.maxLevel) (hLd : L < nodeLevels s d) :
    nextPtrAt s d L = some (some (succAt s key (lowIds s key row0 ++ rest) L))
      ∧ prevPtrAt s d L = some (some (predAt s key row0 L)) := by
  have hchain := hInv.hlinked L hL
  rw [chain_decomp s key row0 L] at hchain
  have hrowh : rowAt s (highIds s key row0) L = d :: rowAt s rest L := by
    rw [hhigh, rowAt_cons_pos s d rest L hLd]
  have hsucc_d : succAt s key row0 L = d := by
    rw [succAt, hrowh]
  rw [hsucc_d, hrowh] at hchain
  have hright := @LinkedAt_append_right s L
    (s.head :: rowAt s (lowIds s key row0) L).dropLast _ hchain
  constructor
  · have hd := hright.2.2
    rw [succAt, hhigh2]
    cases hr : rowAt s rest L with
    | nil =>
      rw [hr] at hd
      exact hd.1
    | cons e r =>
      rw [hr] at hd
      exact hd.1
  · exact hright.2.1


theorem unlinkLoop_spec (s : State) (key : Key) (row0 : List NodeId)
    (hInv : Inv s row0) (d : NodeId) (rest : List NodeId)
    (hhigh : highIds s key row0 = d :: rest)
    (hhigh2 : highIds s key (lowIds s key row0 ++ rest) = rest)
    (h' : List Ptr) (z : Nat) :
    ∀ j, j ≤ nodeLevels s d →
    ∃ u, deleteNode.unlinkLoop d j { s with size := z, history := h' } = some u
      ∧ u.maxLevel = s.maxLevel ∧ u.head = s.head ∧ u.tail = s.tail
      ∧ u.length = s.length ∧ u.size = z ∧ u.history = h'
      ∧ u.heap.length = s.heap.length
      ∧ (∀ a, nodeLevels u a = nodeLevels s a ∧ nodeIsEnd u a = nodeIsEnd s a
          ∧ (nodeAt u a).item = (nodeAt s a).item
          ∧ (nodeAt u a).nextNode.length = (nodeAt s a).nextNode.length
          ∧ (nodeAt u a).prevNode.length = (nodeAt s a).prevNode.length)
      ∧ (∀ a M, ¬(M < j ∧ a = predAt s key row0 M) → nextPtrAt u a M = nextPtrAt s a M)
      ∧ (∀ M, M < j → nextPtrAt u (predAt s key row0 M) M
          = some (some (succAt s key (lowIds s key row0 ++ rest) M)))
      ∧ (∀ a M, ¬(M < j ∧ a = succAt s key (lowIds s key row0 ++ rest) M) →
          prevPtrAt u a M = prevPtrAt s a M)
      ∧ (∀ M, M < j → prevPtrAt u (succAt s key (lowIds s key row0 ++ rest) M) M
          = some (some (predAt s key row0 M))) := by
  have hdmem : d ∈ row0 := by
    have hd0 : d ∈ highIds s key row0 := by
      rw [hhigh]
      exact List.mem_cons_self d rest
    have happ := lowIds_append_highIds s key row0
    rw [← happ]
    exact List.mem_append_right _ hd0
  have hdok := hInv.hnodes d hdmem
  have hlvdM : nodeLevels s d ≤ s.maxLevel := hdok.lvM
  intro j
  induction j with
  | zero =>
    intro _
    refine ⟨{ s with size := z, history := h' }, rfl, rfl, rfl, rfl, rfl, rfl, rfl, rfl,
      ?_, ?_, ?_, ?_, ?_⟩
    · intro a
      exact ⟨rfl, rfl, rfl, rfl, rfl⟩
    · intro a M _
      rfl
    · intro M hM
      omega
    · intro a M _
      rfl
    · intro M hM
      omega
  | succ j ih =>
    intro hj
    have hjd : j < nodeLevels s d := by omega
    have hjM : j < s.maxLevel := by omega
    obtain ⟨u, hrun, c1, c2, c3, c4, c5, c6, c7, crec,
      q14, q15, q16, q17⟩ := ih (by omega)
    have hadj := del_adj s key row0 hInv d rest hhigh hhigh2 j hjM hjd
    have hsf := sd_facts s key row0 hInv d rest hhigh hhigh2 j hjM
    have hpf := predAt_facts s key row0 hInv j hjM
    have hpns : predAt s key row0 j ≠ succAt s key (lowIds s key row0 ++ rest) j :=
      hsf.2.2.2.2
    have hdsd : d ≠ succAt s key (lowIds s key row0 ++ rest) j := hsf.2.2.2.1
    -- the found node's pointers, read in `u`
    have hcnd : ¬(j < j ∧ d = predAt s key row0 j) := fun hc => absurd hc.1 (lt_irrefl j)
    have hcpd : ¬(j < j ∧ d = succAt s key (lowIds s key row0 ++ rest) j) :=
      fun hc => absurd hc.1 (lt_irrefl j)
    have hnd_u : nextPtrAt u d j
        = some (some (succAt s key (lowIds s key row0 ++ rest) j)) := by
      rw [q14 d j hcnd]
      exact hadj.1
    have hpd_u : prevPtrAt u d j = some (some (predAt s key row0 j)) := by
      rw [q16 d j hcpd]
      exact hadj.2
    have hdlt_u : d < u.heap.length := by
      rw [c7]
      exact hdok.lt
    have hplt_u : predAt s key row0 j < u.heap.length := by
      rw [c7]
      exact hpf.1
    have hqlt_u : succAt s key (lowIds s key row0 ++ rest) j < u.heap.length := by
      rw [c7]
      exact hsf.1
    have hqp_u : j < (nodeAt u (succAt s key (lowIds s key row0 ++ rest) j)).prevNode.length := by
      rw [(crec (succAt s key (lowIds s key row0 ++ rest) j)).2.2.2.2]
      exact hsf.2.1
    have hpn_u : j < (nodeAt u (predAt s key row0 j)).nextNode.length := by
      rw [(crec (predAt s key row0 j)).2.2.2.1]
      exact hpf.2.2.1
    have hrem := removeOnLevel_spec u d (predAt s key row0 j)
      (succAt s key (lowIds s key row0 ++ rest) j) j
      hdlt_u hplt_u hqlt_u hnd_u hpd_u hdsd hqp_u hpn_u
    set pj := predAt s key row0 j with hpj
    set qj := succAt s key (lowIds s key row0 ++ rest) j with hqj
    set w1 := writePrev u qj j (some pj) with hw1
    set w2 := writeNext w1 pj j (some qj) with hw2
    have hrun' : deleteNode.unlinkLoop d (j + 1) { s with size := z, history := h' }
        = some w2 := by
      rw [deleteNode.unlinkLoop, hrun]
      simp only [Option.bind_eq_bind, Option.some_bind]
      exact hrem
    have hw2len : w2.heap.length = u.heap.length := by
      simp [hw2, hw1]
    have hnext_ne : ∀ a M, (a ≠ pj ∨ M ≠ j) → nextPtrAt w2 a M = nextPtrAt u a M := by
      intro a M h2
      rw [hw2, nextPtrAt_writeNext_ne w1 pj j _ a M h2, hw1, nextPtrAt_writePrev]
    have hprev_ne : ∀ a M, (a ≠ qj ∨ M ≠ j) → prevPtrAt w2 a M = prevPtrAt u a M := by
      intro a M h1
      rw [hw2, prevPtrAt_writeNext, hw1, prevPtrAt_writePrev_ne u qj j _ a M h1]
    have hnext_pj : nextPtrAt w2 pj j = some (some qj) := by
      rw [hw2]
      refine nextPtrAt_writeNext_self w1 pj j (some qj) ?_ ?_
      · simp only [hw1, writePrev_heap_length]
        exact hplt_u
      · rw [hw1, nextLen_writePrev]
        exact hpn_u
    have hprev_qj : prevPtrAt w2 qj j = some (some pj) := by
      rw [hw2, prevPtrAt_writeNext, hw1]
      exact prevPtrAt_writePrev_self u qj j (some pj) hqlt_u hqp_u
    have hrecw : ∀ a, nodeLevels w2 a = nodeLevels u a ∧ nodeIsEnd w2 a = nodeIsEnd u a
        ∧ (nodeAt w2 a).item = (nodeAt u a).item
        ∧ (nodeAt w2 a).nextNode.length = (nodeAt u a).nextNode.length
        ∧ (nodeAt w2 a).prevNode.length = (nodeAt u a).prevNode.length := by
      intro a
      refine ⟨?_, ?_, ?_, ?_, ?_⟩
      · rw [hw2, nodeLevels_writeNext, hw1, nodeLevels_writePrev]
      · rw [hw2, nodeIsEnd_writeNext, hw1, nodeIsEnd_writePrev]
      · have e2 := nodeAt_map_setNode w1 pj
          { nodeAt w1 pj with nextNode := (nodeAt w1 pj).nextNode.set j (some qj) }
          (fun x => x.item) rfl a
        have e1 := nodeAt_map_setNode u qj
          { nodeAt u qj with prevNode := (nodeAt u qj).prevNode.set j (some pj) }
          (fun x => x.item) rfl a
        rw [hw2, writeNext, e2, hw1, writePrev, e1]
      · rw [hw2, nextLen_writeNext, hw1, nextLen_writePrev]
      · rw [hw2, prevLen_writeNext, hw1, prevLen_writePrev]
    refine ⟨w2, hrun', ?_, ?_, ?_, ?_, ?_, ?_, ?_, ?_, ?_, ?_, ?_, ?_⟩
    · rw [show w2.maxLevel = u.maxLevel from rfl, c1]
    · rw [show w2.head = u.head from rfl, c2]
    · rw [show w2.tail = u.tail from rfl, c3]
    · rw [show w2.length = u.length from rfl, c4]
    · rw [show w2.size = u.size from rfl, c5]
    · rw [show w2.history = u.history from rfl, c6]
    · rw [hw2len, c7]
    · intro a
      have hw := hrecw a
      have hold := crec a
      exact ⟨hw.1.trans hold.1, hw.2.1.trans hold.2.1, hw.2.2.1.trans hold.2.2.1,
        hw.2.2.2.1.trans hold.2.2.2.1, hw.2.2.2.2.trans hold.2.2.2.2⟩
    · intro a M hcond
      have h2 : a ≠ pj ∨ M ≠ j := by
        by_cases hMj : M = j
        · subst hMj
          left
          intro he
          exact hcond ⟨by omega, he⟩
        · exact Or.inr hMj
      rw [hnext_ne a M h2]
      refine q14 a M ?_
      intro ⟨hM, he⟩
      exact hcond ⟨by omega, he⟩
    · intro M hM
      by_cases hMj : M = j
      · subst hMj
        exact hnext_pj
      · rw [hnext_ne _ M (Or.inr hMj)]
        exact q15 M (by omega)
    · intro a M hcond
      have h1 : a ≠ qj ∨ M ≠ j := by
        by_cases hMj : M = j
        · subst hMj
          left
          intro he
          exact hcond ⟨by omega, he⟩
        · exact Or.inr hMj
      rw [hprev_ne a M h1]
      refine q16 a M ?_
      intro ⟨hM, he⟩
      exact hcond ⟨by omega, he⟩
    · intro M hM
      by_cases hMj : M = j
      · subst hMj
        exact hprev_qj
      · rw [hprev_ne _ M (Or.inr hMj)]
        exact q17 M (by omega)


/-- `Remove` on an absent key only rewrites the search history. -/
theorem Remove_absent_spec (s : State) (key : Key) (row0 : List NodeId)
    (hInv : Inv s row0) (hres : findRes s key row0 = none) :
    ∃ h', Remove s key = some { s with history := h' }
      ∧ h'.length = s.maxLevel
      ∧ Inv { s with history := h' } row0
      ∧ entriesOf { s with history := h' } row0
          = specRemove key (entriesOf s row0) := by
  obtain ⟨h', hrun, hlen', _⟩ := findInternal_spec s key row0 hInv
  refine ⟨h', ?_, hlen', Inv_setHistory s row0 hInv h' hlen', ?_⟩
  · rw [Remove, hrun]
    simp only [Option.bind_eq_bind, Option.some_bind]
    rw [hres]
    rfl
  · have hne : ∀ x ∈ entriesOf s row0, x.key ≠ key := by
      intro x hx
      obtain ⟨id, hid, hide⟩ := List.mem_map.mp hx
      rw [← hide]
      exact findRes_none_all_ne s key row0 hInv.hsorted hres id hid
    rw [specRemove_absent key _ hne]
    rfl


/-- `Remove` on a present key: the found node is unlinked from every one of
its levels, the row loses its id, `length` decrements, `size` shrinks by the
byte lengths, and the entry list is the reference filter. -/
theorem Remove_found_spec (s : State) (key : Key) (row0 : List NodeId)
    (hInv : Inv s row0) (d : NodeId) (hres : findRes s key row0 = some d) :
    ∃ s4 rest, highIds s key row0 = d :: rest
      ∧ Remove s key = some s4
      ∧ Inv s4 (lowIds s key row0 ++ rest)
      ∧ s4.maxLevel = s.maxLevel ∧ s4.head = s.head ∧ s4.tail = s.tail
      ∧ s4.heap.length = s.heap.length
      ∧ s4.length = s.length - 1
      ∧ s4.size = u64sub (u64sub s.size key.length) (nodeAt s d).item.value.length
      ∧ (∀ a, nodeLevels s4 a = nodeLevels s a)
      ∧ entriesOf s4 (lowIds s key row0 ++ rest)
          = specRemove key (entriesOf s row0) := by
  obtain ⟨h', hrun, hlen', _⟩ := findInternal_spec s key row0 hInv
  obtain ⟨rest, hhigh, hdk⟩ := findRes_some_facts s key row0 d hres
  have hsplit := split_delete s key row0 hInv.hsorted d rest hhigh hdk
  have hhigh2 := hsplit.2
  have hrow : row0 = lowIds s key row0 ++ d :: rest := by
    conv_lhs => rw [← lowIds_append_highIds s key row0]
    rw [hhigh]
  have hdmem : d ∈ row0 := by
    rw [hrow]
    simp
  have hdok := hInv.hnodes d hdmem
  have hdk' : (nodeAt s d).item.key = key := hdk
  obtain ⟨u, hrun2, c1, c2, c3, c4, c5, c6, c7, crec, q14, q15, q16, q17⟩ :=
    unlinkLoop_spec s key row0 hInv d rest hhigh hhigh2 h'
      (u64sub (u64sub s.size (nodeAt s d).item.key.length)
        (nodeAt s d).item.value.length)
      (nodeLevels s d) (le_refl (nodeLevels s d))
  -- run `Remove` into the delete branch
  have hrem : Remove s key = deleteNode { s with history := h' } d := by
    rw [Remove, hrun]
    simp only [Option.bind_eq_bind, Option.some_bind]
    rw [hres]
  have hd2 : d < ({ s with history := h' } : State).heap.length := hdok.lt
  have hdel : deleteNode { s with history := h' } d
      = Option.bind (deleteNode.unlinkLoop d (nodeLevels s d)
          { s with
            size := u64sub (u64sub s.size (nodeAt s d).item.key.length)
              (nodeAt s d).item.value.length,
            history := h' })
        (fun s1 => some { s1 with length := s1.length - 1 }) := by
    rw [deleteNode, getNode_eq_some { s with history := h' } d hd2]
    rfl
  have hrun3 : Remove s key = some { u with length := u.length - 1 } := by
    rw [hrem, hdel]
    have hloop : deleteNode.unlinkLoop d (nodeLevels s d)
        { s with
          size := u64sub (u64sub s.size (nodeAt s d).item.key.length)
            (nodeAt s d).item.value.length,
          history := h' } = some u := hrun2
    rw [hloop]
    rfl
  -- memberships
  have hlowsub : ∀ x ∈ lowIds s key row0, x ∈ row0 := by
    intro x hx
    have happ := lowIds_append_highIds s key row0
    rw [← happ]
    exact List.mem_append_left _ hx
  have hrestsub : ∀ x ∈ rest, x ∈ row0 := by
    intro x hx
    rw [hrow]
    exact List.mem_append_right _ (List.mem_cons_of_mem d hx)
  have hsub : List.Sublist (lowIds s key row0 ++ rest) row0 := by
    conv_rhs => rw [hrow]
    exact (List.sublist_cons_self d rest).append_left _
  -- keys over `u`
  have hkeq : ∀ a, nodeKey u a = nodeKey s a := by
    intro a
    rw [nodeKey, nodeKey, (crec a).2.2.1]
  -- chains of the shrunk row, stated for `u`
  have hchain4 : ∀ L, L < s.maxLevel →
      LinkedAt u L (s.head :: rowAt u (lowIds s key row0 ++ rest) L ++ [s.tail]) := by
    intro L hL
    by_cases hLd : L < nodeLevels s d
    · have hrowh : rowAt s (highIds s key row0) L = d :: rowAt s rest L := by
        rw [hhigh, rowAt_cons_pos s d rest L hLd]
      have hsucc_d : succAt s key row0 L = d := by
        rw [succAt, hrowh]
      have hsd_eq : succAt s key (lowIds s key row0 ++ rest) L
            :: (rowAt s rest L ++ [s.tail]).tail
          = rowAt s rest L ++ [s.tail] := by
        have h0 := succ_chain_eq s key (lowIds s key row0 ++ rest) L
        rw [hhigh2] at h0
        exact h0
      have hshape_old : s.head :: rowAt s row0 L ++ [s.tail]
          = (s.head :: rowAt s (lowIds s key row0) L).dropLast
            ++ predAt s key row0 L :: d
            :: succAt s key (lowIds s key row0 ++ rest) L
            :: (rowAt s rest L ++ [s.tail]).tail := by
        rw [chain_decomp s key row0 L, hsucc_d, hrowh]
        simp only [List.cons_append, List.tail_cons]
        conv_lhs => rw [← hsd_eq]
      have hold : LinkedAt s L ((s.head :: rowAt s (lowIds s key row0) L).dropLast
          ++ predAt s key row0 L :: d
          :: succAt s key (lowIds s key row0 ++ rest) L
          :: (rowAt s rest L ++ [s.tail]).tail) := by
        rw [← hshape_old]
        exact hInv.hlinked L hL
      have hnd_old : ((s.head :: rowAt s (lowIds s key row0) L).dropLast
          ++ predAt s key row0 L :: d
          :: succAt s key (lowIds s key row0 ++ rest) L
          :: (rowAt s rest L ++ [s.tail]).tail).Nodup := by
        rw [← hshape_old]
        exact chain_nodup s row0 hInv L
      have hunl := LinkedAt_unlink hold hnd_old
        (fun a ha => q14 a L (fun hc => ha hc.2))
        (fun a ha => q16 a L (fun hc => ha hc.2))
        (q15 L hLd) (q17 L hLd)
      have hrowu : rowAt u (lowIds s key row0 ++ rest) L
          = rowAt s (lowIds s key row0) L ++ rowAt s rest L := by
        rw [rowAt_congr_of (fun a => (crec a).1) _ L, rowAt_append]
      rw [hrowu]
      have hshape_new : s.head :: (rowAt s (lowIds s key row0) L
            ++ rowAt s rest L) ++ [s.tail]
          = (s.head :: rowAt s (lowIds s key row0) L).dropLast
            ++ predAt s key row0 L
            :: succAt s key (lowIds s key row0 ++ rest) L
            :: (rowAt s rest L ++ [s.tail]).tail := by
        conv_rhs => rw [List.append_cons]
        rw [pred_chain_eq s key row0 L, hsd_eq]
        simp [List.cons_append, List.append_assoc]
      rw [hshape_new]
      exact hunl
    · have hrowu : rowAt u (lowIds s key row0 ++ rest) L = rowAt s row0 L := by
        rw [rowAt_congr_of (fun a => (crec a).1) _ L, rowAt_append]
        conv_rhs => rw [hrow]
        rw [rowAt_append, rowAt_cons_neg s d rest L hLd]
      rw [hrowu]
      refine LinkedAt_congr (s := s) ?_ ?_ (hInv.hlinked L hL)
      · intro x _
        exact q14 x L (fun hc => absurd hc.1 hLd)
      · intro x _
        exact q16 x L (fun hc => absurd hc.1 hLd)
  -- entries, stated for `u`
  have hentries : entriesOf u (lowIds s key row0 ++ rest)
      = specRemove key (entriesOf s row0) := by
    have hmapu : (lowIds s key row0 ++ rest).map (fun id => (nodeAt u id).item)
        = (lowIds s key row0 ++ rest).map (fun id => (nodeAt s id).item) := by
      apply List.map_congr_left
      intro a _
      exact (crec a).2.2.1
    have hA : ∀ x ∈ (lowIds s key row0).map (fun id => (nodeAt s id).item),
        x.key ≠ key := by
      intro x hx
      obtain ⟨id, hid, hide⟩ := List.mem_map.mp hx
      have hl := lowIds_all s key row0 id hid
      rw [isLow] at hl
      rw [← hide]
      exact keyLt_ne _ _ hl
    have hB : ∀ x ∈ rest.map (fun id => (nodeAt s id).item), x.key ≠ key := by
      intro x hx
      obtain ⟨id, hid, hide⟩ := List.mem_map.mp hx
      have hg := rest_keys_gt s key row0 hInv.hsorted d rest hhigh hdk id hid
      rw [← hide]
      exact Ne.symm (keyLt_ne _ _ hg)
    rw [entriesOf, hmapu, List.map_append]
    conv_rhs => rw [entriesOf, hrow, List.map_append, List.map_cons]
    rw [specRemove_found key _ _ _ hA hdk' hB]
  have hlvS4 : ∀ a, nodeLevels { u with length := u.length - 1 } a = nodeLevels u a :=
    fun _ => rfl
  have hInv4 : Inv { u with length := u.length - 1 } (lowIds s key row0 ++ rest) := by
    refine ⟨?_, ?_, ?_, ?_, ?_, ?_, ?_, ?_, ?_, ?_, ?_, ?_, ?_, ?_, ?_, ?_, ?_,
      ?_, ?_, ?_⟩
    · show 1 ≤ u.maxLevel
      rw [c1]
      exact hInv.hml
    · show u.head < u.heap.length
      rw [c2, c7]
      exact hInv.hhead
    · show u.tail < u.heap.length
      rw [c3, c7]
      exact hInv.htail
    · show u.head ≠ u.tail
      rw [c2, c3]
      exact hInv.hht
    · show nodeIsEnd u u.head = true
      rw [c2, (crec s.head).2.1]
      exact hInv.hheadE
    · show nodeIsEnd u u.tail = true
      rw [c3, (crec s.tail).2.1]
      exact hInv.htailE
    · show nodeLevels u u.head = u.maxLevel
      rw [c1, c2, (crec s.head).1]
      exact hInv.hheadLv
    · show nodeLevels u u.tail = u.maxLevel
      rw [c1, c3, (crec s.tail).1]
      exact hInv.htailLv
    · show (nodeAt u u.head).nextNode.length = u.maxLevel
      rw [c1, c2, (crec s.head).2.2.2.1]
      exact hInv.hheadNextLen
    · show (nodeAt u u.head).prevNode.length = u.maxLevel
      rw [c1, c2, (crec s.head).2.2.2.2]
      exact hInv.hheadPrevLen
    · show (nodeAt u u.tail).nextNode.length = u.maxLevel
      rw [c1, c3, (crec s.tail).2.2.2.1]
      exact hInv.htailNextLen
    · show (nodeAt u u.tail).prevNode.length = u.maxLevel
      rw [c1, c3, (crec s.tail).2.2.2.2]
      exact hInv.htailPrevLen
    · show u.history.length = u.maxLevel
      rw [c6, c1]
      exact hlen'
    · show u.length - 1 = _
      rw [c4, hInv.hlen]
      have hlensum := congrArg List.length hrow
      rw [List.length_append, List.length_cons] at hlensum
      rw [List.length_append]
      push_cast
      omega
    · intro id hid
      have hidr : id ∈ row0 := by
        rcases List.mem_append.mp hid with hid | hid
        · exact hlowsub id hid
        · exact hrestsub id hid
      have hok := hInv.hnodes id hidr
      obtain ⟨h1o, h2o, h3o, h4o, h5o⟩ := crec id
      refine ⟨?_, ?_, ?_, ?_, ?_, ?_, ?_, ?_⟩
      · show id < u.heap.length
        rw [c7]
        exact hok.lt
      · show nodeIsEnd u id = false
        rw [h2o]
        exact hok.notEnd
      · show 1 ≤ nodeLevels u id
        rw [h1o]
        exact hok.lv1
      · show nodeLevels u id ≤ u.maxLevel
        rw [h1o, c1]
        exact hok.lvM
      · show (nodeAt u id).nextNode.length = nodeLevels u id
        rw [h4o, h1o]
        exact hok.nlen
      · show (nodeAt u id).prevNode.length = nodeLevels u id
        rw [h5o, h1o]
        exact hok.plen
      · show id ≠ u.head
        rw [c2]
        exact hok.neH
      · show id ≠ u.tail
        rw [c3]
        exact hok.neT
    · exact hInv.hnodup.sublist hsub
    · have hp := hInv.hsorted.sublist hsub
      refine hp.imp ?_
      intro a b hab
      show keyLt (nodeKey u a) (nodeKey u b) = true
      rw [hkeq a, hkeq b]
      exact hab
    · intro L hL
      have h0 : L < u.maxLevel := hL
      rw [c1] at h0
      refine LinkedAt_congr (s := u) (fun x _ => rfl) (fun x _ => rfl) ?_
      show LinkedAt u L (u.head :: rowAt { u with length := u.length - 1 }
        (lowIds s key row0 ++ rest) L ++ [u.tail])
      rw [rowAt_congr_of hlvS4 _ L, c2, c3]
      exact hchain4 L h0
    · intro L hL
      have h0 : L < u.maxLevel := hL
      rw [c1] at h0
      show prevPtrAt u u.head L = some none
      rw [c2]
      have hcond : ¬(L < nodeLevels s d
          ∧ s.head = succAt s key (lowIds s key row0 ++ rest) L) := by
        intro hc
        exact (sd_facts s key row0 hInv d rest hhigh hhigh2 L h0).2.2.1 hc.2.symm
      rw [q16 s.head L hcond]
      exact hInv.hheadPrev L h0
    · intro L hL
      have h0 : L < u.maxLevel := hL
      rw [c1] at h0
      show nextPtrAt u u.tail L = some none
      rw [c3]
      have hcond : ¬(L < nodeLevels s d ∧ s.tail = predAt s key row0 L) := by
        intro hc
        exact (predAt_facts s key row0 hInv L h0).2.2.2 hc.2.symm
      rw [q14 s.tail L hcond]
      exact hInv.htailNext L h0
  refine ⟨{ u with length := u.length - 1 }, rest, hhigh, hrun3, hInv4,
    c1, c2, c3, c7, ?_, ?_, ?_, ?_⟩
  · show u.length - 1 = s.length - 1
    rw [c4]
  · show u.size = _
    rw [c5, hdk']
  · intro a
    show nodeLevels u a = nodeLevels s a
    exact (crec a).1
  · show entriesOf u (lowIds s key row0 ++ rest) = _
    exact hentries


/-! ## The operation-level refinement -/

/-- One abstract step on the entry list. -/
def specStep (es : List SkipListItem) : Op → List SkipListItem
  | .set k v _ => specSet k v es
  | .remove k => specRemove k es

/-- The abstract run. -/
def specRun : List SkipListItem → List Op → List SkipListItem
  | es, [] => es
  | es, op :: ops => specRun (specStep es op) ops

/-- Every legal operation on an invariant state succeeds, preserves the
invariant and the sentinels, never shrinks the arena, never changes the
height of an existing node, and tracks the abstract step on entries. -/
theorem runOp_spec (s : State) (row0 : List NodeId) (hInv : Inv s row0) (op : Op)
    (hok : OpOk s.maxLevel op) :
    ∃ s' row0', runOp s op = some s' ∧ Inv s' row0'
      ∧ s'.maxLevel = s.maxLevel ∧ s'.head = s.head ∧ s'.tail = s.tail
      ∧ s.heap.length ≤ s'.heap.length
      ∧ (∀ a, a < s.heap.length → nodeLevels s' a = nodeLevels s a)
      ∧ entriesOf s' row0' = specStep (entriesOf s row0) op := by
  cases op with
  | set k v l =>
    cases hres : findRes s k row0 with
    | some d =>
      obtain ⟨h', hrun, _, hInv', hsh, _, hent⟩ :=
        Set_found_spec s k v l row0 hInv d hres
      exact ⟨_, row0, hrun, hInv', hsh.hml, hsh.hhd, hsh.htl, le_of_eq hsh.hhl.symm,
        fun a _ => hsh.hlv a, hent⟩
    | none =>
      obtain ⟨s4, hrun, hInv', hml, hhd, htl, hhl, _, _, hlvp, hent⟩ :=
        Set_fresh_spec s k v l row0 hInv hres hok.1 hok.2
      refine ⟨s4, _, hrun, hInv', hml, hhd, htl, ?_, hlvp, hent⟩
      rw [hhl]
      exact Nat.le_succ _
  | remove k =>
    cases hres : findRes s k row0 with
    | none =>
      obtain ⟨h', hrun, hlen', hInv', hent⟩ := Remove_absent_spec s k row0 hInv hres
      exact ⟨_, row0, hrun, hInv', rfl, rfl, rfl, le_refl _, fun a _ => rfl, hent⟩
    | some d =>
      obtain ⟨s4, rest, hhigh, hrun, hInv', hml, hhd, htl, hhl, _, _, hlvp, hent⟩ :=
        Remove_found_spec s k row0 hInv d hres
      exact ⟨s4, _, hrun, hInv', hml, hhd, htl, le_of_eq hhl.symm,
        fun a _ => hlvp a, hent⟩


/-- Master refinement: a legal operation sequence on an invariant state runs
to completion, the result is an invariant state with the same sentinels and
capacity, heights of pre-existing nodes are unchanged, and the entries are
the abstract run. -/
theorem runOps_spec (s : State) (row0 : List NodeId) (hInv : Inv s row0)
    (ops : List Op) :
    OpsOk s.maxLevel ops →
    ∃ s' row0', runOps s ops = some s' ∧ Inv s' row0'
      ∧ s'.maxLevel = s.maxLevel ∧ s'.head = s.head ∧ s'.tail = s.tail
      ∧ s.heap.length ≤ s'.heap.length
      ∧ (∀ a, a < s.heap.length → nodeLevels s' a = nodeLevels s a)
      ∧ entriesOf s' row0' = specRun (entriesOf s row0) ops := by
  induction ops generalizing s row0 with
  | nil =>
    intro _
    exact ⟨s, row0, rfl, hInv, rfl, rfl, rfl, le_refl _, fun a _ => rfl, rfl⟩
  | cons op ops ih =>
    intro hok
    obtain ⟨s1, row1, hrun1, hInv1, hml1, hhd1, htl1, hhl1, hlv1, hent1⟩ :=
      runOp_spec s row0 hInv op (hok op (List.mem_cons_self op ops))
    have hok' : OpsOk s1.maxLevel ops := by
      rw [hml1]
      intro o ho
      exact hok o (List.mem_cons_of_mem op ho)
    obtain ⟨s2, row2, hrun2, hInv2, hml2, hhd2, htl2, hhl2, hlv2, hent2⟩ :=
      ih s1 row1 hInv1 hok'
    refine ⟨s2, row2, ?_, hInv2, hml2.trans hml1, hhd2.trans hhd1, htl2.trans htl1,
      le_trans hhl1 hhl2, ?_, ?_⟩
    · rw [runOps, hrun1]
      simp only [Option.bind_eq_bind, Option.some_bind]
      exact hrun2
    · intro a ha
      rw [hlv2 a (lt_of_lt_of_le ha hhl1), hlv1 a ha]
    · rw [hent2, hent1]
      rfl


/-! ## The public traversal API on an invariant state -/

theorem cons_eq_dropLast_getLastD {α : Type} (h : α) (l : List α) :
    h :: l = (h :: l).dropLast ++ [l.getLastD h] := by
  rw [← getLast_cons_eq_getLastD h l (by simp), List.dropLast_append_getLast]

theorem row0_at_zero (s : State) (row0 : List NodeId) (hInv : Inv s row0) :
    rowAt s row0 0 = row0 :=
  rowAt_zero s row0 (fun x hx => (hInv.hnodes x hx).lv1)

theorem chain0 (s : State) (row0 : List NodeId) (hInv : Inv s row0) :
    LinkedAt s 0 (s.head :: row0 ++ [s.tail]) := by
  have h := hInv.hlinked 0 hInv.hml
  rw [row0_at_zero s row0 hInv] at h
  exact h

theorem Next_real_mid (s : State) (row0 : List NodeId) (hInv : Inv s row0)
    (A B : List NodeId) (id b : NodeId) (hrow : row0 = A ++ id :: b :: B) :
    Next s id = some (some b) := by
  have hid_mem : id ∈ row0 := by
    rw [hrow]
    simp
  have hb_mem : b ∈ row0 := by
    rw [hrow]
    simp
  have hid_ok := hInv.hnodes id hid_mem
  have hb_ok := hInv.hnodes b hb_mem
  have hch := chain0 s row0 hInv
  rw [hrow] at hch
  have hsh : s.head :: (A ++ id :: b :: B) ++ [s.tail]
      = (s.head :: A) ++ id :: b :: (B ++ [s.tail]) := by
    simp [List.cons_append, List.append_assoc]
  rw [hsh] at hch
  have hnext : nextPtrAt s id 0 = some (some b) := LinkedAt_next hch
  rw [Next, getNode_eq_some s id hid_ok.lt]
  simp only [Option.bind_eq_bind, Option.pure_def, Option.some_bind]
  rw [← nextPtrAt_def s id 0 hid_ok.lt, hnext]
  simp only [Option.some_bind]
  rw [getNode_eq_some s b hb_ok.lt]
  simp only [Option.some_bind]
  rw [show (nodeAt s b).isEndNode = false from hb_ok.notEnd]
  rfl

theorem Next_real_last (s : State) (row0 : List NodeId) (hInv : Inv s row0)
    (A : List NodeId) (id : NodeId) (hrow : row0 = A ++ [id]) :
    Next s id = some none := by
  have hid_mem : id ∈ row0 := by
    rw [hrow]
    simp
  have hid_ok := hInv.hnodes id hid_mem
  have hch := chain0 s row0 hInv
  rw [hrow] at hch
  have hsh : s.head :: (A ++ [id]) ++ [s.tail]
      = (s.head :: A) ++ id :: s.tail :: [] := by
    simp [List.cons_append, List.append_assoc]
  rw [hsh] at hch
  have hnext : nextPtrAt s id 0 = some (some s.tail) := LinkedAt_next hch
  rw [Next, getNode_eq_some s id hid_ok.lt]
  simp only [Option.bind_eq_bind, Option.pure_def, Option.some_bind]
  rw [← nextPtrAt_def s id 0 hid_ok.lt, hnext]
  simp only [Option.some_bind]
  rw [getNode_eq_some s s.tail hInv.htail]
  simp only [Option.some_bind]
  rw [show (nodeAt s s.tail).isEndNode = true from hInv.htailE]
  rfl

theorem Prev_real_head (s : State) (row0 : List NodeId) (hInv : Inv s row0)
    (B : List NodeId) (id : NodeId) (hrow : row0 = id :: B) :
    Prev s id = some none := by
  have hid_mem : id ∈ row0 := by
    rw [hrow]
    simp
  have hid_ok := hInv.hnodes id hid_mem
  have hch := chain0 s row0 hInv
  rw [hrow] at hch
  have hsh : s.head :: (id :: B) ++ [s.tail]
      = ([] : List NodeId) ++ s.head :: id :: (B ++ [s.tail]) := by
    simp [List.cons_append]
  rw [hsh] at hch
  have hprev : prevPtrAt s id 0 = some (some s.head) := LinkedAt_prev hch
  rw [Prev, getNode_eq_some s id hid_ok.lt]
  simp only [Option.bind_eq_bind, Option.pure_def, Option.some_bind]
  rw [← prevPtrAt_def s id 0 hid_ok.lt, hprev]
  simp only [Option.some_bind]
  rw [getNode_eq_some s s.head hInv.hhead]
  simp only [Option.some_bind]
  rw [show (nodeAt s s.head).isEndNode = true from hInv.hheadE]
  rfl

theorem Prev_real_mid (s : State) (row0 : List NodeId) (hInv : Inv s row0)
    (A B : List NodeId) (a id : NodeId) (hrow : row0 = A ++ a :: id :: B) :
    Prev s id = some (some a) := by
  have hid_mem : id ∈ row0 := by
    rw [hrow]
    simp
  have ha_mem : a ∈ row0 := by
    rw [hrow]
    simp
  have hid_ok := hInv.hnodes id hid_mem
  have ha_ok := hInv.hnodes a ha_mem
  have hch := chain0 s row0 hInv
  rw [hrow] at hch
  have hsh : s.head :: (A ++ a :: id :: B) ++ [s.tail]
      = (s.head :: A) ++ a :: id :: (B ++ [s.tail]) := by
    simp [List.cons_append, List.append_assoc]
  rw [hsh] at hch
  have hprev : prevPtrAt s id 0 = some (some a) := LinkedAt_prev hch
  rw [Prev, getNode_eq_some s id hid_ok.lt]
  simp only [Option.bind_eq_bind, Option.pure_def, Option.some_bind]
  rw [← prevPtrAt_def s id 0 hid_ok.lt, hprev]
  simp only [Option.some_bind]
  rw [getNode_eq_some s a ha_ok.lt]
  simp only [Option.some_bind]
  rw [show (nodeAt s a).isEndNode = false from ha_ok.notEnd]
  rfl

/-- `Front` returns the raw level-0 successor of `head`: the first entry when
one exists, the tail sentinel otherwise. -/
theorem Front_spec (s : State) (row0 : List NodeId) (hInv : Inv s row0) :
    Front s = some (some (row0.headD s.tail)) := by
  have hch := chain0 s row0 hInv
  have hF : Front s = nextPtrAt s s.head 0 := by
    rw [Front, nextPtrAt]
  rw [hF]
  cases hr : row0 with
  | nil =>
    rw [hr] at hch
    exact @LinkedAt_next s 0 [] [] s.head s.tail hch
  | cons r R =>
    rw [hr] at hch
    have hsh : s.head :: (r :: R) ++ [s.tail]
        = ([] : List NodeId) ++ s.head :: r :: (R ++ [s.tail]) := by
      simp [List.cons_append]
    rw [hsh] at hch
    exact LinkedAt_next hch

/-- `Back` returns the raw level-0 predecessor of `tail`: the last entry when
one exists, the head sentinel otherwise. -/
theorem Back_spec (s : State) (row0 : List NodeId) (hInv : Inv s row0) :
    Back s = some (some (row0.getLastD s.head)) := by
  have hch := chain0 s row0 hInv
  have hB : Back s = prevPtrAt s s.tail 0 := by
    rw [Back, prevPtrAt]
  rw [hB]
  have hsh : s.head :: row0 ++ [s.tail]
      = (s.head :: row0).dropLast ++ row0.getLastD s.head :: s.tail :: [] := by
    conv_lhs => rw [show s.head :: row0 ++ [s.tail] = (s.head :: row0) ++ [s.tail] from rfl,
      cons_eq_dropLast_getLastD s.head row0]
    simp [List.append_assoc]
  rw [hsh] at hch
  exact LinkedAt_prev hch


theorem walkNext_spec (s : State) (row0 : List NodeId) (hInv : Inv s row0) :
    ∀ (B A : List NodeId) (id : NodeId), row0 = A ++ id :: B →
      ∀ fuel, B.length + 1 ≤ fuel → walkNext s fuel id = some (id :: B) := by
  intro B
  induction B with
  | nil =>
    intro A id hrow fuel hfuel
    cases fuel with
    | zero => omega
    | succ f =>
      rw [walkNext, Next_real_last s row0 hInv A id hrow]
      rfl
  | cons b B' ih =>
    intro A id hrow fuel hfuel
    cases fuel with
    | zero => omega
    | succ f =>
      rw [walkNext, Next_real_mid s row0 hInv A B' id b hrow]
      simp only [Option.bind_eq_bind, Option.pure_def, Option.some_bind]
      have hrow' : row0 = (A ++ [id]) ++ b :: B' := by
        rw [hrow]
        simp [List.append_assoc]
      rw [ih (A ++ [id]) b hrow' f (by simp at hfuel; omega)]
      rfl

theorem walkPrev_spec (s : State) (row0 : List NodeId) (hInv : Inv s row0) :
    ∀ (A B : List NodeId) (id : NodeId), row0 = A ++ id :: B →
      ∀ fuel, A.length + 1 ≤ fuel → walkPrev s fuel id = some (id :: A.reverse) := by
  intro A
  induction A using List.reverseRecOn with
  | nil =>
    intro B id hrow fuel hfuel
    cases fuel with
    | zero => omega
    | succ f =>
      rw [walkPrev, Prev_real_head s row0 hInv B id hrow]
      rfl
  | append_singleton A' a ih =>
    intro B id hrow fuel hfuel
    cases fuel with
    | zero => omega
    | succ f =>
      have hrow2 : row0 = A' ++ a :: id :: B := by
        rw [hrow]
        simp [List.append_assoc]
      rw [walkPrev, Prev_real_mid s row0 hInv A' B a id hrow2]
      simp only [Option.bind_eq_bind, Option.pure_def, Option.some_bind]
      have hrow' : row0 = A' ++ a :: (id :: B) := hrow2
      rw [ih (id :: B) a hrow' f (by simp at hfuel; omega)]
      simp

theorem row0_length_le (s : State) (row0 : List NodeId) (hInv : Inv s row0) :
    row0.length ≤ s.heap.length :=
  length_le_of_nodup_lt row0 s.heap.length hInv.hnodup
    (fun x hx => (hInv.hnodes x hx).lt)

/-- `Front` then repeated `Next` on a nonempty list visits exactly the
entries, in order. -/
theorem frontTraversal_spec (s : State) (row0 : List NodeId) (hInv : Inv s row0)
    (r : NodeId) (R : List NodeId) (hrow : row0 = r :: R) :
    frontTraversal s = some row0 := by
  have hF := Front_spec s row0 hInv
  rw [hrow] at hF
  rw [frontTraversal, hF]
  simp only [Option.bind_eq_bind, Option.some_bind, List.headD_cons]
  have hlen := row0_length_le s row0 hInv
  rw [hrow] at hlen
  rw [List.length_cons] at hlen
  have hfuel : R.length + 1 ≤ s.heap.length + 1 := by omega
  rw [walkNext_spec s row0 hInv R [] r (by rw [hrow]; rfl) (s.heap.length + 1) hfuel]
  rw [hrow]

/-- On the empty list the raw `Front` pointer is the tail sentinel, and the
traversal visits it. -/
theorem frontTraversal_empty (s : State) (hInv : Inv s []) :
    frontTraversal s = some [s.tail] := by
  have hF := Front_spec s [] hInv
  rw [frontTraversal, hF]
  simp only [Option.bind_eq_bind, Option.some_bind, List.headD_nil]
  rw [walkNext]
  have hN : Next s s.tail = some none := by
    rw [Next, getNode_eq_some s s.tail hInv.htail]
    simp only [Option.bind_eq_bind, Option.pure_def, Option.some_bind]
    rw [← nextPtrAt_def s s.tail 0 hInv.htail, hInv.htailNext 0 hInv.hml]
    rfl
  rw [hN]
  rfl

/-- `Back` then repeated `Prev` on a nonempty list visits exactly the
entries, in reverse order. -/
theorem backTraversal_spec (s : State) (row0 : List NodeId) (hInv : Inv s row0)
    (r : NodeId) (R : List NodeId) (hrow : row0 = R ++ [r]) :
    backTraversal s = some row0.reverse := by
  have hB := Back_spec s row0 hInv
  rw [hrow] at hB
  simp only [List.getLastD_concat] at hB
  rw [backTraversal, hB]
  simp only [Option.bind_eq_bind, Option.some_bind]
  have hlen := row0_length_le s row0 hInv
  rw [hrow] at hlen
  rw [List.length_append, List.length_singleton] at hlen
  have hfuel : R.length + 1 ≤ s.heap.length + 1 := by omega
  rw [walkPrev_spec s row0 hInv R [] r (by rw [hrow]) (s.heap.length + 1) hfuel]
  rw [hrow]
  simp

theorem backTraversal_empty (s : State) (hInv : Inv s []) :
    backTraversal s = some [s.head] := by
  have hB := Back_spec s [] hInv
  rw [backTraversal, hB]
  simp only [Option.bind_eq_bind, Option.some_bind, List.getLastD_nil]
  rw [walkPrev]
  have hP : Prev s s.head = some none := by
    rw [Prev, getNode_eq_some s s.head hInv.hhead]
    simp only [Option.bind_eq_bind, Option.pure_def, Option.some_bind]
    rw [← prevPtrAt_def s s.head 0 hInv.hhead, hInv.hheadPrev 0 hInv.hml]
    rfl
  rw [hP]
  rfl


theorem walkLevel_spec (s : State) (L : Nat) :
    ∀ (c : List NodeId) (id : NodeId), LinkedAt s L (id :: (c ++ [s.tail])) →
      id ≠ s.tail → (∀ x ∈ c, x ≠ s.tail) →
      ∀ fuel, c.length + 2 ≤ fuel →
        walkLevel s L fuel id = some (id :: (c ++ [s.tail])) := by
  intro c
  induction c with
  | nil =>
    intro id hlk hid _ fuel hfuel
    cases fuel with
    | zero => omega
    | succ f =>
      rw [walkLevel, if_neg hid, hlk.1]
      simp only [Option.bind_eq_bind, Option.pure_def, Option.some_bind]
      cases f with
      | zero => omega
      | succ f' =>
        rw [walkLevel, if_pos rfl]
        rfl
  | cons b c' ih =>
    intro id hlk hid hc fuel hfuel
    cases fuel with
    | zero => omega
    | succ f =>
      rw [walkLevel, if_neg hid, hlk.1]
      simp only [Option.bind_eq_bind, Option.pure_def, Option.some_bind]
      rw [ih b hlk.2.2 (hc b (List.mem_cons_self b c'))
        (fun x hx => hc x (List.mem_cons_of_mem b hx)) f (by simp at hfuel; omega)]
      rfl

/-- The raw forward chain from `head` at any in-range level is the sentinels
around exactly the entries whose height exceeds the level. -/
theorem levelChain_spec (s : State) (row0 : List NodeId) (hInv : Inv s row0)
    (L : Nat) (hL : L < s.maxLevel) :
    levelChain s L = some (s.head :: rowAt s row0 L ++ [s.tail]) := by
  have hch := hInv.hlinked L hL
  have hrmem := rowAt_sub_facts s row0 hInv L
  have hnodup := chain_nodup s row0 hInv L
  have hmemlt := chain_mem_lt s row0 hInv L
  have hclen : (s.head :: rowAt s row0 L ++ [s.tail]).length ≤ s.heap.length :=
    length_le_of_nodup_lt _ s.heap.length hnodup hmemlt
  rw [List.length_append, List.length_cons, List.length_singleton] at hclen
  have hfuel : (rowAt s row0 L).length + 2 ≤ s.heap.length + 1 := by omega
  rw [levelChain]
  rw [walkLevel_spec s L (rowAt s row0 L) s.head hch (hInv.hht)
    (fun x hx => (hrmem x hx).2.2.1) (s.heap.length + 1) hfuel]
  rfl

/-- The level-0 entries read off the raw chain are the entry list. -/
theorem level0Entries_spec (s : State) (row0 : List NodeId) (hInv : Inv s row0) :
    level0Entries s = some (entriesOf s row0) := by
  rw [level0Entries, levelChain_spec s row0 hInv 0 hInv.hml, row0_at_zero s row0 hInv]
  simp only [Option.bind_eq_bind, Option.some_bind]
  congr 1
  rw [show (s.head :: row0 ++ [s.tail]).drop 1 = row0 ++ [s.tail] from rfl]
  rw [List.dropLast_concat]
  rfl


/-! ## The level generator -/

theorem randomLevelAux_range (m : Nat) (draws : Nat → Nat) :
    ∀ fuel k level, m - level ≤ fuel → 1 ≤ level → level ≤ m →
      1 ≤ randomLevelAux m draws k level ∧ randomLevelAux m draws k level ≤ m := by
  intro fuel
  induction fuel with
  | zero =>
    intro k level hfuel h1 hm
    have hlm : level = m := by omega
    rw [randomLevelAux, if_neg (by omega)]
    exact ⟨h1, hm⟩
  | succ f ih =>
    intro k level hfuel h1 hm
    rw [randomLevelAux]
    by_cases hlt : level < m
    · rw [if_pos hlt]
      by_cases hd : prob < draws k
      · rw [if_pos hd]
        exact ih (k + 1) (level + 1) (by omega) (by omega) (by omega)
      · rw [if_neg hd]
        exact ⟨h1, hm⟩
    · rw [if_neg hlt]
      exact ⟨h1, hm⟩

/-- The height drawn for an insert always lies in `1 .. maxLevel`. -/
theorem randomLevel_mem_range (m : Nat) (draws : Nat → Nat) (hm : 1 ≤ m) :
    1 ≤ randomLevel m draws ∧ randomLevel m draws ≤ m := by
  rw [randomLevel]
  exact randomLevelAux_range m draws (m - 1) 0 1 (by omega) (le_refl 1) hm


/-! ## Lookup laws of the abstract run -/

theorem specLookup_specSet_self (k : Key) (v : Value) :
    ∀ es : List SkipListItem,
      specLookup k (specSet k v es) = some { key := k, value := v } := by
  intro es
  induction es with
  | nil =>
    rw [specSet, specLookup, if_pos rfl]
  | cons e es ih =>
    rw [specSet]
    by_cases hlt : keyLt k e.key
    · rw [if_pos hlt, specLookup, if_pos rfl]
    · rw [if_neg hlt]
      by_cases heq : k = e.key
      · rw [if_pos heq, specLookup, if_pos rfl]
      · rw [if_neg heq, specLookup, if_neg (fun h => heq h.symm)]
        exact ih

theorem specLookup_specSet_other (k k' : Key) (hne : k' ≠ k) (v : Value) :
    ∀ es : List SkipListItem,
      specLookup k' (specSet k v es) = specLookup k' es := by
  have hkk : ¬(({ key := k, value := v } : SkipListItem).key = k') :=
    fun h => hne (Eq.symm h)
  intro es
  induction es with
  | nil =>
    show specLookup k' [{ key := k, value := v }] = none
    rw [specLookup, if_neg hkk]
    rfl
  | cons e es ih =>
    rw [specSet]
    by_cases hlt : keyLt k e.key
    · rw [if_pos hlt]
      rw [specLookup, if_neg hkk]
    · rw [if_neg hlt]
      by_cases heq : k = e.key
      · rw [if_pos heq]
        have hek : ¬(e.key = k') := fun h => hne (heq.trans h).symm
        rw [specLookup, if_neg hkk, specLookup, if_neg hek]
      · rw [if_neg heq]
        rw [specLookup, specLookup, ih]

theorem specLookup_specRemove_self (k : Key) (es : List SkipListItem) :
    specLookup k (specRemove k es) = none := by
  apply specLookup_none_of_all_ne
  intro e he
  have := List.of_mem_filter he
  simpa using this

theorem specLookup_eq_none_iff (k : Key) :
    ∀ es : List SkipListItem,
      specLookup k es = none ↔ ∀ e ∈ es, e.key ≠ k := by
  intro es
  induction es with
  | nil => simp [specLookup]
  | cons e es ih =>
    rw [specLookup]
    by_cases he : e.key = k
    · rw [if_pos he]
      simp only [List.mem_cons]
      constructor
      · intro h
        exact absurd h (by simp)
      · intro h
        exact absurd he (h e (Or.inl rfl))
    · rw [if_neg he, ih]
      simp only [List.mem_cons]
      constructor
      · intro h x hx
        rcases hx with hx | hx
        · rw [hx]
          exact he
        · exact h x hx
      · intro h x hx
        exact h x (Or.inr hx)

/-- Whether an operation is a `Set`. -/
def Op.isSet : Op → Bool
  | .set _ _ _ => true
  | .remove _ => false

/-- The most recent value a sequence of operations sets for a key (later
operations win; `Remove` is not considered). -/
def lastValue (k : Key) : List Op → Option Value
  | [] => none
  | op :: ops =>
    match lastValue k ops with
    | some v => some v
    | none =>
      match op with
      | .set k' v _ => if k' = k then some v else none
      | .remove _ => none

/-- The keys named by the `Set` operations of a sequence, in order. -/
def setKeys : List Op → List Key
  | [] => []
  | .set k _ _ :: ops => k :: setKeys ops
  | .remove _ :: ops => setKeys ops

theorem specRun_lookup (k : Key) :
    ∀ (ops : List Op) (es : List SkipListItem),
      (∀ op ∈ ops, op.isSet = true) →
      specLookup k (specRun es ops)
        = match lastValue k ops with
          | some v => some { key := k, value := v }
          | none => specLookup k es := by
  intro ops
  induction ops with
  | nil =>
    intro es _
    rfl
  | cons op ops ih =>
    intro es hsets
    cases op with
    | remove k0 =>
      exact absurd (hsets _ (List.mem_cons_self _ _)) (by simp [Op.isSet])
    | set k0 v0 l0 =>
      have hsets' : ∀ op ∈ ops, op.isSet = true :=
        fun op ho => hsets op (List.mem_cons_of_mem _ ho)
      rw [show specRun es (Op.set k0 v0 l0 :: ops)
        = specRun (specSet k0 v0 es) ops from rfl]
      rw [ih (specSet k0 v0 es) hsets']
      rw [lastValue]
      cases hlv : lastValue k ops with
      | some v => rfl
      | none =>
        dsimp only
        by_cases hk : k0 = k
        · rw [if_pos hk]
          subst hk
          exact specLookup_specSet_self k0 v0 es
        · rw [if_neg hk]
          exact specLookup_specSet_other k0 k (Ne.symm hk) v0 es

theorem lastValue_none_iff (k : Key) :
    ∀ ops : List Op, (∀ op ∈ ops, op.isSet = true) →
      (lastValue k ops = none ↔ k ∉ setKeys ops) := by
  intro ops
  induction ops with
  | nil => simp [lastValue, setKeys]
  | cons op ops ih =>
    intro hsets
    have hsets' : ∀ op ∈ ops, op.isSet = true :=
      fun op ho => hsets op (List.mem_cons_of_mem _ ho)
    cases op with
    | remove k0 =>
      exact absurd (hsets _ (List.mem_cons_self _ _)) (by simp [Op.isSet])
    | set k0 v0 l0 =>
      rw [lastValue, setKeys]
      cases hlv : lastValue k ops with
      | some v =>
        have hin : k ∈ setKeys ops := by
          by_contra hni
          rw [(ih hsets').mpr hni] at hlv
          exact absurd hlv (by simp)
        simp only [List.mem_cons]
        constructor
        · intro h
          exact absurd h (by simp)
        · intro h
          exact absurd (Or.inr hin) h
      | none =>
        have hnotin := (ih hsets').mp hlv
        dsimp only
        by_cases hk : k0 = k
        · rw [if_pos hk]
          simp only [List.mem_cons]
          constructor
          · intro h
            exact absurd h (by simp)
          · intro h
            exact absurd (Or.inl hk.symm) h
        · rw [if_neg hk]
          simp only [List.mem_cons]
          constructor
          · intro _ hc
            rcases hc with hc | hc
            · exact hk hc.symm
            · exact hnotin hc
          · intro _
            trivial


theorem specLookup_ne_none_iff (k : Key) (es : List SkipListItem) :
    specLookup k es ≠ none ↔ k ∈ es.map (fun e => e.key) := by
  rw [Ne, specLookup_eq_none_iff]
  constructor
  · intro h
    by_contra hn
    apply h
    intro e he hek
    exact hn (List.mem_map.mpr ⟨e, he, hek⟩)
  · intro h hnone
    obtain ⟨e, he, hek⟩ := List.mem_map.mp h
    exact (hnone e he) hek

theorem entriesOf_keys_pairwise (s : State) (row0 : List NodeId) (hInv : Inv s row0) :
    ((entriesOf s row0).map (fun e => e.key)).Pairwise
      (fun a b => keyLt a b = true) := by
  rw [entriesOf, List.map_map, List.pairwise_map]
  exact hInv.hsorted

theorem entriesOf_keys_nodup (s : State) (row0 : List NodeId) (hInv : Inv s row0) :
    ((entriesOf s row0).map (fun e => e.key)).Nodup := by
  have hp := entriesOf_keys_pairwise s row0 hInv
  exact hp.imp (fun hab => keyLt_ne _ _ hab)


/-- Reachability: a fresh list plus any legal operation sequence yields an
invariant state whose entries are the abstract run from empty. -/
theorem reachable_spec (m : Nat) (hm : 1 ≤ m) (ops : List Op) (hok : OpsOk m ops) :
    ∃ s0 s row0, New (m : Int) = some s0 ∧ runOps s0 ops = some s
      ∧ Inv s row0 ∧ s.maxLevel = m ∧ 2 ≤ s.heap.length
      ∧ entriesOf s row0 = specRun [] ops := by
  obtain ⟨s0, h0, hInv0, hml0, _, _, _, hhl0⟩ := New_spec m hm
  have hok0 : OpsOk s0.maxLevel ops := by
    rw [hml0]
    exact hok
  obtain ⟨s, row, hrun, hInv, hml, _, _, hhl, _, hent⟩ :=
    runOps_spec s0 [] hInv0 ops hok0
  have h2 : 2 ≤ s.heap.length := by omega
  refine ⟨s0, s, row, h0, hrun, hInv, hml.trans hml0, h2, ?_⟩
  rw [hent]
  rfl


/-! ## Lock placement

`findInternal` takes the mutex and releases it (via `defer`) when it
returns; `insertNode` and `deleteNode` each take it again. A `Set` or
`Remove` is therefore two separate critical sections, not one: another
call's critical sections may interleave between a search and the splice
that consumes the shared `history` buffer the search recorded. The runs
below realize one such interleaving of two `Set`s against the serial
orders. -/

/-- A one-level list holding the single key `[98]`. -/
def c8Start : Option State := do
  let s0 ← New 1
  Set s0 [98] [0] 1

/-- Caller A searches for `[99]`, then B searches for `[97]` and splices its
node, then A splices — reading the history B's search left behind. Each line
is one critical section under the source's lock placement. -/
def c8Interleaved : Option State := do
  let s1 ← c8Start
  let (sA, _) ← findInternal s1 [99]
  let (sB, _) ← findInternal sA [97]
  let sB2 ← insertNode sB [97] [1] 1
  insertNode sB2 [99] [2] 1

/-- The same two `Set`s, A first. -/
def c8SerialAB : Option State := do
  let s1 ← c8Start
  let s2 ← Set s1 [99] [2] 1
  Set s2 [97] [1] 1

/-- The same two `Set`s, B first. -/
def c8SerialBA : Option State := do
  let s1 ← c8Start
  let s2 ← Set s1 [97] [1] 1
  Set s2 [99] [2] 1

theorem c8Interleaved_entries : c8Interleaved.bind level0Entries
    = some [{ key := [99], value := [2] }, { key := [97], value := [1] },
        { key := [98], value := [0] }] := by
  rfl

theorem c8SerialAB_entries : c8SerialAB.bind level0Entries
    = some [{ key := [97], value := [1] }, { key := [98], value := [0] },
        { key := [99], value := [2] }] := by
  rfl

theorem c8SerialBA_entries : c8SerialBA.bind level0Entries
    = some [{ key := [97], value := [1] }, { key := [98], value := [0] },
        { key := [99], value := [2] }] := by
  rfl

theorem c8Interleaved_get_lost :
    (c8Interleaved.bind (fun s => Get s [98])).map (fun p => p.2) = some none
      ∧ (c8Interleaved.bind (fun s => Get s [97])).map (fun p => p.2) = some none := by
  exact ⟨rfl, rfl⟩


/-! ## The claims -/

theorem findRes_of_specLookup_none (s : State) (key : Key) (row0 : List NodeId)
    (hsorted : row0.Pairwise (fun a b => keyLt (nodeKey s a) (nodeKey s b) = true))
    (h : specLookup key (entriesOf s row0) = none) :
    findRes s key row0 = none := by
  cases hres : findRes s key row0 with
  | none => rfl
  | some d =>
    have hfe := findRes_entries s key row0 hsorted
    rw [hres, h] at hfe
    exact absurd hfe (by simp)

theorem findRes_of_specLookup_some (s : State) (key : Key) (row0 : List NodeId)
    (hsorted : row0.Pairwise (fun a b => keyLt (nodeKey s a) (nodeKey s b) = true))
    (item : SkipListItem)
    (h : specLookup key (entriesOf s row0) = some item) :
    ∃ d, findRes s key row0 = some d ∧ (nodeAt s d).item = item := by
  cases hres : findRes s key row0 with
  | none =>
    have hfe := findRes_entries s key row0 hsorted
    rw [hres, h] at hfe
    simp at hfe
  | some d =>
    have hfe := findRes_entries s key row0 hsorted
    rw [hres, h] at hfe
    have hfe2 : (some ((nodeAt s d).item) : Option SkipListItem) = some item := hfe
    exact ⟨d, rfl, Option.some.inj hfe2⟩

/-- C1 (counterexample): `Set` on an existing key rewrites the value in place
but never touches `size`: after `Set "a" [0,0]` then `Set "a" [0]` the single
entry sums to 2 bytes while `Size` still reports 3. -/
theorem C1_counterexample :
    ∃ s0 s1 s2, New 1 = some s0 ∧ Set s0 [97] [0, 0] 1 = some s1
      ∧ Set s1 [97] [0] 1 = some s2
      ∧ level0Entries s2 = some [{ key := [97], value := [0] }]
      ∧ Size s2 = 3
      ∧ ([97] : Key).length + ([0] : Value).length = 2 := by
  exact ⟨_, _, _, rfl, rfl, rfl, rfl, rfl, rfl⟩

/-- C1 (amended): `size` is adjusted only by inserts (`+ len(key)+len(value)`,
wrapping mod 2^64) and deletes (`-` the stored entry's byte lengths); a
value-replacing `Set` leaves `size` unchanged — no byte-length delta is
applied. -/
theorem C1_amended (m : Nat) (hm : 1 ≤ m) (ops : List Op) (hok : OpsOk m ops)
    (k : Key) (v : Value) (lvl : Nat) (hl1 : 1 ≤ lvl) (hlm : lvl ≤ m) :
    ∃ s0 s, New (m : Int) = some s0 ∧ runOps s0 ops = some s
      ∧ (∀ s' item, Get s k = some (s', some item) →
          ∃ s2, Set s k v lvl = some s2 ∧ Size s2 = Size s)
      ∧ (∀ s', Get s k = some (s', none) →
          ∃ s2, Set s k v lvl = some s2
            ∧ Size s2 = u64add (u64add (Size s) k.length) v.length)
      ∧ (∀ s' item, Get s k = some (s', some item) →
          ∃ s2, Remove s k = some s2
            ∧ Size s2 = u64sub (u64sub (Size s) k.length) item.value.length) := by
  obtain ⟨s0, s, row0, h0, hrun, hInv, hml, _, _⟩ := reachable_spec m hm ops hok
  obtain ⟨hg', hget, _, _⟩ := Get_spec s k row0 hInv
  refine ⟨s0, s, h0, hrun, ?_, ?_, ?_⟩
  · intro s' item hGet
    rw [hget] at hGet
    simp only [Option.some.injEq, Prod.mk.injEq] at hGet
    have hlook : specLookup k (entriesOf s row0) = some item := hGet.2
    obtain ⟨d, hres, _⟩ := findRes_of_specLookup_some s k row0 hInv.hsorted item hlook
    obtain ⟨h2, hrun2, _, _, _, hsz, _⟩ := Set_found_spec s k v lvl row0 hInv d hres
    exact ⟨_, hrun2, hsz⟩
  · intro s' hGet
    rw [hget] at hGet
    simp only [Option.some.injEq, Prod.mk.injEq] at hGet
    have hlook : specLookup k (entriesOf s row0) = none := hGet.2
    have hres := findRes_of_specLookup_none s k row0 hInv.hsorted hlook
    obtain ⟨s2, hrun2, _, _, _, _, _, _, hsz, _, _⟩ :=
      Set_fresh_spec s k v lvl row0 hInv hres hl1 (by omega)
    exact ⟨s2, hrun2, hsz⟩
  · intro s' item hGet
    rw [hget] at hGet
    simp only [Option.some.injEq, Prod.mk.injEq] at hGet
    have hlook : specLookup k (entriesOf s row0) = some item := hGet.2
    obtain ⟨d, hres, hitem⟩ := findRes_of_specLookup_some s k row0 hInv.hsorted item hlook
    obtain ⟨s2, rest, _, hrun2, _, _, _, _, _, _, hsz, _, _⟩ :=
      Remove_found_spec s k row0 hInv d hres
    refine ⟨s2, hrun2, ?_⟩
    rw [show Size s2 = s2.size from rfl, hsz, hitem]
    rfl

/-- C1 (witness): the amended statement at `m = 1` over the one-op run
`Set [97] [0,0]`. -/
theorem C1_amended_witness :
    1 ≤ 1 ∧ OpsOk 1 [Op.set [97] [0, 0] 1] ∧ 1 ≤ 1 ∧ 1 ≤ 1
      ∧ (∃ s0 s, New (1 : Int) = some s0
        ∧ runOps s0 [Op.set [97] [0, 0] 1] = some s
        ∧ (∀ s' item, Get s [97] = some (s', some item) →
            ∃ s2, Set s [97] [0] 1 = some s2 ∧ Size s2 = Size s)
        ∧ (∀ s', Get s [97] = some (s', none) →
            ∃ s2, Set s [97] [0] 1 = some s2
              ∧ Size s2 = u64add (u64add (Size s) ([97] : Key).length)
                  ([0] : Value).length)
        ∧ (∀ s' item, Get s [97] = some (s', some item) →
            ∃ s2, Remove s [97] = some s2
              ∧ Size s2 = u64sub (u64sub (Size s) ([97] : Key).length)
                  item.value.length)) :=
  ⟨le_refl 1, by decide, le_refl 1, le_refl 1,
    C1_amended 1 (le_refl 1) [Op.set [97] [0, 0] 1] (by decide) [97] [0] 1
      (le_refl 1) (le_refl 1)⟩


/-- C2 (counterexample): on the empty list `Front` does not report "none" —
it returns the raw tail-sentinel pointer (and `Back` the head sentinel),
because the source returns `head.nextNode[0]` with no sentinel check. -/
theorem C2_counterexample :
    ∃ s, New 1 = some s ∧ Length s = 0
      ∧ Front s = some (some s.tail) ∧ nodeIsEnd s s.tail = true
      ∧ Back s = some (some s.head) ∧ nodeIsEnd s s.head = true := by
  exact ⟨_, rfl, rfl, rfl, rfl, rfl, rfl⟩

/-- C2 (amended): `Front` returns the raw level-0 successor of `head` — the
first entry when the list is nonempty, the tail sentinel (not nil) when it
is empty; `Back` mirrors this with the head sentinel. -/
theorem C2_amended (m : Nat) (hm : 1 ≤ m) (ops : List Op) (hok : OpsOk m ops) :
    ∃ s0 s row0, New (m : Int) = some s0 ∧ runOps s0 ops = some s ∧ Inv s row0
      ∧ Front s = some (some (row0.headD s.tail))
      ∧ Back s = some (some (row0.getLastD s.head))
      ∧ (∀ r R, row0 = r :: R → nodeIsEnd s r = false)
      ∧ (∀ r R, row0 = R ++ [r] → nodeIsEnd s r = false)
      ∧ (row0 = [] → nodeIsEnd s s.tail = true ∧ nodeIsEnd s s.head = true) := by
  obtain ⟨s0, s, row0, h0, hrun, hInv, _, _, _⟩ := reachable_spec m hm ops hok
  refine ⟨s0, s, row0, h0, hrun, hInv, Front_spec s row0 hInv, Back_spec s row0 hInv,
    ?_, ?_, ?_⟩
  · intro r R hrow
    have hr : r ∈ row0 := by
      rw [hrow]
      simp
    exact (hInv.hnodes r hr).notEnd
  · intro r R hrow
    have hr : r ∈ row0 := by
      rw [hrow]
      simp
    exact (hInv.hnodes r hr).notEnd
  · intro _
    exact ⟨hInv.htailE, hInv.hheadE⟩

/-- C2 (witness): the amended statement at `m = 1` over the empty run. -/
theorem C2_amended_witness :
    1 ≤ 1 ∧ OpsOk 1 []
      ∧ (∃ s0 s row0, New (1 : Int) = some s0 ∧ runOps s0 [] = some s ∧ Inv s row0
        ∧ Front s = some (some (row0.headD s.tail))
        ∧ Back s = some (some (row0.getLastD s.head))
        ∧ (∀ r R, row0 = r :: R → nodeIsEnd s r = false)
        ∧ (∀ r R, row0 = R ++ [r] → nodeIsEnd s r = false)
        ∧ (row0 = [] → nodeIsEnd s s.tail = true ∧ nodeIsEnd s s.head = true)) :=
  ⟨le_refl 1, by decide, C2_amended 1 (le_refl 1) [] (by decide)⟩

/-- C3 (counterexample): `New 0` does not fail fast — it returns a list
handle; the handle is unusable (every `Get`, `Set` and `Remove` on it
panics), but construction itself succeeds silently. -/
theorem C3_counterexample :
    ∃ s, New 0 = some s ∧ MaxLevel s = 0
      ∧ (∀ k, Get s k = none) ∧ (∀ k v l, Set s k v l = none)
      ∧ (∀ k, Remove s k = none) := by
  refine ⟨_, rfl, rfl, fun k => rfl, fun k v l => rfl, fun k => rfl⟩

/-- C3 (amended): only a negative `maxLevel` fails fast (the `make` call
panics); `maxLevel = 0` silently returns a handle on which every operation
panics. -/
theorem C3_amended (m : Int) (hneg : m < 0) :
    New m = none
      ∧ (∃ s, New 0 = some s ∧ (∀ k, Get s k = none)
        ∧ (∀ k v l, Set s k v l = none) ∧ (∀ k, Remove s k = none)) := by
  refine ⟨?_, _, rfl, fun k => rfl, fun k v l => rfl, fun k => rfl⟩
  rw [New, if_pos hneg]

/-- C3 (witness): the amended statement at `maxLevel = -1`. -/
theorem C3_amended_witness :
    (-1 : Int) < 0
      ∧ (New (-1) = none
        ∧ (∃ s, New 0 = some s ∧ (∀ k, Get s k = none)
          ∧ (∀ k v l, Set s k v l = none) ∧ (∀ k, Remove s k = none))) :=
  ⟨by decide, C3_amended (-1) (by decide)⟩


/-- C4: after any sequence of `Set` operations from a fresh list, `Get`
returns the most recently set value for every key set at least once, reports
not-found for keys never set, and `Length` is the number of distinct keys
set. -/
theorem C4_set_sequences (m : Nat) (hm : 1 ≤ m) (ops : List Op) (hok : OpsOk m ops)
    (hsets : ∀ op ∈ ops, op.isSet = true) :
    ∃ s0 s, New (m : Int) = some s0 ∧ runOps s0 ops = some s
      ∧ (∀ k v, lastValue k ops = some v →
          ∃ s', Get s k = some (s', some { key := k, value := v }))
      ∧ (∀ k, lastValue k ops = none → ∃ s', Get s k = some (s', none))
      ∧ Length s = ((setKeys ops).dedup.length : Int) := by
  obtain ⟨s0, s, row0, h0, hrun, hInv, hml, _, hent⟩ := reachable_spec m hm ops hok
  have hlookup : ∀ k, specLookup k (entriesOf s row0)
      = match lastValue k ops with
        | some v => some { key := k, value := v }
        | none => none := by
    intro k
    rw [hent, specRun_lookup k ops [] hsets]
    cases lastValue k ops <;> rfl
  refine ⟨s0, s, h0, hrun, ?_, ?_, ?_⟩
  · intro k v hlv
    obtain ⟨h', hget, _, _⟩ := Get_spec s k row0 hInv
    refine ⟨{ s with history := h' }, ?_⟩
    rw [hget, hlookup k, hlv]
  · intro k hlv
    obtain ⟨h', hget, _, _⟩ := Get_spec s k row0 hInv
    refine ⟨{ s with history := h' }, ?_⟩
    rw [hget, hlookup k, hlv]
  · have hkeysnd := entriesOf_keys_nodup s row0 hInv
    have hmemiff : ∀ k, k ∈ (entriesOf s row0).map (fun e => e.key)
        ↔ k ∈ (setKeys ops).dedup := by
      intro k
      have hmatch : (match lastValue k ops with
          | some v => some { key := k, value := v }
          | none => (none : Option SkipListItem)) ≠ none
          ↔ lastValue k ops ≠ none := by
        cases hlv : lastValue k ops <;> simp
      rw [List.mem_dedup, ← specLookup_ne_none_iff k (entriesOf s row0), hlookup k,
        hmatch, Ne, lastValue_none_iff k ops hsets, not_not]
    have hperm : ((entriesOf s row0).map (fun e => e.key)).Perm (setKeys ops).dedup := by
      apply List.perm_of_nodup_nodup_toFinset_eq hkeysnd (List.nodup_dedup _)
      ext k
      simp only [List.mem_toFinset]
      exact hmemiff k
    have hnat : row0.length = ((setKeys ops).dedup).length := by
      rw [← hperm.length_eq, List.length_map, entriesOf, List.length_map]
    show s.length = _
    rw [hInv.hlen, hnat]

/-- C4 (witness): three sets, one key overwritten: the final values are read
back and `Length` is 2. -/
theorem C4_set_sequences_witness :
    1 ≤ 1 ∧ OpsOk 1 [Op.set [97] [0] 1, Op.set [97] [1] 1, Op.set [98] [2] 1]
      ∧ (∀ op ∈ [Op.set [97] [0] 1, Op.set [97] [1] 1, Op.set [98] [2] 1],
          op.isSet = true)
      ∧ (∃ s0 s, New (1 : Int) = some s0
        ∧ runOps s0 [Op.set [97] [0] 1, Op.set [97] [1] 1, Op.set [98] [2] 1] = some s
        ∧ (∀ k v, lastValue k [Op.set [97] [0] 1, Op.set [97] [1] 1,
              Op.set [98] [2] 1] = some v →
            ∃ s', Get s k = some (s', some { key := k, value := v }))
        ∧ (∀ k, lastValue k [Op.set [97] [0] 1, Op.set [97] [1] 1,
              Op.set [98] [2] 1] = none → ∃ s', Get s k = some (s', none))
        ∧ Length s = ((setKeys [Op.set [97] [0] 1, Op.set [97] [1] 1,
            Op.set [98] [2] 1]).dedup.length : Int)) :=
  ⟨le_refl 1, by decide, by decide,
    C4_set_sequences 1 (le_refl 1) _ (by decide) (by decide)⟩


/-- C5 (counterexample): on the empty list the `Front`→`Next` traversal does
not visit "no entries" — it visits the tail sentinel (and `Back`→`Prev` the
head sentinel), because `Front` hands out the raw sentinel pointer. -/
theorem C5_counterexample :
    ∃ s, New 1 = some s ∧ Length s = 0
      ∧ frontTraversal s = some [s.tail] ∧ nodeIsEnd s s.tail = true
      ∧ backTraversal s = some [s.head] ∧ nodeIsEnd s s.head = true := by
  exact ⟨_, rfl, rfl, rfl, rfl, rfl, rfl⟩

/-- C5 (amended): on a nonempty list the `Front`→`Next` walk visits exactly
the entries once, in strictly increasing key order, and `Back`→`Prev` the
reverse; on the empty list each walk visits the opposite sentinel. At every
level `L` the forward chain from `head` is exactly the entries of height
`> L`, in the same strictly increasing order, between the sentinels. -/
theorem C5_amended (m : Nat) (hm : 1 ≤ m) (ops : List Op) (hok : OpsOk m ops) :
    ∃ s0 s row0, New (m : Int) = some s0 ∧ runOps s0 ops = some s ∧ Inv s row0
      ∧ (row0 ≠ [] → frontTraversal s = some row0
          ∧ backTraversal s = some row0.reverse)
      ∧ (row0 = [] → frontTraversal s = some [s.tail]
          ∧ backTraversal s = some [s.head])
      ∧ row0.Nodup
      ∧ row0.Pairwise (fun a b => keyLt (nodeKey s a) (nodeKey s b) = true)
      ∧ (∀ L, L < MaxLevel s →
          levelChain s L = some (s.head :: rowAt s row0 L ++ [s.tail])
          ∧ (∀ id ∈ rowAt s row0 L, L < nodeLevels s id)
          ∧ (∀ id ∈ row0, L < nodeLevels s id → id ∈ rowAt s row0 L)) := by
  obtain ⟨s0, s, row0, h0, hrun, hInv, hml, _, _⟩ := reachable_spec m hm ops hok
  refine ⟨s0, s, row0, h0, hrun, hInv, ?_, ?_, hInv.hnodup, hInv.hsorted, ?_⟩
  · intro hne
    obtain ⟨r, R, hrow⟩ := List.exists_cons_of_ne_nil hne
    refine ⟨frontTraversal_spec s row0 hInv r R hrow, ?_⟩
    have hner : row0.reverse ≠ [] := by
      simpa using hne
    obtain ⟨q, Q, hrev⟩ := List.exists_cons_of_ne_nil hner
    have hrow2 : row0 = Q.reverse ++ [q] := by
      have hq := congrArg List.reverse hrev
      simpa using hq
    exact backTraversal_spec s row0 hInv q Q.reverse hrow2
  · intro hrow
    subst hrow
    exact ⟨frontTraversal_empty s hInv, backTraversal_empty s hInv⟩
  · intro L hL
    refine ⟨levelChain_spec s row0 hInv L hL, ?_, ?_⟩
    · intro id hid
      have := List.of_mem_filter hid
      exact of_decide_eq_true this
    · intro id hid hlev
      exact List.mem_filter.mpr ⟨hid, decide_eq_true hlev⟩

/-- C5 (witness): the amended statement at `m = 1` over one insert. -/
theorem C5_amended_witness :
    1 ≤ 1 ∧ OpsOk 1 [Op.set [97] [0] 1]
      ∧ (∃ s0 s row0, New (1 : Int) = some s0
        ∧ runOps s0 [Op.set [97] [0] 1] = some s ∧ Inv s row0
        ∧ (row0 ≠ [] → frontTraversal s = some row0
            ∧ backTraversal s = some row0.reverse)
        ∧ (row0 = [] → frontTraversal s = some [s.tail]
            ∧ backTraversal s = some [s.head])
        ∧ row0.Nodup
        ∧ row0.Pairwise (fun a b => keyLt (nodeKey s a) (nodeKey s b) = true)
        ∧ (∀ L, L < MaxLevel s →
            levelChain s L = some (s.head :: rowAt s row0 L ++ [s.tail])
            ∧ (∀ id ∈ rowAt s row0 L, L < nodeLevels s id)
            ∧ (∀ id ∈ row0, L < nodeLevels s id → id ∈ rowAt s row0 L))) :=
  ⟨le_refl 1, by decide, C5_amended 1 (le_refl 1) [Op.set [97] [0] 1] (by decide)⟩


/-- C6: `Remove` of an absent key is a silent no-op preserving `Length`,
`Size` and the stored entries; after any successful `Remove`, `Get` of the
same key reports not-found, and a second `Remove` is a no-op that alters
neither `Length` nor `Size` nor the entries. -/
theorem C6_remove_semantics (m : Nat) (hm : 1 ≤ m) (ops : List Op)
    (hok : OpsOk m ops) (k : Key) :
    ∃ s0 s row0, New (m : Int) = some s0 ∧ runOps s0 ops = some s ∧ Inv s row0
      ∧ (∀ s', Get s k = some (s', none) →
          ∃ s2, Remove s k = some s2 ∧ Length s2 = Length s ∧ Size s2 = Size s
            ∧ level0Entries s2 = level0Entries s)
      ∧ (∀ s2, Remove s k = some s2 →
          (∃ s3, Get s2 k = some (s3, none))
          ∧ (∃ s4, Remove s2 k = some s4 ∧ Length s4 = Length s2
              ∧ Size s4 = Size s2 ∧ level0Entries s4 = level0Entries s2)) := by
  obtain ⟨s0, s, row0, h0, hrun, hInv, hml, _, _⟩ := reachable_spec m hm ops hok
  obtain ⟨hg', hget, _, _⟩ := Get_spec s k row0 hInv
  refine ⟨s0, s, row0, h0, hrun, hInv, ?_, ?_⟩
  · intro s' hGet
    rw [hget] at hGet
    simp only [Option.some.injEq, Prod.mk.injEq] at hGet
    have hres := findRes_of_specLookup_none s k row0 hInv.hsorted hGet.2
    obtain ⟨h', habs, hlen', hInv2, hent2⟩ := Remove_absent_spec s k row0 hInv hres
    refine ⟨_, habs, rfl, rfl, ?_⟩
    rw [level0Entries_spec _ row0 hInv2, level0Entries_spec s row0 hInv]
    rfl
  · intro s2 hrm
    cases hres : findRes s k row0 with
    | none =>
      obtain ⟨h', habs, hlen', hInv2, hent2⟩ := Remove_absent_spec s k row0 hInv hres
      rw [habs] at hrm
      have hs2 : s2 = { s with history := h' } := (Option.some.inj hrm).symm
      subst hs2
      have hlook2 : specLookup k (entriesOf { s with history := h' } row0) = none := by
        have hfe := findRes_entries s k row0 hInv.hsorted
        rw [hres] at hfe
        exact hfe.symm
      obtain ⟨hg2, hget2, _, _⟩ := Get_spec { s with history := h' } k row0 hInv2
      constructor
      · refine ⟨{ { s with history := h' } with history := hg2 }, ?_⟩
        rw [hget2, hlook2]
      · have hres2 : findRes { s with history := h' } k row0 = none :=
          findRes_of_specLookup_none _ k row0 hInv2.hsorted hlook2
        obtain ⟨h'', habs2, hlen'', hInv3, hent3⟩ :=
          Remove_absent_spec { s with history := h' } k row0 hInv2 hres2
        refine ⟨_, habs2, rfl, rfl, ?_⟩
        rw [level0Entries_spec _ row0 hInv3, level0Entries_spec _ row0 hInv2]
        rfl
    | some d =>
      obtain ⟨s4x, rest, hhigh, hfound, hInv2, _, _, _, _, _, _, _, hent2⟩ :=
        Remove_found_spec s k row0 hInv d hres
      rw [hfound] at hrm
      have hs2 : s2 = s4x := (Option.some.inj hrm).symm
      subst hs2
      have hlook2 : specLookup k (entriesOf s2 (lowIds s k row0 ++ rest)) = none := by
        rw [hent2]
        exact specLookup_specRemove_self k _
      obtain ⟨hg2, hget2, _, _⟩ := Get_spec s2 k _ hInv2
      constructor
      · refine ⟨{ s2 with history := hg2 }, ?_⟩
        rw [hget2, hlook2]
      · have hres2 : findRes s2 k (lowIds s k row0 ++ rest) = none :=
          findRes_of_specLookup_none _ k _ hInv2.hsorted hlook2
        obtain ⟨h'', habs2, hlen'', hInv3, hent3⟩ :=
          Remove_absent_spec s2 k _ hInv2 hres2
        refine ⟨_, habs2, rfl, rfl, ?_⟩
        rw [level0Entries_spec _ _ hInv3, level0Entries_spec _ _ hInv2]
        rfl

/-- C6 (witness): the semantics at `m = 1` after inserting one key. -/
theorem C6_remove_semantics_witness :
    1 ≤ 1 ∧ OpsOk 1 [Op.set [97] [0] 1]
      ∧ (∃ s0 s row0, New (1 : Int) = some s0
        ∧ runOps s0 [Op.set [97] [0] 1] = some s ∧ Inv s row0
        ∧ (∀ s', Get s [97] = some (s', none) →
            ∃ s2, Remove s [97] = some s2 ∧ Length s2 = Length s
              ∧ Size s2 = Size s ∧ level0Entries s2 = level0Entries s)
        ∧ (∀ s2, Remove s [97] = some s2 →
            (∃ s3, Get s2 [97] = some (s3, none))
            ∧ (∃ s4, Remove s2 [97] = some s4 ∧ Length s4 = Length s2
                ∧ Size s4 = Size s2 ∧ level0Entries s4 = level0Entries s2))) :=
  ⟨le_refl 1, by decide, C6_remove_semantics 1 (le_refl 1) [Op.set [97] [0] 1]
    (by decide) [97]⟩


/-- C7: `Set` of a present key rewrites the stored value in place: no node
is created, every pointer at every level, every node's height, the key's
traversal position and `Length` are unchanged, and the traversal afterwards
carries the single updated entry. -/
theorem C7_update_in_place (m : Nat) (hm : 1 ≤ m) (ops : List Op)
    (hok : OpsOk m ops) (k : Key) (v : Value) (lvl : Nat) :
    ∃ s0 s row0, New (m : Int) = some s0 ∧ runOps s0 ops = some s ∧ Inv s row0
      ∧ ∀ s' item, Get s k = some (s', some item) →
          ∃ s2, Set s k v lvl = some s2
            ∧ EqShape s s2 ∧ Inv s2 row0
            ∧ Length s2 = Length s
            ∧ (∀ L, L < MaxLevel s → levelChain s2 L = levelChain s L)
            ∧ frontTraversal s2 = some row0 ∧ frontTraversal s = some row0
            ∧ (∃ s3, Get s2 k = some (s3, some { key := k, value := v }))
            ∧ entriesOf s2 row0 = specSet k v (entriesOf s row0) := by
  obtain ⟨s0, s, row0, h0, hrun, hInv, hml, _, _⟩ := reachable_spec m hm ops hok
  obtain ⟨hg', hget, _, _⟩ := Get_spec s k row0 hInv
  refine ⟨s0, s, row0, h0, hrun, hInv, ?_⟩
  intro s' item hGet
  rw [hget] at hGet
  simp only [Option.some.injEq, Prod.mk.injEq] at hGet
  obtain ⟨d, hres, _⟩ := findRes_of_specLookup_some s k row0 hInv.hsorted item hGet.2
  obtain ⟨h2, hrun2, hlen2, hInv2, hsh, _, hent2⟩ :=
    Set_found_spec s k v lvl row0 hInv d hres
  obtain ⟨rest, hhigh, _⟩ := findRes_some_facts s k row0 d hres
  have hdmem : d ∈ row0 := by
    have hd0 : d ∈ highIds s k row0 := by
      rw [hhigh]
      exact List.mem_cons_self d rest
    have happ := lowIds_append_highIds s k row0
    rw [← happ]
    exact List.mem_append_right _ hd0
  have hne : row0 ≠ [] := by
    intro hnil
    rw [hnil] at hdmem
    simp at hdmem
  obtain ⟨r, R, hrow⟩ := List.exists_cons_of_ne_nil hne
  refine ⟨_, hrun2, hsh, hInv2, ?_, ?_, ?_, ?_, ?_, hent2⟩
  · show (writeValue { s with history := h2 } d v).length = s.length
    exact hsh.hln
  · intro L hL
    have hL2 : L < (writeValue { s with history := h2 } d v).maxLevel := by
      rw [hsh.hml]
      exact hL
    rw [levelChain_spec _ row0 hInv2 L hL2, levelChain_spec s row0 hInv L hL]
    rw [hsh.hhd, hsh.htl, rowAt_congr_of hsh.hlv row0 L]
  · exact frontTraversal_spec _ row0 hInv2 r R hrow
  · exact frontTraversal_spec s row0 hInv r R hrow
  · have hlook2 : specLookup k (entriesOf (writeValue { s with history := h2 } d v) row0)
        = some { key := k, value := v } := by
      rw [hent2]
      exact specLookup_specSet_self k v _
    obtain ⟨hg3, hget3, _, _⟩ := Get_spec (writeValue { s with history := h2 } d v) k row0 hInv2
    refine ⟨{ writeValue { s with history := h2 } d v with history := hg3 }, ?_⟩
    rw [hget3, hlook2]

/-- C7 (witness): the claim at `m = 1`, updating the single inserted key. -/
theorem C7_update_in_place_witness :
    1 ≤ 1 ∧ OpsOk 1 [Op.set [97] [0] 1]
      ∧ (∃ s0 s row0, New (1 : Int) = some s0
        ∧ runOps s0 [Op.set [97] [0] 1] = some s ∧ Inv s row0
        ∧ ∀ s' item, Get s [97] = some (s', some item) →
            ∃ s2, Set s [97] [5] 1 = some s2
              ∧ EqShape s s2 ∧ Inv s2 row0
              ∧ Length s2 = Length s
              ∧ (∀ L, L < MaxLevel s → levelChain s2 L = levelChain s L)
              ∧ frontTraversal s2 = some row0 ∧ frontTraversal s = some row0
              ∧ (∃ s3, Get s2 [97] = some (s3, some { key := [97], value := [5] }))
              ∧ entriesOf s2 row0 = specSet [97] [5] (entriesOf s row0)) :=
  ⟨le_refl 1, by decide,
    C7_update_in_place 1 (le_refl 1) [Op.set [97] [0] 1] (by decide) [97] [5] 1⟩


/-- C8 (counterexample): with the source's lock placement — `findInternal`
releases the mutex when it returns, `insertNode` re-acquires it — the
search and splice phases of two `Set` calls can interleave; the realized
schedule leaves the keys in the unsorted order `[99], [97], [98]` and makes
`Get` miss two present keys, an outcome neither serial order produces. -/
theorem C8_counterexample :
    c8Interleaved.bind level0Entries
        = some [{ key := [99], value := [2] }, { key := [97], value := [1] },
            { key := [98], value := [0] }]
      ∧ keyLt [99] [97] = false
      ∧ (c8Interleaved.bind (fun s => Get s [98])).map (fun p => p.2) = some none
      ∧ (c8Interleaved.bind (fun s => Get s [97])).map (fun p => p.2) = some none
      ∧ c8SerialAB.bind level0Entries
          = some [{ key := [97], value := [1] }, { key := [98], value := [0] },
              { key := [99], value := [2] }]
      ∧ c8SerialBA.bind level0Entries
          = some [{ key := [97], value := [1] }, { key := [98], value := [0] },
              { key := [99], value := [2] }] :=
  ⟨c8Interleaved_entries, rfl, c8Interleaved_get_lost.1, c8Interleaved_get_lost.2,
    c8SerialAB_entries, c8SerialBA_entries⟩

/-- C8 (amended): the mutex protects each phase — a search
(`findInternal`), a splice (`insertNode`) or an unlink (`deleteNode`) — but
not a whole `Set` or `Remove`: `findInternal`'s deferred unlock runs before
the splice re-locks. Runs in which every operation's phases are contiguous
(the serial runs) keep the entries sorted; between searches and splices of
different calls the shared history buffer can be overwritten, and the
realized interleaving corrupts the order. -/
theorem C8_amended (m : Nat) (hm : 1 ≤ m) (ops : List Op) (hok : OpsOk m ops) :
    (∃ s0 s row0, New (m : Int) = some s0 ∧ runOps s0 ops = some s ∧ Inv s row0
      ∧ row0.Pairwise (fun a b => keyLt (nodeKey s a) (nodeKey s b) = true))
      ∧ c8Interleaved.bind level0Entries
          = some [{ key := [99], value := [2] }, { key := [97], value := [1] },
              { key := [98], value := [0] }]
      ∧ keyLt [99] [97] = false
      ∧ c8SerialAB.bind level0Entries
          = some [{ key := [97], value := [1] }, { key := [98], value := [0] },
              { key := [99], value := [2] }]
      ∧ c8SerialBA.bind level0Entries
          = some [{ key := [97], value := [1] }, { key := [98], value := [0] },
              { key := [99], value := [2] }] := by
  obtain ⟨s0, s, row0, h0, hrun, hInv, _, _, _⟩ := reachable_spec m hm ops hok
  exact ⟨⟨s0, s, row0, h0, hrun, hInv, hInv.hsorted⟩, c8Interleaved_entries, rfl,
    c8SerialAB_entries, c8SerialBA_entries⟩

/-- C8 (witness): the amended statement at `m = 1` over the empty run. -/
theorem C8_amended_witness :
    1 ≤ 1 ∧ OpsOk 1 []
      ∧ ((∃ s0 s row0, New (1 : Int) = some s0 ∧ runOps s0 [] = some s ∧ Inv s row0
        ∧ row0.Pairwise (fun a b => keyLt (nodeKey s a) (nodeKey s b) = true))
        ∧ c8Interleaved.bind level0Entries
            = some [{ key := [99], value := [2] }, { key := [97], value := [1] },
                { key := [98], value := [0] }]
        ∧ keyLt [99] [97] = false
        ∧ c8SerialAB.bind level0Entries
            = some [{ key := [97], value := [1] }, { key := [98], value := [0] },
                { key := [99], value := [2] }]
        ∧ c8SerialBA.bind level0Entries
            = some [{ key := [97], value := [1] }, { key := [98], value := [0] },
                { key := [99], value := [2] }]) :=
  ⟨le_refl 1, by decide, C8_amended 1 (le_refl 1) [] (by decide)⟩


/-- C9: for a list of capacity `maxLevel ≥ 1`, the geometric level draw
starts at 1, increments only while below `maxLevel` and the draw says
continue, so the chosen height always lies in `1 .. maxLevel`; every stored
node's height is in that range, and the heights of existing nodes never
change under further operations. -/
theorem C9_height_range (m : Nat) (hm : 1 ≤ m) (draws : Nat → Nat)
    (ops : List Op) (hok : OpsOk m ops) (k : Key) (v : Value) :
    1 ≤ randomLevel m draws ∧ randomLevel m draws ≤ m
      ∧ OpOk m (Op.set k v (randomLevel m draws))
      ∧ (∃ s0 s row0, New (m : Int) = some s0 ∧ runOps s0 ops = some s ∧ Inv s row0
        ∧ (∀ id ∈ row0, 1 ≤ nodeLevels s id ∧ nodeLevels s id ≤ m)
        ∧ (∀ ops2, OpsOk m ops2 →
            ∃ s2 row2, runOps s ops2 = some s2 ∧ Inv s2 row2
              ∧ ∀ a, a < s.heap.length → nodeLevels s2 a = nodeLevels s a)) := by
  obtain ⟨hr1, hr2⟩ := randomLevel_mem_range m draws hm
  obtain ⟨s0, s, row0, h0, hrun, hInv, hml, _, _⟩ := reachable_spec m hm ops hok
  refine ⟨hr1, hr2, ⟨hr1, hr2⟩, s0, s, row0, h0, hrun, hInv, ?_, ?_⟩
  · intro id hid
    have hok2 := hInv.hnodes id hid
    refine ⟨hok2.lv1, ?_⟩
    rw [← hml]
    exact hok2.lvM
  · intro ops2 hok2
    have hok2' : OpsOk s.maxLevel ops2 := by
      rw [hml]
      exact hok2
    obtain ⟨s2, row2, hrun2, hInv2, _, _, _, _, hlv2, _⟩ :=
      runOps_spec s row0 hInv ops2 hok2'
    exact ⟨s2, row2, hrun2, hInv2, hlv2⟩

/-- C9 (witness): at `m = 2` with an all-continue draw stream and one
insert. -/
theorem C9_height_range_witness :
    1 ≤ 2 ∧ OpsOk 2 [Op.set [97] [0] 1]
      ∧ (1 ≤ randomLevel 2 (fun _ => 2 ^ 31) ∧ randomLevel 2 (fun _ => 2 ^ 31) ≤ 2
        ∧ OpOk 2 (Op.set [98] [1] (randomLevel 2 (fun _ => 2 ^ 31)))
        ∧ (∃ s0 s row0, New (2 : Int) = some s0
          ∧ runOps s0 [Op.set [97] [0] 1] = some s ∧ Inv s row0
          ∧ (∀ id ∈ row0, 1 ≤ nodeLevels s id ∧ nodeLevels s id ≤ 2)
          ∧ (∀ ops2, OpsOk 2 ops2 →
              ∃ s2 row2, runOps s ops2 = some s2 ∧ Inv s2 row2
                ∧ ∀ a, a < s.heap.length → nodeLevels s2 a = nodeLevels s a))) :=
  ⟨by decide, by decide,
    C9_height_range 2 (by decide) (fun _ => 2 ^ 31) [Op.set [97] [0] 1]
      (by decide) [98] [1]⟩

/-- C10 (implicit): from every reachable state the shared search runs to
completion — `findInternal` returns a result rather than panicking, because
each node it steps to at level `i` has height at least `i + 1`; the search
also leaves the level-`i` predecessor in `history[i]` for every level. -/
theorem C10_search_never_panics (m : Nat) (hm : 1 ≤ m) (ops : List Op)
    (hok : OpsOk m ops) (k : Key) :
    ∃ s0 s row0, New (m : Int) = some s0 ∧ runOps s0 ops = some s ∧ Inv s row0
      ∧ ∃ h' r, findInternal s k = some ({ s with history := h' }, r)
        ∧ h'.length = s.maxLevel
        ∧ (∀ L, L < s.maxLevel → h'[L]? = some (some (predAt s k row0 L))) := by
  obtain ⟨s0, s, row0, h0, hrun, hInv, _, _, _⟩ := reachable_spec m hm ops hok
  obtain ⟨h', hfind, hlen', hh'⟩ := findInternal_spec s k row0 hInv
  exact ⟨s0, s, row0, h0, hrun, hInv, h', findRes s k row0, hfind, hlen', hh'⟩

/-- C10 (witness): at `m = 1` with one stored key. -/
theorem C10_search_never_panics_witness :
    1 ≤ 1 ∧ OpsOk 1 [Op.set [97] [0] 1]
      ∧ (∃ s0 s row0, New (1 : Int) = some s0
        ∧ runOps s0 [Op.set [97] [0] 1] = some s ∧ Inv s row0
        ∧ ∃ h' r, findInternal s [98] = some ({ s with history := h' }, r)
          ∧ h'.length = s.maxLevel
          ∧ (∀ L, L < s.maxLevel → h'[L]? = some (some (predAt s [98] row0 L)))) :=
  ⟨le_refl 1, by decide,
    C10_search_never_panics 1 (le_refl 1) [Op.set [97] [0] 1] (by decide) [98]⟩

end Skiplist
